import Mathlib

/-!
# Page-replacement simulator: FIFO, LRU and OPT

A shallow embedding of the policy functions `fifo`, `lru` and `opt` of `src/src/vmsim.c` and of
their copies in `src/src/vmstats.c`, of the drivers of the two programs and of the generator
`src/src/vmgen.c`, followed by the properties proved about them.

* A frame table `int frames[MAX_FRAMES]`, of which the slots `0 .. num_frames-1` are used, is a
  `List Int` of length `num_frames`; the sentinel `-1` marks an empty slot. This is the table of
  the code for `num_frames ≤ MAX_FRAMES`; `fifoRun`, `lruRun` and `optRun` add the capacity of
  the array, beyond which the code has no defined result.
* `page_references` is a `List Int`, `num_references` its length.
* The counters `cnt`, `page_faults`, `next_frame`, `current_time` and the time stamps start at `0`
  and grow by at most one per reference, so they stay below `MAX_REFERENCES` and never wrap:
  they are natural numbers.
* Every `for` loop of the source is an instance of `forLoop`.
* The miss rate `(double)page_faults / num_references * 100` is a value of `Dbl`, a model of
  IEEE 754 binary64 arithmetic (`missRateDouble`); `missRate` is the same expression as an exact
  rational.
* The trace printed by vmsim.c is not part of the state; its fault marker at step `i` is the
  outcome of the residency scan on the table `fifoAt refs F i` (`lruAt`, `optAt`).
-/

namespace Vmsim

/-- The constant `MAX_FRAMES` (`#define MAX_FRAMES 100`). -/
def MAX_FRAMES : Nat := 100

/-- The constant `MAX_REFERENCES` (`#define MAX_REFERENCES 10000`). -/
def MAX_REFERENCES : Nat := 10000

/-- The loop `for (int i = lo; ...; i++) body`: `forLoop body i n s` runs `n` iterations,
the first one at index `i`, from state `s`. -/
def forLoop {σ : Type} (body : Nat → σ → σ) : Nat → Nat → σ → σ
  | _, 0, s => s
  | i, n + 1, s => forLoop body (i + 1) n (body i s)

/-- The initialisation loop `for (i = 0; i < num_frames; i++) frames[i] = -1;`, for
`num_frames ≤ MAX_FRAMES`, where every store is inside the array (see `initFrames`). -/
def emptyFrames (F : Nat) : List Int := List.replicate F (-1)

/-- The residency scan
`for (j = 0; j < num_frames; j++) if (frames[j] == page) { in_memory = 1; break; }`. -/
def inMemory : List Int → Int → Bool
  | [], _ => false
  | f :: rest, page => if f = page then true else inMemory rest page

/-- The slot at which the residency scan breaks: the first `j` with `frames[j] == page`. -/
def findSlot : List Int → Int → Option Nat
  | [], _ => none
  | f :: rest, page => if f = page then some 0 else (findSlot rest page).map (· + 1)

/-! ## fifo -/

/-- Local variables of `fifo` that live across iterations. -/
structure FifoState where
  frames : List Int
  page_faults : Nat
  next_frame : Nat
  cnt : Nat
deriving DecidableEq, Repr

/-- State of `fifo` on entry to the main loop. -/
def fifoInit (F : Nat) : FifoState :=
  { frames := emptyFrames F, page_faults := 0, next_frame := 0, cnt := 0 }

/-- One iteration of the main loop of `fifo` (vmsim.c lines 92-111), at index `i`. -/
def fifoBody (refs : List Int) (F : Nat) (i : Nat) (s : FifoState) : FifoState :=
  match refs[i]? with
  | none => s
  | some page =>
    if inMemory s.frames page then s
    else
      { frames := s.frames.set s.next_frame page
        next_frame := (s.next_frame + 1) % F
        cnt := s.cnt + 1
        page_faults := if s.cnt + 1 > F then s.page_faults + 1 else s.page_faults }

/-- State of `fifo` after the first `i` iterations of the main loop. -/
def fifoAt (refs : List Int) (F : Nat) (i : Nat) : FifoState :=
  forLoop (fifoBody refs F) 0 i (fifoInit F)

/-- State of `fifo` when the main loop has finished. -/
def fifo (refs : List Int) (F : Nat) : FifoState :=
  fifoAt refs F refs.length

/-! ## lru -/

/-- Local variables of `lru` that live across iterations. -/
structure LruState where
  frames : List Int
  page_faults : Nat
  time : List Nat
  current_time : Nat
  cnt : Nat
deriving DecidableEq, Repr

/-- State of `lru` on entry to the main loop. -/
def lruInit (F : Nat) : LruState :=
  { frames := emptyFrames F, page_faults := 0, time := List.replicate F 0,
    current_time := 0, cnt := 0 }

/-- Body of the scan `for (j = 1; j < num_frames; j++) if (time[j] < min_time) ...`;
the state is `(min_time, min_index)`. -/
def lruScanBody (time : List Nat) (j : Nat) (st : Nat × Nat) : Nat × Nat :=
  if time.getD j 0 < st.1 then (time.getD j 0, j) else st

/-- The scan for the minimal time stamp (vmsim.c lines 160-167): `(min_time, min_index)`. -/
def lruScan (time : List Nat) (F : Nat) : Nat × Nat :=
  forLoop (lruScanBody time) 1 (F - 1) (time.getD 0 0, 0)

/-- One iteration of the main loop of `lru` (vmsim.c lines 144-174), at index `i`. -/
def lruBody (refs : List Int) (F : Nat) (i : Nat) (s : LruState) : LruState :=
  match refs[i]? with
  | none => s
  | some page =>
    match findSlot s.frames page with
    | some j =>
      { s with time := s.time.set j s.current_time, current_time := s.current_time + 1 }
    | none =>
      let min_index := (lruScan s.time F).2
      { frames := s.frames.set min_index page
        time := s.time.set min_index s.current_time
        current_time := s.current_time + 1
        cnt := s.cnt + 1
        page_faults := if s.cnt + 1 > F then s.page_faults + 1 else s.page_faults }

/-- State of `lru` after the first `i` iterations of the main loop. -/
def lruAt (refs : List Int) (F : Nat) (i : Nat) : LruState :=
  forLoop (lruBody refs F) 0 i (lruInit F)

/-- State of `lru` when the main loop has finished. -/
def lru (refs : List Int) (F : Nat) : LruState :=
  lruAt refs F refs.length

/-! ## opt -/

/-- Local variables of `opt` that live across iterations (`next_use` is scratch space that is
rewritten for every slot before it is read). -/
structure OptState where
  frames : List Int
  page_faults : Nat
  cnt : Nat
deriving DecidableEq, Repr

/-- State of `opt` on entry to the main loop. -/
def optInit (F : Nat) : OptState :=
  { frames := emptyFrames F, page_faults := 0, cnt := 0 }

/-- The scan `for (k = ...; k < num_references; k++) if (page_references[k] == v) { ...; break; }`
over the references still to come, `k` being the index of the head of the list; the result is
the value left in `next_use[j]`, which is `N = num_references` when nothing is found. -/
def scanNext (v : Int) : List Int → Nat → Nat → Nat
  | [], _, N => N
  | r :: rest, k, N => if r = v then k else scanNext v rest (k + 1) N

/-- The value stored in `next_use[j]` at step `i` for a slot holding `v` (lines 223-233). -/
def nextUse (refs : List Int) (i : Nat) (v : Int) : Nat :=
  scanNext v (refs.drop (i + 1)) (i + 1) refs.length

/-- Body of the loop over the slots (lines 222-238); the state is
`(furthest_next_use, replace_index)`. -/
def optScanBody (refs : List Int) (i : Nat) (frames : List Int) (j : Nat)
    (st : Int × Int) : Int × Int :=
  if (nextUse refs i (frames.getD j 0) : Int) > st.1
  then ((nextUse refs i (frames.getD j 0) : Int), (j : Int)) else st

/-- The victim scan of `opt` (lines 220-238): `(furthest_next_use, replace_index)`. -/
def optScan (refs : List Int) (i : Nat) (frames : List Int) (F : Nat) : Int × Int :=
  forLoop (optScanBody refs i frames) 0 F (-1, -1)

/-- The array store `a[idx] = v` with an `int` index. An index outside the table is not a
store into the table, which is then left as it is. -/
def store (a : List Int) (idx : Int) (v : Int) : List Int :=
  if 0 ≤ idx then a.set idx.toNat v else a

/-- One iteration of the main loop of `opt` (vmsim.c lines 205-244), at index `i`. -/
def optBody (refs : List Int) (F : Nat) (i : Nat) (s : OptState) : OptState :=
  match refs[i]? with
  | none => s
  | some page =>
    if inMemory s.frames page then s
    else
      { frames := store s.frames (optScan refs i s.frames F).2 page
        cnt := s.cnt + 1
        page_faults := if s.cnt + 1 > F then s.page_faults + 1 else s.page_faults }

/-- State of `opt` after the first `i` iterations of the main loop. -/
def optAt (refs : List Int) (F : Nat) (i : Nat) : OptState :=
  forLoop (optBody refs F) 0 i (optInit F)

/-- State of `opt` when the main loop has finished. -/
def opt (refs : List Int) (F : Nat) : OptState :=
  optAt refs F refs.length

/-- The miss rate `(double)page_faults / num_references * 100` that `fifo`, `lru` and `opt`
compute at their end, taken as an exact rational: the value of the expression without the
rounding of `double` arithmetic, for `num_references > 0`. The `double` that the programs
compute is `missRateDouble`. -/
def missRate (page_faults num_references : Nat) : ℚ :=
  (page_faults : ℚ) / (num_references : ℚ) * 100

end Vmsim

/-! ## The sweep program `vmstats.c`

Its policy functions have the local variables and the inner scans of the ones in `vmsim.c`;
they print nothing and return the miss rate. -/

namespace Vmstats

open Vmsim

/-- One iteration of the main loop of `fifo` in vmstats.c (lines 123-143), at index `i`. -/
def fifoBody (refs : List Int) (F : Nat) (i : Nat) (s : FifoState) : FifoState :=
  match refs[i]? with
  | none => s
  | some page =>
    if inMemory s.frames page then s
    else
      { frames := s.frames.set s.next_frame page
        next_frame := (s.next_frame + 1) % F
        cnt := s.cnt + 1
        page_faults := if s.cnt + 1 > F then s.page_faults + 1 else s.page_faults }

/-- The miss rate that `fifo` of vmstats.c (lines 112-147) returns, as an exact rational (see
`missRate`); the `double` it returns is `fifoDouble`. -/
def fifo (refs : List Int) (F : Nat) : ℚ :=
  missRate (forLoop (fifoBody refs F) 0 refs.length (fifoInit F)).page_faults refs.length

/-- One iteration of the main loop of `lru` in vmstats.c (lines 162-193), at index `i`. -/
def lruBody (refs : List Int) (F : Nat) (i : Nat) (s : LruState) : LruState :=
  match refs[i]? with
  | none => s
  | some page =>
    match findSlot s.frames page with
    | some j =>
      { s with time := s.time.set j s.current_time, current_time := s.current_time + 1 }
    | none =>
      let min_index := (lruScan s.time F).2
      { frames := s.frames.set min_index page
        time := s.time.set min_index s.current_time
        current_time := s.current_time + 1
        cnt := s.cnt + 1
        page_faults := if s.cnt + 1 > F then s.page_faults + 1 else s.page_faults }

/-- The miss rate that `lru` of vmstats.c (lines 149-197) returns, as an exact rational (see
`missRate`); the `double` it returns is `lruDouble`. -/
def lru (refs : List Int) (F : Nat) : ℚ :=
  missRate (forLoop (lruBody refs F) 0 refs.length (lruInit F)).page_faults refs.length

/-- One iteration of the main loop of `opt` in vmstats.c (lines 210-250), at index `i`. -/
def optBody (refs : List Int) (F : Nat) (i : Nat) (s : OptState) : OptState :=
  match refs[i]? with
  | none => s
  | some page =>
    if inMemory s.frames page then s
    else
      { frames := store s.frames (optScan refs i s.frames F).2 page
        cnt := s.cnt + 1
        page_faults := if s.cnt + 1 > F then s.page_faults + 1 else s.page_faults }

/-- The miss rate that `opt` of vmstats.c (lines 199-256) returns, as an exact rational (see
`missRate`); the `double` it returns is `optDouble`. -/
def opt (refs : List Int) (F : Nat) : ℚ :=
  missRate (forLoop (optBody refs F) 0 refs.length (optInit F)).page_faults refs.length

end Vmstats

namespace Vmsim

/-! ## Notions used to state the properties -/

/-- The reference at step `t` is a miss for a frame table when no slot of the table holds the
referenced page: the page is not resident. -/
def isMiss (frames : List Int) (refs : List Int) (t : Nat) : Bool :=
  match refs[t]? with
  | some page => decide (page ∉ frames)
  | none => false

/-- Number of misses among the steps `0 .. i-1`, the frame table before step `t` being
`framesAt t`. -/
def missCount (framesAt : Nat → List Int) (refs : List Int) (i : Nat) : Nat :=
  (List.range i).countP (fun t => isMiss (framesAt t) refs t)

/-- What the three policies have in common: the frame table and the two counters. -/
structure Core where
  frames : List Int
  cnt : Nat
  page_faults : Nat

/-- The common part of a `fifo` state. -/
def FifoState.core (s : FifoState) : Core := ⟨s.frames, s.cnt, s.page_faults⟩

/-- The common part of an `lru` state. -/
def LruState.core (s : LruState) : Core := ⟨s.frames, s.cnt, s.page_faults⟩

/-- The common part of an `opt` state. -/
def OptState.core (s : OptState) : Core := ⟨s.frames, s.cnt, s.page_faults⟩

/-- One reference of `page`, as all three policies perform it: a hit changes nothing, a miss
stores `page` into some slot `idx < F`, counts the miss and counts a fault once more than `F`
misses have been seen. -/
def CoreStep (F : Nat) (page : Int) (c c' : Core) : Prop :=
  (inMemory c.frames page = true ∧ c' = c) ∨
  (inMemory c.frames page = false ∧ ∃ idx, idx < F ∧
    c'.frames = c.frames.set idx page ∧ c'.cnt = c.cnt + 1 ∧
    c'.page_faults = if c.cnt + 1 > F then c.page_faults + 1 else c.page_faults)

/-- The sequence `core 0, core 1, ...` is a run over `refs` from the empty table. -/
def IsRun (F : Nat) (refs : List Int) (core : Nat → Core) : Prop :=
  core 0 = ⟨emptyFrames F, 0, 0⟩ ∧
  ∀ i (h : i < refs.length), CoreStep F refs[i] (core i) (core (i + 1))

/-- No page number is held by two different slots; empty slots (`-1`) are excepted. -/
def NoDuplicate (frames : List Int) : Prop :=
  ∀ j (hj : j < frames.length) k (hk : k < frames.length),
    frames[j] = frames[k] → frames[j] ≠ -1 → j = k

instance (frames : List Int) : Decidable (NoDuplicate frames) := by
  unfold NoDuplicate; infer_instance

/-- The reference sequence consists of non-negative page numbers. -/
def NonNeg (refs : List Int) : Prop := ∀ p ∈ refs, 0 ≤ p

instance (refs : List Int) : Decidable (NonNeg refs) := by
  unfold NonNeg; infer_instance

/-! ## Demand paging in general (used to compare `opt` with the other policies) -/

/-- Index of the first occurrence of `v` in `σ`, and `σ.length` when there is none. -/
def firstOcc (v : Int) : List Int → Nat
  | [] => 0
  | r :: σ => if r = v then 0 else firstOcc v σ + 1

/-- Demand-paging schedules: `Sched σ M c` says that with the slot contents `M` in memory the
references `σ` can be served with exactly `c` misses. A hit changes nothing; a miss replaces
the content `q` of one slot by the referenced page. -/
def Sched : List Int → Multiset Int → Nat → Prop
  | [], _, c => c = 0
  | r :: σ, M, c =>
    (r ∈ M ∧ Sched σ M c) ∨
    (r ∉ M ∧ ∃ q, q ∈ M ∧ ∃ c0, c = c0 + 1 ∧ Sched σ (r ::ₘ M.erase q) c0)

/-! ## The miss rate as a `double`

The expression `(double)page_faults / num_references * 100` is evaluated in IEEE 754 binary64
arithmetic. Its operands are non-negative `int`s, which convert exactly, and its values stay
far from the largest and the smallest `double`, so the exponent range is not modelled: a
finite value is rounded to 53 significant bits, to nearest, ties to even. -/

/-- A `double`: not a number, an infinity, or the finite number `± m * 2 ^ e`; zero is
`fin false 0 0`, and a value produced by rounding has `2 ^ 52 ≤ m < 2 ^ 53`. -/
inductive Dbl where
  | nan
  | inf (neg : Bool)
  | fin (neg : Bool) (m : Nat) (e : Int)
deriving DecidableEq, Repr

/-- Number of binary digits of `n`; `fuel` bounds the number of halvings. -/
def bitLen : Nat → Nat → Nat
  | 0, _ => 0
  | fuel + 1, n => if n = 0 then 0 else bitLen fuel (n / 2) + 1

/-- The integer `k` with `2 ^ k ≤ num / den < 2 ^ (k + 1)`, for `num, den > 0`. -/
def floorLog2 (num den : Nat) : Int :=
  let k0 : Int := (bitLen num num : Int) - (bitLen den den : Int)
  if num * 2 ^ (-k0).toNat ≥ den * 2 ^ k0.toNat then k0 else k0 - 1

/-- The positive rational `num / den` rounded to 53 significant bits, to nearest, ties to
even: mantissa and exponent. -/
def roundPos (num den : Nat) : Nat × Int :=
  let e : Int := floorLog2 num den - 52
  let n := num * 2 ^ (-e).toNat
  let d := den * 2 ^ e.toNat
  let q := n / d
  let r := n % d
  let q1 := if 2 * r > d ∨ (2 * r = d ∧ q % 2 = 1) then q + 1 else q
  if q1 = 2 ^ 53 then (2 ^ 52, e + 1) else (q1, e)

/-- The conversion `(double)n` of a non-negative integer. -/
def Dbl.ofNat (n : Nat) : Dbl :=
  if n = 0 then Dbl.fin false 0 0 else Dbl.fin false (roundPos n 1).1 (roundPos n 1).2

/-- The quotient `x / y` of two `double`s. -/
def Dbl.div : Dbl → Dbl → Dbl
  | Dbl.nan, _ => Dbl.nan
  | _, Dbl.nan => Dbl.nan
  | Dbl.inf _, Dbl.inf _ => Dbl.nan
  | Dbl.inf s, Dbl.fin t _ _ => Dbl.inf (xor s t)
  | Dbl.fin s _ _, Dbl.inf t => Dbl.fin (xor s t) 0 0
  | Dbl.fin s m1 e1, Dbl.fin t m2 e2 =>
    if m2 = 0 then (if m1 = 0 then Dbl.nan else Dbl.inf (xor s t))
    else if m1 = 0 then Dbl.fin (xor s t) 0 0
    else
      Dbl.fin (xor s t)
        (roundPos (m1 * 2 ^ (e1 - e2).toNat) (m2 * 2 ^ (e2 - e1).toNat)).1
        (roundPos (m1 * 2 ^ (e1 - e2).toNat) (m2 * 2 ^ (e2 - e1).toNat)).2

/-- The product `x * y` of two `double`s. -/
def Dbl.mul : Dbl → Dbl → Dbl
  | Dbl.nan, _ => Dbl.nan
  | _, Dbl.nan => Dbl.nan
  | Dbl.inf s, Dbl.inf t => Dbl.inf (xor s t)
  | Dbl.inf s, Dbl.fin t m _ => if m = 0 then Dbl.nan else Dbl.inf (xor s t)
  | Dbl.fin s m _, Dbl.inf t => if m = 0 then Dbl.nan else Dbl.inf (xor s t)
  | Dbl.fin s m1 e1, Dbl.fin t m2 e2 =>
    if m1 = 0 ∨ m2 = 0 then Dbl.fin (xor s t) 0 0
    else
      Dbl.fin (xor s t)
        (roundPos (m1 * m2 * 2 ^ (e1 + e2).toNat) (2 ^ (-(e1 + e2)).toNat)).1
        (roundPos (m1 * m2 * 2 ^ (e1 + e2).toNat) (2 ^ (-(e1 + e2)).toNat)).2

/-- The number `m * 2 ^ e` of a rounding result `(m, e)`. -/
def mantVal (p : Nat × Int) : ℚ := (p.1 : ℚ) * (2 : ℚ) ^ p.2

/-- The number a `double` stands for, when it is finite. -/
def Dbl.toRat : Dbl → Option ℚ
  | Dbl.nan => none
  | Dbl.inf _ => none
  | Dbl.fin s m e => some ((if s then -1 else 1) * (m : ℚ) * (2 : ℚ) ^ e)

/-- The value of `(double)page_faults / num_references * 100` as the programs compute it. -/
def missRateDouble (page_faults num_references : Nat) : Dbl :=
  Dbl.mul (Dbl.div (Dbl.ofNat page_faults) (Dbl.ofNat num_references)) (Dbl.ofNat 100)

end Vmsim

namespace Vmstats

open Vmsim

/-- The `double` that `fifo` of vmstats.c returns (line 146). -/
def fifoDouble (refs : List Int) (F : Nat) : Dbl :=
  missRateDouble (forLoop (fifoBody refs F) 0 refs.length (fifoInit F)).page_faults refs.length

/-- The `double` that `lru` of vmstats.c returns (line 196). -/
def lruDouble (refs : List Int) (F : Nat) : Dbl :=
  missRateDouble (forLoop (lruBody refs F) 0 refs.length (lruInit F)).page_faults refs.length

/-- The `double` that `opt` of vmstats.c returns (line 255). -/
def optDouble (refs : List Int) (F : Nat) : Dbl :=
  missRateDouble (forLoop (optBody refs F) 0 refs.length (optInit F)).page_faults refs.length

end Vmstats

namespace Vmsim

/-! ## The drivers: `main` and `simulate` of vmsim.c

An input file is the list of the integers that the successive calls of `fscanf(file, "%d", ..)`
convert before the first call that fails; `none` is a file that cannot be opened. The values
`atoi` returns for the command-line arguments are integers. -/

/-- The loop `while (fscanf(..) == 1) { num_references++; if (num_references >=
MAX_REFERENCES) { ..; return; } }` (vmsim.c lines 53-60); `acc` holds the entries of
`page_references` filled so far, and `none` is the early return. -/
def readLoop : List Int → List Int → Option (List Int)
  | [], acc => some acc
  | x :: rest, acc =>
    if (acc ++ [x]).length ≥ MAX_REFERENCES then none else readLoop rest (acc ++ [x])

/-- The reference loader of `simulate` and of `run_simulation`, started with
`num_references = 0`. -/
def readRefs (input : List Int) : Option (List Int) := readLoop input []

/-- What a run of vmsim does. In `ran` a policy function was called with `page_references`
and `num_frames`; at its end it evaluated `(double)page_faults / num_references * 100` with the
two operands recorded here and printed them in `Miss rate = %d / %d`. -/
inductive Outcome where
  | usage
  | invalidFrames
  | unableToOpen
  | tooManyReferences
  | unknownAlgorithm
  | ran (algorithm : String) (num_frames : Nat) (page_references : List Int)
      (page_faults : Nat) (num_references : Nat)
deriving DecidableEq, Repr

/-- The function `simulate` (vmsim.c lines 44-78). -/
def simulate (file : Option (List Int)) (num_frames : Nat) (algorithm : String) : Outcome :=
  match file with
  | none => Outcome.unableToOpen
  | some input =>
    match readRefs input with
    | none => Outcome.tooManyReferences
    | some refs =>
      if algorithm = "fifo" then
        Outcome.ran "fifo" num_frames refs (fifo refs num_frames).page_faults refs.length
      else if algorithm = "lru" then
        Outcome.ran "lru" num_frames refs (lru refs num_frames).page_faults refs.length
      else if algorithm = "opt" then
        Outcome.ran "opt" num_frames refs (opt refs num_frames).page_faults refs.length
      else Outcome.unknownAlgorithm

/-- The function `main` of vmsim.c (lines 17-35); `num_frames` is `atoi(argv[1])`. -/
def main (argc : Nat) (num_frames : Int) (file : Option (List Int)) (algorithm : String) :
    Outcome :=
  if argc ≠ 4 then Outcome.usage
  else if num_frames ≤ 0 ∨ num_frames > (MAX_FRAMES : Int) then Outcome.invalidFrames
  else simulate file num_frames.toNat algorithm

/-- The `double` that a run of vmsim prints as `%.2f` in its line `Miss rate = %d / %d = ..`,
when a policy function was called. -/
def printedMissRate : Outcome → Option Dbl
  | Outcome.ran _ _ _ page_faults num_references =>
    some (missRateDouble page_faults num_references)
  | _ => none

end Vmsim

/-! ## The drivers of vmstats.c -/

namespace Vmstats

open Vmsim

/-- The function `calculate_miss_rate` (vmstats.c lines 99-110) with the `double` it returns;
`-1.0` is `- 2 ^ 52 * 2 ^ (-52)`. -/
def calculate_miss_rate (refs : List Int) (algorithm : String) (num_frames : Nat) : Dbl :=
  if algorithm = "opt" then optDouble refs num_frames
  else if algorithm = "lru" then lruDouble refs num_frames
  else if algorithm = "fifo" then fifoDouble refs num_frames
  else Dbl.fin true (2 ^ 52) (-52)

/-- The loop `for (num_frames = min_frames; num_frames <= max_frames; num_frames +=
frame_increment)`: the values `num_frames` takes, from the current one on. The loop does not
end when `frame_increment ≤ 0`, so it is given fuel, and `none` is fuel used up. The sum
`num_frames + frame_increment` is the mathematical one: it is computed only while
`num_frames ≤ max_frames`, and the frame counts of interest are far from `INT_MAX`. -/
def frameLoop (max_frames frame_increment : Int) : Nat → Int → Option (List Int)
  | 0, _ => none
  | fuel + 1, num_frames =>
    if num_frames ≤ max_frames then
      (frameLoop max_frames frame_increment fuel (num_frames + frame_increment)).map
        (fun l => num_frames :: l)
    else some []

/-- What a run of vmstats does. In `completed` the calls
`calculate_miss_rate(page_references, num_references, algorithm, num_frames)` are listed in
the order in which they were made, each with its `algorithm` and `num_frames`. -/
inductive StatsOutcome where
  | usage
  | unableToOpen
  | tooManyReferences
  | unableToCreateResults
  | completed (page_references : List Int) (calls : List (String × Int))
deriving DecidableEq, Repr

/-- The function `run_simulation` (vmstats.c lines 43-97); `canCreate` tells whether
`fopen("vmrates.dat", "w")` succeeds, and `none` is fuel used up in a frame loop. The loop
over the frame counts is run once for the header line and once for each of `opt`, `lru` and
`fifo`, each time over the same values. -/
def run_simulation (file : Option (List Int)) (canCreate : Bool)
    (min_frames max_frames frame_increment : Int) (fuel : Nat) : Option StatsOutcome :=
  match file with
  | none => some StatsOutcome.unableToOpen
  | some input =>
    match readRefs input with
    | none => some StatsOutcome.tooManyReferences
    | some refs =>
      if canCreate then
        match frameLoop max_frames frame_increment fuel min_frames with
        | none => none
        | some counts =>
          some (StatsOutcome.completed refs
            (counts.map (fun n => ("opt", n)) ++ counts.map (fun n => ("lru", n)) ++
              counts.map (fun n => ("fifo", n))))
      else some StatsOutcome.unableToCreateResults

/-- The function `main` of vmstats.c (lines 19-33); the three integers are the values of
`atoi` on the first three arguments. -/
def main (argc : Nat) (min_frames max_frames frame_increment : Int)
    (file : Option (List Int)) (canCreate : Bool) (fuel : Nat) : Option StatsOutcome :=
  if argc ≠ 5 then some StatsOutcome.usage
  else run_simulation file canCreate min_frames max_frames frame_increment fuel

end Vmstats

namespace Vmsim

end Vmsim

/-! ## The generator `vmgen.c`

The random source is a function `rand : Nat → Nat`: `rand k` is the value of the call number
`k` of `rand()`, a non-negative `int`. A state of the generator holds the number `pos` of
calls made so far. The loop `while (page == prev_page)` need not end, so it is given fuel: it
may test its condition `fuel + 1` times, and `none` is fuel used up. -/

namespace Vmgen

/-- The loop `while (page == prev_page) { page = rand() % range; }` (vmgen.c lines 48-50):
the page with which it ends and the number of calls of `rand()` made by then. -/
def retry (rand : Nat → Nat) (range prev_page : Int) : Nat → Int → Nat → Option (Int × Nat)
  | 0, page, pos => if page = prev_page then none else some (page, pos)
  | fuel + 1, page, pos =>
    if page = prev_page then
      retry rand range prev_page fuel ((rand pos : Int) % range) (pos + 1)
    else some (page, pos)

/-- The loop `for (int i = 0; i < length; i++)` (vmgen.c lines 46-53) with `n` iterations
left: the integers it writes. -/
def genLoop (rand : Nat → Nat) (range : Int) (fuel : Nat) : Nat → Int → Nat → Option (List Int)
  | 0, _, _ => some []
  | n + 1, prev_page, pos =>
    match retry rand range prev_page fuel ((rand pos : Int) % range) (pos + 1) with
    | none => none
    | some (page, pos') => (genLoop rand range fuel n page pos').map (fun out => page :: out)

/-- What a run of the generator does; `written out` is the content of the output file. -/
inductive GenOutcome where
  | invalidRange
  | unableToOpen
  | written (out : List Int)
deriving DecidableEq, Repr

/-- The function `generate_page_references` (vmgen.c lines 31-58); `canOpen` tells whether the
output file can be opened, and `none` is fuel used up in a `while` loop. -/
def generate_page_references (range length : Int) (canOpen : Bool) (rand : Nat → Nat)
    (fuel : Nat) : Option GenOutcome :=
  if range ≤ 0 ∨ range > 100 then some GenOutcome.invalidRange
  else if canOpen = false then some GenOutcome.unableToOpen
  else (genLoop rand range fuel length.toNat (-1) 0).map GenOutcome.written

/-- The assumption on the random source: every residue modulo `range` occurs infinitely
often. -/
def EveryResidueRecurs (rand : Nat → Nat) (range : Int) : Prop :=
  ∀ r : Nat, (r : Int) < range → ∀ n, ∃ m, n ≤ m ∧ (rand m : Int) % range = (r : Int)

end Vmgen

namespace Vmsim

/-! ## Least-recently-used replacement as a reference

These definitions follow the wording of the property about `lru`, not its code: they say what
least-recently-used replacement is, to be compared with what `lru` does. -/

/-- The distinct pages of `refs`, the most recently referenced one first. -/
def recentPages (refs : List Int) : List Int :=
  refs.foldl (fun st p => p :: st.erase p) []

/-- Reference classification: the reference at step `i` is a hit exactly when its page is
among the `F` most recently referenced distinct pages of the steps `0 .. i-1`. -/
def referenceLruHit (refs : List Int) (F i : Nat) : Bool :=
  match refs[i]? with
  | some p => decide (p ∈ (recentPages (refs.take i)).take F)
  | none => false

/-- State of the reference LRU: the resident pages, each with the step of its last reference
(a frame not in the list is empty), and the per-step record of misses so far. -/
structure RefLruState where
  resident : List (Int × Nat)
  missed : List Bool
deriving DecidableEq, Repr

/-- The resident entry whose last reference is oldest. -/
def oldestEntry : List (Int × Nat) → Option (Int × Nat)
  | [] => none
  | e :: rest =>
    match oldestEntry rest with
    | none => some e
    | some o => if e.2 ≤ o.2 then some e else some o

/-- One reference of the reference LRU at step `t`: a hit refreshes the last reference of the
page; a miss loads the page into an empty frame while one exists and otherwise replaces the
resident page whose last reference is oldest. -/
def refLruStep (F : Nat) (s : RefLruState) (p : Int) (t : Nat) : RefLruState :=
  if s.resident.any (fun e => e.1 = p) then
    { resident := s.resident.map (fun e => if e.1 = p then (p, t) else e)
      missed := s.missed ++ [false] }
  else if s.resident.length < F then
    { resident := s.resident ++ [(p, t)], missed := s.missed ++ [true] }
  else
    match oldestEntry s.resident with
    | none => { resident := s.resident, missed := s.missed ++ [true] }
    | some o =>
      { resident := s.resident.map (fun e => if e = o then (p, t) else e)
        missed := s.missed ++ [true] }

/-- The reference LRU run over `refs` from the empty table, the head of `refs` being the
reference of step `t`. -/
def refLruRun (F : Nat) : List Int → Nat → RefLruState → RefLruState
  | [], _, s => s
  | p :: rest, t, s => refLruRun F rest (t + 1) (refLruStep F s p t)

/-- The per-step miss record of the reference LRU on `refs` with `F` frames. -/
def referenceLruMisses (refs : List Int) (F : Nat) : List Bool :=
  (refLruRun F refs 0 { resident := [], missed := [] }).missed

/-! ## Age of the resident pages -/

/-- The step at which the content that slot `j` has before step `i` was loaded: the last step
`t < i` that was a miss and left its page in slot `j`; `none` when there is no such step. The
frame table before step `t` is `framesAt t`. -/
def loadStep (framesAt : Nat → List Int) (refs : List Int) : Nat → Nat → Option Nat
  | 0, _ => none
  | i + 1, j =>
    if isMiss (framesAt i) refs i = true ∧ (framesAt (i + 1))[j]? = refs[i]? then some i
    else loadStep framesAt refs i j

/-- Distance of slot `j` from the cursor `c` in the rotation over `F` slots. -/
def rotation (F c j : Nat) : Nat := if c ≤ j then j - c else j + F - c

/-! ## The capacity of the tables

The tables of the policy functions are arrays `int frames[MAX_FRAMES]` (and `int
time[MAX_FRAMES]` in `lru`). The policy functions above take their table as a list of
`num_frames` slots; that is what the code does as long as the table fits the array. -/

/-- One store `frames[i] = -1` of the initialisation loop `for (int i = 0; i < num_frames;
i++)` into an array of `MAX_FRAMES` entries (in `lru` together with `time[i] = 0`). A store
past the end of the array has no defined effect: the result is `none` from then on. -/
def initBody (i : Nat) (s : Option (List Int)) : Option (List Int) :=
  match s with
  | none => none
  | some frames => if i < MAX_FRAMES then some (frames ++ [-1]) else none

/-- The initialisation loop of a policy function on its array of `MAX_FRAMES` entries: the
first `num_frames` slots of the table, or `none` when a store leaves the array. -/
def initFrames (F : Nat) : Option (List Int) := forLoop initBody 0 F (some [])

/-- The function `fifo` of vmsim.c with the capacity of its table taken into account: the
state at the end of its main loop, or `none` when the table does not fit the array. -/
def fifoRun (refs : List Int) (F : Nat) : Option FifoState :=
  (initFrames F).map (fun frames =>
    forLoop (fifoBody refs F) 0 refs.length
      { frames := frames, page_faults := 0, next_frame := 0, cnt := 0 })

/-- The function `lru` of vmsim.c with the capacity of its tables taken into account. -/
def lruRun (refs : List Int) (F : Nat) : Option LruState :=
  (initFrames F).map (fun frames =>
    forLoop (lruBody refs F) 0 refs.length
      { frames := frames, page_faults := 0, time := List.replicate frames.length 0,
        current_time := 0, cnt := 0 })

/-- The function `opt` of vmsim.c with the capacity of its table taken into account. -/
def optRun (refs : List Int) (F : Nat) : Option OptState :=
  (initFrames F).map (fun frames =>
    forLoop (optBody refs F) 0 refs.length { frames := frames, page_faults := 0, cnt := 0 })

/-! ## Loops -/

theorem forLoop_succ {σ : Type} (body : Nat → σ → σ) (n : Nat) :
    ∀ (i : Nat) (s : σ), forLoop body i (n + 1) s = body (i + n) (forLoop body i n s) := by
  induction n with
  | zero => intro i s; simp [forLoop]
  | succ n ih =>
    intro i s
    have h := ih (i + 1) (body i s)
    have e : i + 1 + n = i + (n + 1) := by omega
    rw [e] at h
    rw [forLoop, h, forLoop]

theorem fifoAt_succ (refs : List Int) (F i : Nat) :
    fifoAt refs F (i + 1) = fifoBody refs F i (fifoAt refs F i) := by
  simp [fifoAt, forLoop_succ]

theorem lruAt_succ (refs : List Int) (F i : Nat) :
    lruAt refs F (i + 1) = lruBody refs F i (lruAt refs F i) := by
  simp [lruAt, forLoop_succ]

theorem optAt_succ (refs : List Int) (F i : Nat) :
    optAt refs F (i + 1) = optBody refs F i (optAt refs F i) := by
  simp [optAt, forLoop_succ]

/-! ## The residency scan -/

theorem inMemory_iff (frames : List Int) (page : Int) :
    inMemory frames page = true ↔ page ∈ frames := by
  induction frames with
  | nil => simp [inMemory]
  | cons f rest ih =>
    by_cases h : f = page
    · simp [inMemory, h]
    · have h2 : ¬ page = f := fun e => h e.symm
      simp [inMemory, h, h2, ih]

theorem inMemory_false_iff (frames : List Int) (page : Int) :
    inMemory frames page = false ↔ page ∉ frames := by
  rw [← inMemory_iff]; simp

theorem findSlot_none_iff (frames : List Int) (page : Int) :
    findSlot frames page = none ↔ inMemory frames page = false := by
  induction frames with
  | nil => simp [findSlot, inMemory]
  | cons f rest ih =>
    by_cases h : f = page
    · simp [findSlot, inMemory, h]
    · simp [findSlot, inMemory, h, ih]

theorem findSlot_some (frames : List Int) (page : Int) :
    ∀ j, findSlot frames page = some j →
      inMemory frames page = true ∧ j < frames.length ∧ frames.getD j 0 = page := by
  induction frames with
  | nil => intro j h; simp [findSlot] at h
  | cons f rest ih =>
    intro j h
    by_cases hf : f = page
    · simp [findSlot, hf] at h
      subst h
      simp [inMemory, hf]
    · simp only [findSlot, hf, if_false, Option.map_eq_some'] at h
      obtain ⟨a, ha, rfl⟩ := h
      obtain ⟨h1, h2, h3⟩ := ih a ha
      refine ⟨by simp [inMemory, hf, h1], by simp; omega, ?_⟩
      simpa using h3

theorem isMiss_true_iff {frames refs : List Int} {i : Nat} (hi : i < refs.length) :
    isMiss frames refs i = true ↔ inMemory frames refs[i] = false := by
  rw [inMemory_false_iff]
  simp [isMiss, List.getElem?_eq_getElem hi]

theorem isMiss_false_iff {frames refs : List Int} {i : Nat} (hi : i < refs.length) :
    isMiss frames refs i = false ↔ inMemory frames refs[i] = true := by
  rw [inMemory_iff]
  simp [isMiss, List.getElem?_eq_getElem hi]

theorem missCount_succ (f : Nat → List Int) (refs : List Int) (i : Nat) :
    missCount f refs (i + 1) = missCount f refs i + if isMiss (f i) refs i then 1 else 0 := by
  simp [missCount, List.range_succ, List.countP_append, List.countP_cons]

/-! ## The victim scans -/

theorem lruScan_loop (time : List Nat) (n : Nat) :
    (forLoop (lruScanBody time) 1 n (time.getD 0 0, 0)).1
        = time.getD (forLoop (lruScanBody time) 1 n (time.getD 0 0, 0)).2 0 ∧
    (forLoop (lruScanBody time) 1 n (time.getD 0 0, 0)).2 ≤ n ∧
    (∀ j, j ≤ n → (forLoop (lruScanBody time) 1 n (time.getD 0 0, 0)).1 ≤ time.getD j 0) ∧
    (∀ j, j < (forLoop (lruScanBody time) 1 n (time.getD 0 0, 0)).2 →
        (forLoop (lruScanBody time) 1 n (time.getD 0 0, 0)).1 < time.getD j 0) := by
  induction n with
  | zero =>
    refine ⟨rfl, Nat.le_refl _, ?_, ?_⟩
    · intro j hj
      have : j = 0 := by omega
      subst this; exact Nat.le_refl _
    · intro j hj; exact absurd hj (Nat.not_lt_zero _)
  | succ n ih =>
    rw [forLoop_succ]
    generalize forLoop (lruScanBody time) 1 n (time.getD 0 0, 0) = st at ih
    obtain ⟨h1, h2, h3, h4⟩ := ih
    have e : 1 + n = n + 1 := by omega
    rw [e]
    unfold lruScanBody
    by_cases hc : time.getD (n + 1) 0 < st.1
    · rw [if_pos hc]
      refine ⟨rfl, Nat.le_refl _, ?_, ?_⟩
      · intro j hj
        by_cases hj2 : j ≤ n
        · have := h3 j hj2; omega
        · have : j = n + 1 := by omega
          subst this; exact Nat.le_refl _
      · intro j hj
        have := h3 j (by omega); omega
    · rw [if_neg hc]
      refine ⟨h1, by omega, ?_, h4⟩
      intro j hj
      by_cases hj2 : j ≤ n
      · exact h3 j hj2
      · have : j = n + 1 := by omega
        subst this; omega

/-! ### the scan of `opt` -/

theorem optScan_loop (refs : List Int) (i : Nat) (frames : List Int) (n : Nat) (hn : 0 < n) :
    ∃ m : Nat, m < n ∧
      forLoop (optScanBody refs i frames) 0 n (-1, -1)
        = ((nextUse refs i (frames.getD m 0) : Int), (m : Int)) ∧
      (∀ j, j < n → nextUse refs i (frames.getD j 0) ≤ nextUse refs i (frames.getD m 0)) ∧
      (∀ j, j < m → nextUse refs i (frames.getD j 0) < nextUse refs i (frames.getD m 0)) := by
  induction n with
  | zero => exact absurd hn (Nat.lt_irrefl 0)
  | succ n ih =>
    rw [forLoop_succ]
    rcases Nat.eq_zero_or_pos n with h0 | hpos
    · subst h0
      refine ⟨0, Nat.zero_lt_one, ?_, ?_, ?_⟩
      · have hpos : (-1 : Int) < (nextUse refs i (frames.getD 0 0) : Int) := by omega
        simp only [forLoop, optScanBody]
        rw [if_pos hpos]
      · intro j hj
        have : j = 0 := by omega
        subst this; exact Nat.le_refl _
      · intro j hj; exact absurd hj (Nat.not_lt_zero _)
    · obtain ⟨m, hm, hst, hmax, hfirst⟩ := ih hpos
      rw [hst, Nat.zero_add]
      unfold optScanBody
      by_cases hc : nextUse refs i (frames.getD m 0) < nextUse refs i (frames.getD n 0)
      · have hc2 : ((nextUse refs i (frames.getD n 0) : Nat) : Int) >
            ((nextUse refs i (frames.getD m 0) : Nat) : Int) := by omega
        refine ⟨n, Nat.lt_succ_self n, ?_, ?_, ?_⟩
        · rw [if_pos hc2]
        · intro j hj
          by_cases hj2 : j < n
          · have := hmax j hj2; omega
          · have : j = n := by omega
            subst this; exact Nat.le_refl _
        · intro j hj
          have := hmax j hj; omega
      · have hc2 : ¬ ((nextUse refs i (frames.getD n 0) : Nat) : Int) >
            ((nextUse refs i (frames.getD m 0) : Nat) : Int) := by omega
        refine ⟨m, by omega, ?_, ?_, hfirst⟩
        · rw [if_neg hc2]
        · intro j hj
          by_cases hj2 : j < n
          · exact hmax j hj2
          · have : j = n := by omega
            subst this; omega

theorem lruScan_lt (time : List Nat) (F : Nat) (hF : 1 ≤ F) : (lruScan time F).2 < F := by
  have h := (lruScan_loop time (F - 1)).2.1
  unfold lruScan
  omega

theorem optScan_spec (refs : List Int) (i : Nat) (frames : List Int) (F : Nat) (hF : 1 ≤ F) :
    ∃ m : Nat, m < F ∧ (optScan refs i frames F).2 = (m : Int) ∧
      (∀ j, j < F → nextUse refs i (frames.getD j 0) ≤ nextUse refs i (frames.getD m 0)) ∧
      (∀ j, j < m → nextUse refs i (frames.getD j 0) < nextUse refs i (frames.getD m 0)) := by
  obtain ⟨m, hm, hst, h1, h2⟩ := optScan_loop refs i frames F hF
  exact ⟨m, hm, by rw [optScan, hst], h1, h2⟩

theorem store_natCast (a : List Int) (m : Nat) (v : Int) : store a (m : Int) v = a.set m v := by
  simp [store]

/-! ## One step of each policy -/

theorem fifoBody_hit {refs : List Int} {F i : Nat} {s : FifoState} {page : Int}
    (hp : refs[i]? = some page) (h : inMemory s.frames page = true) :
    fifoBody refs F i s = s := by
  simp [fifoBody, hp, h]

theorem fifoBody_miss {refs : List Int} {F i : Nat} {s : FifoState} {page : Int}
    (hp : refs[i]? = some page) (h : inMemory s.frames page = false) :
    fifoBody refs F i s =
      { frames := s.frames.set s.next_frame page
        next_frame := (s.next_frame + 1) % F
        cnt := s.cnt + 1
        page_faults := if s.cnt + 1 > F then s.page_faults + 1 else s.page_faults } := by
  simp [fifoBody, hp, h]

theorem lruBody_hit {refs : List Int} {F i : Nat} {s : LruState} {page : Int}
    (hp : refs[i]? = some page) (h : inMemory s.frames page = true) :
    ∃ j, findSlot s.frames page = some j ∧
      lruBody refs F i s =
        { s with time := s.time.set j s.current_time, current_time := s.current_time + 1 } := by
  cases hj : findSlot s.frames page with
  | none => rw [findSlot_none_iff] at hj; rw [hj] at h; cases h
  | some j => exact ⟨j, rfl, by simp [lruBody, hp, hj]⟩

theorem lruBody_miss {refs : List Int} {F i : Nat} {s : LruState} {page : Int}
    (hp : refs[i]? = some page) (h : inMemory s.frames page = false) :
    lruBody refs F i s =
      { frames := s.frames.set (lruScan s.time F).2 page
        time := s.time.set (lruScan s.time F).2 s.current_time
        current_time := s.current_time + 1
        cnt := s.cnt + 1
        page_faults := if s.cnt + 1 > F then s.page_faults + 1 else s.page_faults } := by
  have hj := (findSlot_none_iff s.frames page).2 h
  simp [lruBody, hp, hj]

theorem optBody_hit {refs : List Int} {F i : Nat} {s : OptState} {page : Int}
    (hp : refs[i]? = some page) (h : inMemory s.frames page = true) :
    optBody refs F i s = s := by
  simp [optBody, hp, h]

theorem optBody_miss {refs : List Int} {F i : Nat} {s : OptState} {page : Int}
    (hp : refs[i]? = some page) (h : inMemory s.frames page = false) :
    optBody refs F i s =
      { frames := store s.frames (optScan refs i s.frames F).2 page
        cnt := s.cnt + 1
        page_faults := if s.cnt + 1 > F then s.page_faults + 1 else s.page_faults } := by
  simp [optBody, hp, h]

/-- The cursor of `fifo` is the number of misses modulo `F`. -/
theorem fifo_cursor (refs : List Int) (F : Nat) (i : Nat) :
    (fifoAt refs F i).next_frame = (fifoAt refs F i).cnt % F := by
  induction i with
  | zero => simp [fifoAt, forLoop, fifoInit]
  | succ i ih =>
    rw [fifoAt_succ]
    cases hp : refs[i]? with
    | none => simpa [fifoBody, hp] using ih
    | some page =>
      cases h : inMemory (fifoAt refs F i).frames page
      · rw [fifoBody_miss hp h]
        simp only
        rw [ih]; simp [Nat.add_mod]
      · rw [fifoBody_hit hp h]; exact ih

theorem fifo_isRun (refs : List Int) (F : Nat) (hF : 1 ≤ F) :
    IsRun F refs (fun i => (fifoAt refs F i).core) := by
  refine ⟨rfl, ?_⟩
  intro i hi
  have hp : refs[i]? = some refs[i] := List.getElem?_eq_getElem hi
  simp only [fifoAt_succ]
  cases h : inMemory (fifoAt refs F i).frames refs[i]
  · right
    refine ⟨h, (fifoAt refs F i).next_frame, ?_, ?_⟩
    · rw [fifo_cursor]; exact Nat.mod_lt _ hF
    · rw [fifoBody_miss hp h]; exact ⟨rfl, rfl, rfl⟩
  · left
    exact ⟨h, by rw [fifoBody_hit hp h]⟩

theorem lru_isRun (refs : List Int) (F : Nat) (hF : 1 ≤ F) :
    IsRun F refs (fun i => (lruAt refs F i).core) := by
  refine ⟨rfl, ?_⟩
  intro i hi
  have hp : refs[i]? = some refs[i] := List.getElem?_eq_getElem hi
  simp only [lruAt_succ]
  cases h : inMemory (lruAt refs F i).frames refs[i]
  · right
    refine ⟨h, (lruScan (lruAt refs F i).time F).2, lruScan_lt _ F hF, ?_⟩
    rw [lruBody_miss hp h]; exact ⟨rfl, rfl, rfl⟩
  · left
    obtain ⟨j, _, hb⟩ := lruBody_hit (F := F) hp h
    exact ⟨h, by rw [hb]; rfl⟩

theorem opt_isRun (refs : List Int) (F : Nat) (hF : 1 ≤ F) :
    IsRun F refs (fun i => (optAt refs F i).core) := by
  refine ⟨rfl, ?_⟩
  intro i hi
  have hp : refs[i]? = some refs[i] := List.getElem?_eq_getElem hi
  simp only [optAt_succ]
  cases h : inMemory (optAt refs F i).frames refs[i]
  · right
    obtain ⟨m, hm, hidx, _, _⟩ := optScan_spec refs i (optAt refs F i).frames F hF
    refine ⟨h, m, hm, ?_⟩
    rw [optBody_miss hp h, hidx, store_natCast]; exact ⟨rfl, rfl, rfl⟩
  · left
    exact ⟨h, by rw [optBody_hit hp h]⟩

/-! ## Facts about every run -/

theorem run_inv {F : Nat} {refs : List Int} {core : Nat → Core} (hrun : IsRun F refs core)
    (i : Nat) (hi : i ≤ refs.length) :
    (core i).frames.length = F ∧
    (core i).page_faults = (core i).cnt - F ∧
    (core i).cnt = missCount (fun t => (core t).frames) refs i ∧
    (core i).cnt ≤ i := by
  induction i with
  | zero => simp [hrun.1, emptyFrames, missCount]
  | succ i ih =>
    obtain ⟨h1, h2, h3, h4⟩ := ih (by omega)
    have hlt : i < refs.length := by omega
    rw [missCount_succ]
    rcases hrun.2 i hlt with ⟨hin, heq⟩ | ⟨hin, idx, _, hf, hc, hpf⟩
    · rw [heq, (isMiss_false_iff hlt).2 hin]
      exact ⟨h1, h2, by simpa using h3, by omega⟩
    · rw [(isMiss_true_iff hlt).2 hin]
      refine ⟨by rw [hf, List.length_set]; exact h1, ?_, by rw [hc, h3]; simp, by omega⟩
      rw [hpf, hc, h2]; split <;> omega

theorem run_step_faults {F : Nat} {refs : List Int} {core : Nat → Core} (hrun : IsRun F refs core)
    (i : Nat) (hi : i < refs.length) :
    (core (i + 1)).page_faults = (core i).page_faults +
      (if isMiss (core i).frames refs i = true ∧
          F < missCount (fun t => (core t).frames) refs (i + 1) then 1 else 0) := by
  have hc' := (run_inv hrun (i + 1) (by omega)).2.2.1
  rcases hrun.2 i hi with ⟨hin, heq⟩ | ⟨hin, idx, _, hf, hcnt, hpf⟩
  · rw [heq, (isMiss_false_iff hi).2 hin]; simp
  · have hm : isMiss (core i).frames refs i = true := (isMiss_true_iff hi).2 hin
    rw [hpf, ← hc', hcnt]
    by_cases hgt : (core i).cnt + 1 > F
    · rw [if_pos hgt, if_pos ⟨hm, hgt⟩]
    · rw [if_neg hgt, if_neg (fun h => hgt h.2), Nat.add_zero]

theorem run_faults_formula {F : Nat} {refs : List Int} {core : Nat → Core}
    (hrun : IsRun F refs core) :
    ((core refs.length).page_faults : Int)
      = max 0 ((missCount (fun t => (core t).frames) refs refs.length : Int) - (F : Int)) := by
  obtain ⟨_, h2, h3, _⟩ := run_inv hrun refs.length (Nat.le_refl _)
  rw [← h3, h2]
  omega

/-- C1: for each of `fifo`, `lru` and `opt`, every reference sequence and every frame count
`1 ≤ F ≤ 100`, the final fault count is `max(0, m - F)`, `m` being the number of references
whose page was not in the frame table when it was referenced; and step `i` increments the
fault counter exactly when it is a miss and the number of misses up to and including it
exceeds `F`. -/
theorem C1_fault_count_formula (refs : List Int) (F : Nat) (hF : 1 ≤ F) (_hmax : F ≤ MAX_FRAMES) :
    (((fifo refs F).page_faults : Int)
        = max 0 ((missCount (fun t => (fifoAt refs F t).frames) refs refs.length : Int) - (F : Int)) ∧
     ((lru refs F).page_faults : Int)
        = max 0 ((missCount (fun t => (lruAt refs F t).frames) refs refs.length : Int) - (F : Int)) ∧
     ((opt refs F).page_faults : Int)
        = max 0 ((missCount (fun t => (optAt refs F t).frames) refs refs.length : Int) - (F : Int))) ∧
    ∀ i, i < refs.length →
      ((fifoAt refs F (i + 1)).page_faults = (fifoAt refs F i).page_faults +
        (if isMiss (fifoAt refs F i).frames refs i = true ∧
            F < missCount (fun t => (fifoAt refs F t).frames) refs (i + 1) then 1 else 0)) ∧
      ((lruAt refs F (i + 1)).page_faults = (lruAt refs F i).page_faults +
        (if isMiss (lruAt refs F i).frames refs i = true ∧
            F < missCount (fun t => (lruAt refs F t).frames) refs (i + 1) then 1 else 0)) ∧
      ((optAt refs F (i + 1)).page_faults = (optAt refs F i).page_faults +
        (if isMiss (optAt refs F i).frames refs i = true ∧
            F < missCount (fun t => (optAt refs F t).frames) refs (i + 1) then 1 else 0)) :=
  ⟨⟨run_faults_formula (fifo_isRun refs F hF), run_faults_formula (lru_isRun refs F hF),
    run_faults_formula (opt_isRun refs F hF)⟩,
   fun i hi => ⟨run_step_faults (fifo_isRun refs F hF) i hi,
    run_step_faults (lru_isRun refs F hF) i hi, run_step_faults (opt_isRun refs F hF) i hi⟩⟩

/-- C1 at the sequence `[1, 2, 1, 3, 4]` with two frames. -/
theorem C1_fault_count_formula_witness :
    (1 ≤ 2 ∧ 2 ≤ MAX_FRAMES) ∧
    ((fifo [1, 2, 1, 3, 4] 2).page_faults : Int)
      = max 0 ((missCount (fun t => (fifoAt [1, 2, 1, 3, 4] 2 t).frames) [1, 2, 1, 3, 4]
          ([1, 2, 1, 3, 4] : List Int).length : Int) - ((2 : Nat) : Int)) :=
  ⟨⟨by decide, by decide⟩,
   (C1_fault_count_formula [1, 2, 1, 3, 4] 2 (by decide) (by decide)).1.1⟩

theorem run_faults_le {F : Nat} {refs : List Int} {core : Nat → Core}
    (hrun : IsRun F refs core) : (core refs.length).page_faults ≤ refs.length := by
  obtain ⟨_, h2, _, h4⟩ := run_inv hrun refs.length (Nat.le_refl _)
  omega

theorem missRate_bounds (pf n : Nat) (hn : 0 < n) (h : pf ≤ n) :
    0 ≤ missRate pf n ∧ missRate pf n ≤ 100 := by
  have hn' : (0 : ℚ) < (n : ℚ) := by exact_mod_cast hn
  have hle : (pf : ℚ) ≤ (n : ℚ) := by exact_mod_cast h
  have h0 : (0 : ℚ) ≤ (pf : ℚ) := by exact_mod_cast Nat.zero_le pf
  unfold missRate
  constructor
  · positivity
  · have : (pf : ℚ) / (n : ℚ) ≤ 1 := (div_le_one hn').2 hle
    linarith

theorem statsFifo_eq (refs : List Int) (F : Nat) :
    Vmstats.fifo refs F = missRate (fifo refs F).page_faults refs.length := rfl

theorem statsLru_eq (refs : List Int) (F : Nat) :
    Vmstats.lru refs F = missRate (lru refs F).page_faults refs.length := rfl

theorem statsOpt_eq (refs : List Int) (F : Nat) :
    Vmstats.opt refs F = missRate (opt refs F).page_faults refs.length := rfl

/-! ### The capacity of the tables -/

theorem initFrames_loop (n : Nat) :
    forLoop initBody 0 n (some [])
      = if n ≤ MAX_FRAMES then some (List.replicate n (-1)) else none := by
  induction n with
  | zero => rfl
  | succ n ih =>
    rw [forLoop_succ, ih, Nat.zero_add]
    by_cases h : n + 1 ≤ MAX_FRAMES
    · rw [if_pos (by omega), if_pos h]
      simp only [initBody]
      rw [if_pos (by omega), List.replicate_succ']
    · rw [if_neg h]
      by_cases h2 : n ≤ MAX_FRAMES
      · rw [if_pos h2]
        simp only [initBody]
        rw [if_neg (by omega)]
      · rw [if_neg h2]
        rfl

/-- The table fits its array exactly when `num_frames ≤ MAX_FRAMES`, and the initialisation
loop then leaves `num_frames` empty slots. -/
theorem initFrames_eq (F : Nat) :
    initFrames F = if F ≤ MAX_FRAMES then some (emptyFrames F) else none :=
  initFrames_loop F

theorem fifoRun_eq (refs : List Int) (F : Nat) (h : F ≤ MAX_FRAMES) :
    fifoRun refs F = some (fifo refs F) := by
  unfold fifoRun
  rw [initFrames_eq, if_pos h]
  rfl

theorem lruRun_eq (refs : List Int) (F : Nat) (h : F ≤ MAX_FRAMES) :
    lruRun refs F = some (lru refs F) := by
  unfold lruRun
  rw [initFrames_eq, if_pos h]
  simp only [Option.map_some', emptyFrames, List.length_replicate]
  rfl

theorem optRun_eq (refs : List Int) (F : Nat) (h : F ≤ MAX_FRAMES) :
    optRun refs F = some (opt refs F) := by
  unfold optRun
  rw [initFrames_eq, if_pos h]
  rfl

/-- C10, counterexample: with `num_frames = 101` the initialisation loop of a policy
function stores `frames[100]`, past the array `int frames[MAX_FRAMES]`; the function has no
defined result, so no fault count to compare with the number of references. -/
theorem C10_no_result_beyond_capacity :
    1 ≤ 101 ∧ ¬ (100 < MAX_FRAMES) ∧ initFrames 101 = none ∧
    fifoRun [1] 101 = none ∧ lruRun [1] 101 = none ∧ optRun [1] 101 = none ∧
    ¬ (∃ s, fifoRun [1] 101 = some s ∧ s.page_faults ≤ ([1] : List Int).length) := by
  have h : initFrames 101 = none := by
    rw [initFrames_eq, if_neg (by decide)]
  have hf : fifoRun [1] 101 = none := by unfold fifoRun; rw [h]; rfl
  have hl : lruRun [1] 101 = none := by unfold lruRun; rw [h]; rfl
  have ho : optRun [1] 101 = none := by unfold optRun; rw [h]; rfl
  refine ⟨by decide, by decide, h, hf, hl, ho, ?_⟩
  rintro ⟨s, hs, _⟩
  rw [hf] at hs
  cases hs

/-- C10, amended: for each policy, every sequence and every `1 ≤ F ≤ 100`, the capacity of
the frame table, the function has a result, its fault count is at most the number of
references, and for a non-empty sequence the miss rate, as an exact rational, lies between 0
and 100; this holds for the rate of vmsim.c and for the one of vmstats.c. -/
theorem C10_fault_count_and_miss_rate_bounds (refs : List Int) (F : Nat) (hF : 1 ≤ F)
    (hmax : F ≤ MAX_FRAMES) :
    (fifoRun refs F = some (fifo refs F) ∧ lruRun refs F = some (lru refs F) ∧
      optRun refs F = some (opt refs F)) ∧
    ((fifo refs F).page_faults ≤ refs.length ∧ (lru refs F).page_faults ≤ refs.length ∧
      (opt refs F).page_faults ≤ refs.length) ∧
    (refs ≠ [] →
      (0 ≤ missRate (fifo refs F).page_faults refs.length ∧
        missRate (fifo refs F).page_faults refs.length ≤ 100) ∧
      (0 ≤ missRate (lru refs F).page_faults refs.length ∧
        missRate (lru refs F).page_faults refs.length ≤ 100) ∧
      (0 ≤ missRate (opt refs F).page_faults refs.length ∧
        missRate (opt refs F).page_faults refs.length ≤ 100) ∧
      (0 ≤ Vmstats.fifo refs F ∧ Vmstats.fifo refs F ≤ 100) ∧
      (0 ≤ Vmstats.lru refs F ∧ Vmstats.lru refs F ≤ 100) ∧
      (0 ≤ Vmstats.opt refs F ∧ Vmstats.opt refs F ≤ 100)) := by
  have h1 := run_faults_le (fifo_isRun refs F hF)
  have h2 := run_faults_le (lru_isRun refs F hF)
  have h3 := run_faults_le (opt_isRun refs F hF)
  refine ⟨⟨fifoRun_eq refs F hmax, lruRun_eq refs F hmax, optRun_eq refs F hmax⟩,
    ⟨h1, h2, h3⟩, fun hne => ?_⟩
  have hn : 0 < refs.length := List.length_pos.2 hne
  rw [statsFifo_eq, statsLru_eq, statsOpt_eq]
  exact ⟨missRate_bounds _ _ hn h1, missRate_bounds _ _ hn h2, missRate_bounds _ _ hn h3,
    missRate_bounds _ _ hn h1, missRate_bounds _ _ hn h2, missRate_bounds _ _ hn h3⟩

/-- C10, amended, at the sequence `[1, 2, 1, 3, 4]` with two frames. -/
theorem C10_fault_count_and_miss_rate_bounds_witness :
    (1 ≤ 2 ∧ 2 ≤ MAX_FRAMES) ∧
    fifoRun [1, 2, 1, 3, 4] 2 = some (fifo [1, 2, 1, 3, 4] 2) ∧
    (fifo [1, 2, 1, 3, 4] 2).page_faults ≤ ([1, 2, 1, 3, 4] : List Int).length :=
  ⟨⟨by decide, by decide⟩,
   (C10_fault_count_and_miss_rate_bounds [1, 2, 1, 3, 4] 2 (by decide) (by decide)).1.1,
   (C10_fault_count_and_miss_rate_bounds [1, 2, 1, 3, 4] 2 (by decide) (by decide)).2.1.1⟩

theorem run_cnt {F : Nat} {refs : List Int} {core : Nat → Core} (hrun : IsRun F refs core)
    (i : Nat) (hi : i ≤ refs.length) :
    (core i).cnt = missCount (fun t => (core t).frames) refs i :=
  (run_inv hrun i hi).2.2.1

theorem fifo_frames_length (refs : List Int) (F : Nat) (hF : 1 ≤ F) (i : Nat)
    (hi : i ≤ refs.length) : (fifoAt refs F i).frames.length = F :=
  (run_inv (fifo_isRun refs F hF) i hi).1

/-- C3: in `fifo` the cursor starts at 0; the `k`-th miss of the run, `k` counting the misses
up to and including the current step, stores the referenced page into slot `(k - 1) mod F`
and leaves the cursor at `k mod F`; a hit leaves the cursor where it is. -/
theorem C3_fifo_cursor_rotation (refs : List Int) (F : Nat) (hF : 1 ≤ F)
    (_hmax : F ≤ MAX_FRAMES) :
    (fifoAt refs F 0).next_frame = 0 ∧
    ∀ i (hi : i < refs.length),
      (isMiss (fifoAt refs F i).frames refs i = true →
        1 ≤ missCount (fun t => (fifoAt refs F t).frames) refs (i + 1) ∧
        (fifoAt refs F (i + 1)).frames = (fifoAt refs F i).frames.set
          ((missCount (fun t => (fifoAt refs F t).frames) refs (i + 1) - 1) % F) refs[i] ∧
        (fifoAt refs F (i + 1)).frames[
          (missCount (fun t => (fifoAt refs F t).frames) refs (i + 1) - 1) % F]? = some refs[i] ∧
        (fifoAt refs F (i + 1)).next_frame
          = missCount (fun t => (fifoAt refs F t).frames) refs (i + 1) % F) ∧
      (isMiss (fifoAt refs F i).frames refs i = false →
        (fifoAt refs F (i + 1)).next_frame = (fifoAt refs F i).next_frame ∧
        (fifoAt refs F (i + 1)).frames = (fifoAt refs F i).frames) := by
  refine ⟨rfl, fun i hi => ⟨fun hm => ?_, fun hh => ?_⟩⟩
  · have hp : refs[i]? = some refs[i] := List.getElem?_eq_getElem hi
    have hin := (isMiss_true_iff hi).1 hm
    have hc : (fifoAt refs F i).cnt = missCount (fun t => (fifoAt refs F t).frames) refs i :=
      run_cnt (fifo_isRun refs F hF) i (by omega)
    have hlen := fifo_frames_length refs F hF i (by omega)
    have hk : missCount (fun t => (fifoAt refs F t).frames) refs (i + 1)
        = (fifoAt refs F i).cnt + 1 := by
      rw [missCount_succ, hc]; simp [hm]
    have hcur := fifo_cursor refs F i
    have hlt : (fifoAt refs F i).cnt % F < F := Nat.mod_lt _ hF
    rw [hk, fifoAt_succ, fifoBody_miss hp hin]
    simp only [Nat.add_sub_cancel, hcur]
    refine ⟨by omega, trivial, ?_, ?_⟩
    · rw [List.getElem?_set_self (by omega)]
    · simp [Nat.add_mod]
  · have hp : refs[i]? = some refs[i] := List.getElem?_eq_getElem hi
    have hin := (isMiss_false_iff hi).1 hh
    rw [fifoAt_succ, fifoBody_hit hp hin]
    exact ⟨rfl, rfl⟩

/-- C3 at the sequence `[1, 2, 1, 3, 4]` with two frames. -/
theorem C3_fifo_cursor_rotation_witness :
    (1 ≤ 2 ∧ 2 ≤ MAX_FRAMES) ∧ (fifoAt [1, 2, 1, 3, 4] 2 0).next_frame = 0 :=
  ⟨⟨by decide, by decide⟩, (C3_fifo_cursor_rotation [1, 2, 1, 3, 4] 2 (by decide) (by decide)).1⟩

theorem lru_time_length (refs : List Int) (F : Nat) (i : Nat) :
    (lruAt refs F i).time.length = F := by
  induction i with
  | zero => simp [lruAt, forLoop, lruInit]
  | succ i ih =>
    rw [lruAt_succ]
    cases hp : refs[i]? with
    | none => simpa [lruBody, hp] using ih
    | some page =>
      cases h : inMemory (lruAt refs F i).frames page
      · rw [lruBody_miss hp h]; simpa using ih
      · obtain ⟨j, _, hb⟩ := lruBody_hit (F := F) hp h
        rw [hb]; simpa using ih

/-- C4: on every miss of `lru` the slot that receives the referenced page is the
lowest-indexed one among the slots whose time stamp is minimal over all `F` slots, and the
time stamp of that slot becomes the value the clock has at that step. -/
theorem C4_lru_victim_is_first_minimum (refs : List Int) (F : Nat) (hF : 1 ≤ F)
    (_hmax : F ≤ MAX_FRAMES) (i : Nat) (hi : i < refs.length)
    (hmiss : isMiss (lruAt refs F i).frames refs i = true) :
    (lruAt refs F i).frames.length = F ∧ (lruAt refs F i).time.length = F ∧
    ∃ m, m < F ∧
      (∀ j, j < F → (lruAt refs F i).time.getD m 0 ≤ (lruAt refs F i).time.getD j 0) ∧
      (∀ j, j < m → (lruAt refs F i).time.getD m 0 < (lruAt refs F i).time.getD j 0) ∧
      (lruAt refs F (i + 1)).frames = (lruAt refs F i).frames.set m refs[i] ∧
      (lruAt refs F (i + 1)).frames[m]? = some refs[i] ∧
      (lruAt refs F (i + 1)).time = (lruAt refs F i).time.set m (lruAt refs F i).current_time ∧
      (lruAt refs F (i + 1)).time[m]? = some (lruAt refs F i).current_time ∧
      (lruAt refs F (i + 1)).current_time = (lruAt refs F i).current_time + 1 := by
  have hp : refs[i]? = some refs[i] := List.getElem?_eq_getElem hi
  have hin := (isMiss_true_iff hi).1 hmiss
  have hlen : (lruAt refs F i).frames.length = F :=
    (run_inv (lru_isRun refs F hF) i (by omega)).1
  have htl := lru_time_length refs F i
  obtain ⟨h1, h2, h3, h4⟩ := lruScan_loop (lruAt refs F i).time (F - 1)
  refine ⟨hlen, htl, (lruScan (lruAt refs F i).time F).2, lruScan_lt _ F hF, ?_, ?_, ?_⟩
  · intro j hj
    have := h3 j (by omega)
    unfold lruScan; rw [← h1]; exact this
  · intro j hj
    unfold lruScan at hj ⊢
    rw [← h1]; exact h4 j hj
  · have hlt := lruScan_lt (lruAt refs F i).time F hF
    rw [lruAt_succ, lruBody_miss hp hin]
    refine ⟨rfl, ?_, rfl, ?_, rfl⟩
    · simp only; rw [List.getElem?_set_self (by omega)]
    · simp only; rw [List.getElem?_set_self (by omega)]

/-- C4 at step 2 of the sequence `[1, 2, 3]` with two frames. -/
theorem C4_lru_victim_is_first_minimum_witness :
    (1 ≤ 2 ∧ 2 ≤ MAX_FRAMES ∧ 2 < ([1, 2, 3] : List Int).length ∧
      isMiss (lruAt [1, 2, 3] 2 2).frames [1, 2, 3] 2 = true) ∧
    (lruAt [1, 2, 3] 2 2).time.length = 2 :=
  ⟨⟨by decide, by decide, by decide, by decide⟩,
   (C4_lru_victim_is_first_minimum [1, 2, 3] 2 (by decide) (by decide) 2 (by decide)
    (by decide)).2.1⟩

theorem scanNext_spec (v : Int) (l : List Int) :
    ∀ (k N : Nat), N = k + l.length →
      k ≤ scanNext v l k N ∧ scanNext v l k N ≤ N ∧
      (∀ t, t < scanNext v l k N - k → l[t]? ≠ some v) ∧
      (scanNext v l k N < N → l[scanNext v l k N - k]? = some v) := by
  induction l with
  | nil =>
    intro k N hN
    simp at hN
    simp [scanNext, hN]
  | cons r rest ih =>
    intro k N hN
    simp only [List.length_cons] at hN
    by_cases hr : r = v
    · simp only [scanNext, hr, if_true]
      refine ⟨Nat.le_refl _, by omega, ?_, ?_⟩
      · intro t ht; omega
      · intro _; simp
    · simp only [scanNext, hr, if_false]
      obtain ⟨h1, h2, h3, h4⟩ := ih (k + 1) N (by omega)
      refine ⟨by omega, h2, ?_, ?_⟩
      · intro t ht
        cases t with
        | zero => simp [hr]
        | succ t =>
          rw [List.getElem?_cons_succ]
          exact h3 t (by omega)
      · intro hlt
        have e : scanNext v rest (k + 1) N - k = (scanNext v rest (k + 1) N - (k + 1)) + 1 := by
          omega
        rw [e, List.getElem?_cons_succ]
        exact h4 hlt

/-- The value `nextUse refs i v` is the smallest index `k > i` with `refs[k] = v`, and it is
`refs.length` when there is none. -/
theorem nextUse_spec (refs : List Int) (i : Nat) (hi : i < refs.length) (v : Int) :
    i < nextUse refs i v ∧ nextUse refs i v ≤ refs.length ∧
    (∀ k, i < k → k < nextUse refs i v → refs[k]? ≠ some v) ∧
    (nextUse refs i v < refs.length → refs[nextUse refs i v]? = some v) := by
  have hlen : refs.length = (i + 1) + (refs.drop (i + 1)).length := by
    rw [List.length_drop]; omega
  obtain ⟨h1, h2, h3, h4⟩ := scanNext_spec v (refs.drop (i + 1)) (i + 1) refs.length hlen
  refine ⟨h1, h2, ?_, ?_⟩
  · intro k hk1 hk2
    have := h3 (k - (i + 1)) (by unfold nextUse at hk2; omega)
    rw [List.getElem?_drop] at this
    have e : i + 1 + (k - (i + 1)) = k := by omega
    rw [e] at this; exact this
  · intro hlt
    have := h4 hlt
    rw [List.getElem?_drop] at this
    have e : i + 1 + (scanNext v (List.drop (i + 1) refs) (i + 1) refs.length - (i + 1))
        = nextUse refs i v := by
      unfold nextUse; omega
    rw [e] at this; exact this

theorem nextUse_eq_length_iff (refs : List Int) (i : Nat) (hi : i < refs.length) (v : Int) :
    nextUse refs i v = refs.length ↔ ∀ k, i < k → k < refs.length → refs[k]? ≠ some v := by
  obtain ⟨h1, h2, h3, h4⟩ := nextUse_spec refs i hi v
  constructor
  · intro he k hk1 hk2
    exact h3 k hk1 (by omega)
  · intro hall
    by_contra hne
    have hlt : nextUse refs i v < refs.length := by omega
    exact hall _ h1 hlt (h4 hlt)

theorem nextUse_empty (refs : List Int) (hnn : NonNeg refs) (i : Nat) (hi : i < refs.length) :
    nextUse refs i (-1) = refs.length := by
  rw [nextUse_eq_length_iff refs i hi]
  intro k _ hk2 he
  rw [List.getElem?_eq_getElem hk2] at he
  have hmem : refs[k] ∈ refs := List.getElem_mem hk2
  have := hnn _ hmem
  simp only [Option.some.injEq] at he
  omega

/-- C5: on a miss of `opt` at step `i`, with `nextUse` the smallest index `k > i` at which the
content of a slot is referenced again and `N` when there is none (as for an empty slot of a
run over non-negative pages), the slot that receives the page is the lowest-indexed one among
the slots with the largest `nextUse`; so when some slot holds a page that never recurs, the
slot chosen holds one too. -/
theorem C5_opt_victim_is_first_furthest (refs : List Int) (F : Nat) (hF : 1 ≤ F)
    (_hmax : F ≤ MAX_FRAMES) (i : Nat) (hi : i < refs.length)
    (hmiss : isMiss (optAt refs F i).frames refs i = true) :
    (∀ v, i < nextUse refs i v ∧ nextUse refs i v ≤ refs.length ∧
      (∀ k, i < k → k < nextUse refs i v → refs[k]? ≠ some v) ∧
      (nextUse refs i v < refs.length → refs[nextUse refs i v]? = some v)) ∧
    (NonNeg refs → nextUse refs i (-1) = refs.length) ∧
    (optAt refs F i).frames.length = F ∧
    ∃ m, m < F ∧
      (optAt refs F (i + 1)).frames = (optAt refs F i).frames.set m refs[i] ∧
      (optAt refs F (i + 1)).frames[m]? = some refs[i] ∧
      (∀ j, j < F → nextUse refs i ((optAt refs F i).frames.getD j 0)
          ≤ nextUse refs i ((optAt refs F i).frames.getD m 0)) ∧
      (∀ j, j < m → nextUse refs i ((optAt refs F i).frames.getD j 0)
          < nextUse refs i ((optAt refs F i).frames.getD m 0)) ∧
      ((∃ j, j < F ∧ nextUse refs i ((optAt refs F i).frames.getD j 0) = refs.length) →
        nextUse refs i ((optAt refs F i).frames.getD m 0) = refs.length) := by
  have hp : refs[i]? = some refs[i] := List.getElem?_eq_getElem hi
  have hin := (isMiss_true_iff hi).1 hmiss
  have hlen : (optAt refs F i).frames.length = F :=
    (run_inv (opt_isRun refs F hF) i (by omega)).1
  obtain ⟨m, hm, hidx, hmax, hfirst⟩ := optScan_spec refs i (optAt refs F i).frames F hF
  refine ⟨fun v => nextUse_spec refs i hi v, fun hnn => nextUse_empty refs hnn i hi, hlen,
    m, hm, ?_, ?_, hmax, hfirst, ?_⟩
  · rw [optAt_succ, optBody_miss hp hin, hidx, store_natCast]
  · rw [optAt_succ, optBody_miss hp hin, hidx, store_natCast]
    simp only; rw [List.getElem?_set_self (by omega)]
  · rintro ⟨j, hj, hje⟩
    have h1 := hmax j hj
    have h2 := (nextUse_spec refs i hi ((optAt refs F i).frames.getD m 0)).2.1
    omega

/-- C5 at step 2 of the sequence `[1, 2, 3, 1]` with two frames. -/
theorem C5_opt_victim_is_first_furthest_witness :
    (1 ≤ 2 ∧ 2 ≤ MAX_FRAMES ∧ 2 < ([1, 2, 3, 1] : List Int).length ∧
      isMiss (optAt [1, 2, 3, 1] 2 2).frames [1, 2, 3, 1] 2 = true) ∧
    (optAt [1, 2, 3, 1] 2 2).frames.length = 2 :=
  ⟨⟨by decide, by decide, by decide, by decide⟩,
   (C5_opt_victim_is_first_furthest [1, 2, 3, 1] 2 (by decide) (by decide) 2 (by decide)
    (by decide)).2.2.1⟩

theorem noDuplicate_set {frames : List Int} (h : NoDuplicate frames) (idx : Nat) (page : Int)
    (hnot : page ∉ frames) : NoDuplicate (frames.set idx page) := by
  intro j hj k hk heq hne
  rw [List.length_set] at hj hk
  rw [List.getElem_set] at heq hne
  rw [List.getElem_set] at heq
  by_cases h1 : idx = j
  · by_cases h2 : idx = k
    · omega
    · rw [if_pos h1, if_neg h2] at heq
      exact absurd (heq ▸ List.getElem_mem hk) hnot
  · by_cases h2 : idx = k
    · rw [if_neg h1, if_pos h2] at heq
      exact absurd (heq ▸ List.getElem_mem hj) hnot
    · rw [if_neg h1, if_neg h2] at heq
      rw [if_neg h1] at hne
      exact h j hj k hk heq hne

theorem noDuplicate_empty (F : Nat) : NoDuplicate (emptyFrames F) := by
  intro j hj k hk _ hne
  simp [emptyFrames] at hne

theorem run_noDuplicate {F : Nat} {refs : List Int} {core : Nat → Core}
    (hrun : IsRun F refs core) (i : Nat) (hi : i ≤ refs.length) :
    NoDuplicate (core i).frames := by
  induction i with
  | zero => rw [hrun.1]; exact noDuplicate_empty F
  | succ i ih =>
    have h := ih (by omega)
    rcases hrun.2 i (by omega) with ⟨_, heq⟩ | ⟨hin, idx, _, hf, _, _⟩
    · rw [heq]; exact h
    · rw [hf]
      exact noDuplicate_set h idx _ ((inMemory_false_iff _ _).1 hin)

/-- C6: for each of `fifo`, `lru` and `opt`, every sequence of non-negative page numbers and
every `1 ≤ F ≤ 100`, after every step of the run no page number is held by two different
slots of the frame table, empty slots excepted. -/
theorem C6_no_duplicate_residency (refs : List Int) (F : Nat) (hF : 1 ≤ F)
    (_hmax : F ≤ MAX_FRAMES) (_hnn : NonNeg refs) (i : Nat) (hi : i ≤ refs.length) :
    NoDuplicate (fifoAt refs F i).frames ∧ NoDuplicate (lruAt refs F i).frames ∧
    NoDuplicate (optAt refs F i).frames :=
  ⟨run_noDuplicate (fifo_isRun refs F hF) i hi, run_noDuplicate (lru_isRun refs F hF) i hi,
   run_noDuplicate (opt_isRun refs F hF) i hi⟩

/-- C6 after the five steps of the sequence `[1, 2, 1, 3, 4]` with two frames. -/
theorem C6_no_duplicate_residency_witness :
    (1 ≤ 2 ∧ 2 ≤ MAX_FRAMES ∧ NonNeg [1, 2, 1, 3, 4] ∧ 5 ≤ ([1, 2, 1, 3, 4] : List Int).length) ∧
    NoDuplicate (fifoAt [1, 2, 1, 3, 4] 2 5).frames :=
  ⟨⟨by decide, by decide, by decide, by decide⟩,
   (C6_no_duplicate_residency [1, 2, 1, 3, 4] 2 (by decide) (by decide) (by decide) 5
    (by decide)).1⟩

/-- C8: on `[1,2,3,4,1,2,5,1,2,3,4,5]` with three frames `fifo` misses at steps 0-6, 9, 10
(9 misses, 6 counted faults), `lru` misses at steps 0-6, 9, 10, 11 (10 misses, 7 counted
faults) and `opt` misses at steps 0-3, 6, 9, 10 (7 misses, 4 counted faults); the other steps
are hits. -/
theorem C8_concrete_scenario :
    ((List.range 12).map (fun i =>
        isMiss (fifoAt [1, 2, 3, 4, 1, 2, 5, 1, 2, 3, 4, 5] 3 i).frames
          [1, 2, 3, 4, 1, 2, 5, 1, 2, 3, 4, 5] i)
      = [true, true, true, true, true, true, true, false, false, true, true, false] ∧
      (fifo [1, 2, 3, 4, 1, 2, 5, 1, 2, 3, 4, 5] 3).cnt = 9 ∧
      (fifo [1, 2, 3, 4, 1, 2, 5, 1, 2, 3, 4, 5] 3).page_faults = 6) ∧
    ((List.range 12).map (fun i =>
        isMiss (lruAt [1, 2, 3, 4, 1, 2, 5, 1, 2, 3, 4, 5] 3 i).frames
          [1, 2, 3, 4, 1, 2, 5, 1, 2, 3, 4, 5] i)
      = [true, true, true, true, true, true, true, false, false, true, true, true] ∧
      (lru [1, 2, 3, 4, 1, 2, 5, 1, 2, 3, 4, 5] 3).cnt = 10 ∧
      (lru [1, 2, 3, 4, 1, 2, 5, 1, 2, 3, 4, 5] 3).page_faults = 7) ∧
    ((List.range 12).map (fun i =>
        isMiss (optAt [1, 2, 3, 4, 1, 2, 5, 1, 2, 3, 4, 5] 3 i).frames
          [1, 2, 3, 4, 1, 2, 5, 1, 2, 3, 4, 5] i)
      = [true, true, true, true, false, false, true, false, false, true, true, false] ∧
      (opt [1, 2, 3, 4, 1, 2, 5, 1, 2, 3, 4, 5] 3).cnt = 7 ∧
      (opt [1, 2, 3, 4, 1, 2, 5, 1, 2, 3, 4, 5] 3).page_faults = 4) := by
  refine ⟨⟨?_, ?_, ?_⟩, ⟨?_, ?_, ?_⟩, ⟨?_, ?_, ?_⟩⟩ <;> decide

theorem count_set_ge (l : List Int) (a v : Int) :
    ∀ idx, l.count a ≤ (l.set idx v).count a + 1 := by
  induction l with
  | nil => intro idx; simp
  | cons x rest ih =>
    intro idx
    cases idx with
    | zero =>
      simp only [List.set_cons_zero, List.count_cons]
      split <;> split <;> omega
    | succ idx =>
      have := ih idx
      simp only [List.set_cons_succ, List.count_cons]
      split <;> omega

/-- In every run the slots that are not empty are at most as many as the misses so far. -/
theorem run_empty_count {F : Nat} {refs : List Int} {core : Nat → Core}
    (hrun : IsRun F refs core) (i : Nat) (hi : i ≤ refs.length) :
    F ≤ (core i).cnt + (core i).frames.count (-1) := by
  induction i with
  | zero => simp [hrun.1, emptyFrames]
  | succ i ih =>
    have h := ih (by omega)
    rcases hrun.2 i (by omega) with ⟨_, heq⟩ | ⟨_, idx, _, hf, hc, _⟩
    · rw [heq]; exact h
    · rw [hf, hc]
      have := count_set_ge (core i).frames (-1) refs[i] idx
      omega

/-- A miss that finds no empty slot is counted as a fault. -/
theorem run_full_counted {F : Nat} {refs : List Int} {core : Nat → Core}
    (hrun : IsRun F refs core) (i : Nat) (hi : i < refs.length)
    (hmiss : isMiss (core i).frames refs i = true) (hfull : (-1 : Int) ∉ (core i).frames) :
    (core (i + 1)).page_faults = (core i).page_faults + 1 := by
  have h := run_empty_count hrun i (by omega)
  rw [List.count_eq_zero_of_not_mem hfull] at h
  rcases hrun.2 i hi with ⟨hin, _⟩ | ⟨_, idx, _, _, _, hpf⟩
  · rw [(isMiss_true_iff hi).1 hmiss] at hin; cases hin
  · rw [hpf, if_pos (by omega)]

/-- Over non-negative pages slot `j` of `fifo` is empty exactly when fewer than `j + 1` misses
have happened. -/
theorem fifo_empty_slots (refs : List Int) (F : Nat) (hF : 1 ≤ F) (hnn : NonNeg refs)
    (i : Nat) (hi : i ≤ refs.length) :
    ∀ j, j < F → ((fifoAt refs F i).frames.getD j 0 = -1 ↔ (fifoAt refs F i).cnt ≤ j) := by
  induction i with
  | zero =>
    intro j hj
    simp [fifoAt, forLoop, fifoInit, emptyFrames, List.getD_eq_getElem?_getD,
      List.getElem?_replicate, hj]
  | succ i ih =>
    have h := ih (by omega)
    have hlt : i < refs.length := by omega
    have hp : refs[i]? = some refs[i] := List.getElem?_eq_getElem hlt
    have hlen := fifo_frames_length refs F hF i (by omega)
    have hcur := fifo_cursor refs F i
    rw [fifoAt_succ]
    cases hin : inMemory (fifoAt refs F i).frames refs[i]
    · rw [fifoBody_miss hp hin]
      intro j hj
      have hpage : refs[i] ≠ -1 := by
        have := hnn _ (List.getElem_mem hlt); omega
      have hmod : (fifoAt refs F i).cnt % F < F := Nat.mod_lt _ hF
      simp only [List.getD_eq_getElem?_getD, List.getElem?_set, hcur, hlen, hmod, if_true]
      by_cases hjc : (fifoAt refs F i).cnt % F = j
      · simp only [hjc, if_true, Option.getD_some]
        constructor
        · intro he; exact absurd he hpage
        · intro hle
          have : (fifoAt refs F i).cnt < F := by omega
          rw [Nat.mod_eq_of_lt this] at hjc
          omega
      · simp only [hjc, if_false]
        have hj' := h j hj
        rw [List.getD_eq_getElem?_getD] at hj'
        rw [hj']
        constructor
        · intro hle
          by_contra hcon
          have hcj : (fifoAt refs F i).cnt = j := by omega
          rw [hcj, Nat.mod_eq_of_lt hj] at hjc
          exact hjc rfl
        · intro hle; omega
    · rw [fifoBody_hit hp hin]; exact h

theorem fifo_full_iff (refs : List Int) (F : Nat) (hF : 1 ≤ F) (hnn : NonNeg refs)
    (i : Nat) (hi : i ≤ refs.length) :
    (-1 : Int) ∉ (fifoAt refs F i).frames ↔ F ≤ (fifoAt refs F i).cnt := by
  have h := fifo_empty_slots refs F hF hnn i hi
  have hlen := fifo_frames_length refs F hF i hi
  constructor
  · intro hfull
    by_contra hcon
    have hc : (fifoAt refs F i).cnt < F := by omega
    have := (h _ hc).2 (Nat.le_refl _)
    rw [List.getD_eq_getElem?_getD, List.getElem?_eq_getElem (by omega)] at this
    simp only [Option.getD_some] at this
    exact hfull (this ▸ List.getElem_mem _)
  · intro hle hmem
    obtain ⟨j, hj, hje⟩ := List.getElem_of_mem hmem
    have hjF : j < F := by omega
    have := (h j hjF).1 (by
      rw [List.getD_eq_getElem?_getD, List.getElem?_eq_getElem hj]; simpa using hje)
    omega

/-- C9, counterexample: on `[1, 2, 3]` with two frames the second miss of `opt` overwrites
slot 0, which holds page 1, although slot 1 is empty, and the third miss is counted as a fault
while slot 1 is still empty; `lru` does the same on this input. -/
theorem C9_fault_counted_with_empty_slot :
    NonNeg [1, 2, 3] ∧
    ((optAt [1, 2, 3] 2 1).frames = [1, -1] ∧ (optAt [1, 2, 3] 2 2).frames = [2, -1] ∧
      isMiss (optAt [1, 2, 3] 2 2).frames [1, 2, 3] 2 = true ∧
      (-1 : Int) ∈ (optAt [1, 2, 3] 2 2).frames ∧
      (optAt [1, 2, 3] 2 3).page_faults = (optAt [1, 2, 3] 2 2).page_faults + 1 ∧
      ¬ ((optAt [1, 2, 3] 2 3).page_faults = (optAt [1, 2, 3] 2 2).page_faults + 1 ↔
          (-1 : Int) ∉ (optAt [1, 2, 3] 2 2).frames)) ∧
    ((lruAt [1, 2, 3] 2 1).frames = [1, -1] ∧ (lruAt [1, 2, 3] 2 2).frames = [2, -1] ∧
      isMiss (lruAt [1, 2, 3] 2 2).frames [1, 2, 3] 2 = true ∧
      (-1 : Int) ∈ (lruAt [1, 2, 3] 2 2).frames ∧
      (lruAt [1, 2, 3] 2 3).page_faults = (lruAt [1, 2, 3] 2 2).page_faults + 1) := by
  refine ⟨by decide, ⟨?_, ?_, ?_, ?_, ?_, ?_⟩, ⟨?_, ?_, ?_, ?_, ?_⟩⟩ <;> decide

/-- C9, amended: for each of `fifo`, `lru` and `opt`, every sequence of non-negative page
numbers and every `1 ≤ F ≤ 100`, a miss that finds no empty slot in the frame table increments
the fault counter. For `fifo` the converse holds too: a miss increments the fault counter if
and only if no empty slot remained before it, a miss among the first `F` ones stores its page
into an empty slot, and no fault is counted while a slot is still empty. -/
theorem C9_full_table_miss_is_counted (refs : List Int) (F : Nat) (hF : 1 ≤ F)
    (_hmax : F ≤ MAX_FRAMES) (hnn : NonNeg refs) (i : Nat) (hi : i < refs.length) :
    ((isMiss (fifoAt refs F i).frames refs i = true → (-1 : Int) ∉ (fifoAt refs F i).frames →
        (fifoAt refs F (i + 1)).page_faults = (fifoAt refs F i).page_faults + 1) ∧
     (isMiss (lruAt refs F i).frames refs i = true → (-1 : Int) ∉ (lruAt refs F i).frames →
        (lruAt refs F (i + 1)).page_faults = (lruAt refs F i).page_faults + 1) ∧
     (isMiss (optAt refs F i).frames refs i = true → (-1 : Int) ∉ (optAt refs F i).frames →
        (optAt refs F (i + 1)).page_faults = (optAt refs F i).page_faults + 1)) ∧
    (isMiss (fifoAt refs F i).frames refs i = true →
      ((fifoAt refs F (i + 1)).page_faults = (fifoAt refs F i).page_faults + 1 ↔
        (-1 : Int) ∉ (fifoAt refs F i).frames)) ∧
    (isMiss (fifoAt refs F i).frames refs i = true →
      missCount (fun t => (fifoAt refs F t).frames) refs (i + 1) ≤ F →
      (fifoAt refs F i).frames[(fifoAt refs F i).next_frame]? = some (-1) ∧
      (fifoAt refs F (i + 1)).frames
        = (fifoAt refs F i).frames.set (fifoAt refs F i).next_frame refs[i]) ∧
    ((-1 : Int) ∈ (fifoAt refs F i).frames →
      (fifoAt refs F (i + 1)).page_faults = (fifoAt refs F i).page_faults) := by
  have hp : refs[i]? = some refs[i] := List.getElem?_eq_getElem hi
  have hfull := fifo_full_iff refs F hF hnn i (by omega)
  have hlen := fifo_frames_length refs F hF i (by omega)
  refine ⟨⟨?_, ?_, ?_⟩, ?_, ?_, ?_⟩
  · exact run_full_counted (fifo_isRun refs F hF) i hi
  · exact run_full_counted (lru_isRun refs F hF) i hi
  · exact run_full_counted (opt_isRun refs F hF) i hi
  · intro hm
    have hin := (isMiss_true_iff hi).1 hm
    rw [hfull, fifoAt_succ, fifoBody_miss hp hin]
    simp only
    split <;> omega
  · intro hm hle
    have hin := (isMiss_true_iff hi).1 hm
    have hc : (fifoAt refs F i).cnt = missCount (fun t => (fifoAt refs F t).frames) refs i :=
      run_cnt (fifo_isRun refs F hF) i (by omega)
    rw [missCount_succ, ← hc] at hle
    simp only [hm, if_true] at hle
    have hlt : (fifoAt refs F i).cnt < F := by omega
    have hcur := fifo_cursor refs F i
    rw [Nat.mod_eq_of_lt hlt] at hcur
    have he := (fifo_empty_slots refs F hF hnn i (by omega) _ hlt).2 (Nat.le_refl _)
    rw [List.getD_eq_getElem?_getD, List.getElem?_eq_getElem (by omega)] at he
    simp only [Option.getD_some] at he
    refine ⟨?_, ?_⟩
    · rw [hcur, List.getElem?_eq_getElem (by omega), he]
    · rw [fifoAt_succ, fifoBody_miss hp hin]
  · intro hmem
    have hnot : ¬ F ≤ (fifoAt refs F i).cnt := fun h => (hfull.2 h) hmem
    rw [fifoAt_succ]
    cases hin : inMemory (fifoAt refs F i).frames refs[i]
    · rw [fifoBody_miss hp hin]
      simp only
      rw [if_neg (by omega)]
    · rw [fifoBody_hit hp hin]

/-- C9, amended, at step 2 of the sequence `[1, 2, 3]` with two frames. -/
theorem C9_full_table_miss_is_counted_witness :
    (1 ≤ 2 ∧ 2 ≤ MAX_FRAMES ∧ NonNeg [1, 2, 3] ∧ 2 < ([1, 2, 3] : List Int).length) ∧
    (isMiss (fifoAt [1, 2, 3] 2 2).frames [1, 2, 3] 2 = true →
      ((fifoAt [1, 2, 3] 2 (2 + 1)).page_faults = (fifoAt [1, 2, 3] 2 2).page_faults + 1 ↔
        (-1 : Int) ∉ (fifoAt [1, 2, 3] 2 2).frames)) :=
  ⟨⟨by decide, by decide, by decide, by decide⟩,
   (C9_full_table_miss_is_counted [1, 2, 3] 2 (by decide) (by decide) (by decide) 2
    (by decide)).2.1⟩

/-- C7, failing input for `lru`: `[0, 1, 0]` holds exactly two distinct non-negative pages, yet
with two frames `lru` stores page 1 over page 0 in slot 0 while slot 1 is empty, misses page 0
again at step 2 and reports one fault; `fifo` and `opt` report none. -/
theorem C7_lru_faults_on_F_distinct_pages :
    NonNeg [0, 1, 0] ∧ ([0, 1, 0] : List Int).dedup.length = 2 ∧
    (lruAt [0, 1, 0] 2 1).frames = [0, -1] ∧ (lruAt [0, 1, 0] 2 2).frames = [1, -1] ∧
    (lru [0, 1, 0] 2).cnt = 3 ∧ (lru [0, 1, 0] 2).page_faults = 1 ∧
    (fifo [0, 1, 0] 2).page_faults = 0 ∧ (opt [0, 1, 0] 2).page_faults = 0 := by
  refine ⟨by decide, by decide, ?_, ?_, ?_, ?_, ?_, ?_⟩ <;> decide

/-! ## Optimality of `opt` -/

theorem erase_cons_mem {M : Multiset Int} {q : Int} (b : Int) (hq : q ∈ M) :
    (b ::ₘ M).erase q = b ::ₘ M.erase q := by
  by_cases h : b = q
  · subst h; rw [Multiset.erase_cons_head, Multiset.cons_erase hq]
  · exact Multiset.erase_cons_tail M h

/-- Exchanging the content of one slot costs at most one more miss. -/
theorem sched_swap (σ : List Int) :
    ∀ (M : Multiset Int) (a b : Int) (c : Nat), Sched σ (a ::ₘ M) c →
      ∃ c', c' ≤ c + 1 ∧ Sched σ (b ::ₘ M) c' := by
  induction σ with
  | nil =>
    intro M a b c h
    exact ⟨0, Nat.zero_le _, rfl⟩
  | cons r σ ih =>
    intro M a b c h
    rcases h with ⟨hr, hs⟩ | ⟨hr, q, hq, c0, rfl, hs⟩
    · by_cases hb : r ∈ b ::ₘ M
      · obtain ⟨c', hc', hs'⟩ := ih M a b c hs
        exact ⟨c', hc', Or.inl ⟨hb, hs'⟩⟩
      · have hra : r = a := by
          rcases Multiset.mem_cons.1 hr with h | h
          · exact h
          · exact absurd (Multiset.mem_cons_of_mem h) hb
        subst hra
        refine ⟨c + 1, Nat.le_refl _, Or.inr ⟨hb, b, Multiset.mem_cons_self _ _, c, rfl, ?_⟩⟩
        rw [Multiset.erase_cons_head]; exact hs
    · have hrM : r ∉ M := fun h => hr (Multiset.mem_cons_of_mem h)
      by_cases hqa : q = a
      · subst hqa
        rw [Multiset.erase_cons_head] at hs
        by_cases hb : r ∈ b ::ₘ M
        · have hrb : r = b := by
            rcases Multiset.mem_cons.1 hb with h | h
            · exact h
            · exact absurd h hrM
          subst hrb
          exact ⟨c0, by omega, Or.inl ⟨hb, hs⟩⟩
        · refine ⟨c0 + 1, by omega, Or.inr ⟨hb, b, Multiset.mem_cons_self _ _, c0, rfl, ?_⟩⟩
          rw [Multiset.erase_cons_head]; exact hs
      · have hqM : q ∈ M := by
          rcases Multiset.mem_cons.1 hq with h | h
          · exact absurd h hqa
          · exact h
        rw [erase_cons_mem a hqM, Multiset.cons_swap] at hs
        by_cases hb : r ∈ b ::ₘ M
        · have hrb : r = b := by
            rcases Multiset.mem_cons.1 hb with h | h
            · exact h
            · exact absurd h hrM
          subst hrb
          obtain ⟨c', hc', hs'⟩ := ih (r ::ₘ M.erase q) a q c0 hs
          rw [Multiset.cons_swap, Multiset.cons_erase hqM] at hs'
          exact ⟨c', by omega, Or.inl ⟨hb, hs'⟩⟩
        · obtain ⟨c', hc', hs'⟩ := ih (r ::ₘ M.erase q) a b c0 hs
          refine ⟨c' + 1, by omega,
            Or.inr ⟨hb, q, Multiset.mem_cons_of_mem hqM, c', rfl, ?_⟩⟩
          rw [erase_cons_mem b hqM, Multiset.cons_swap]; exact hs'

theorem firstOcc_le_length (v : Int) (σ : List Int) : firstOcc v σ ≤ σ.length := by
  induction σ with
  | nil => simp [firstOcc]
  | cons r σ ih =>
    by_cases h : r = v
    · simp [firstOcc, h]
    · simp [firstOcc, h, ih]

theorem firstOcc_eq_length_iff (v : Int) (σ : List Int) :
    firstOcc v σ = σ.length ↔ v ∉ σ := by
  induction σ with
  | nil => simp [firstOcc]
  | cons r σ ih =>
    by_cases h : r = v
    · simp [firstOcc, h]
    · have h2 : ¬ v = r := fun e => h e.symm
      simp [firstOcc, h, h2, ih]

/-- Holding a page that is referenced sooner instead of one referenced later (or never) costs
no additional miss. -/
theorem sched_prefer (σ : List Int) :
    ∀ (M : Multiset Int) (a b : Int) (c : Nat),
      firstOcc b σ ≤ firstOcc a σ → (b ∉ M ∨ a ∉ σ) → Sched σ (a ::ₘ M) c →
      ∃ c', c' ≤ c ∧ Sched σ (b ::ₘ M) c' := by
  induction σ with
  | nil =>
    intro M a b c _ _ h
    exact ⟨0, Nat.zero_le _, rfl⟩
  | cons r σ ih =>
    intro M a b c hfo hcond h
    by_cases hab : a = b
    · subst hab; exact ⟨c, Nat.le_refl _, h⟩
    have hra : r ≠ a := by
      intro e
      subst e
      by_cases hrb : r = b
      · exact hab hrb
      · simp [firstOcc, hrb] at hfo
    have hcond' : ∀ N : Multiset Int, (b ∈ N → b ∈ M) → (b ∉ N ∨ a ∉ σ) := by
      intro N hN
      rcases hcond with h1 | h1
      · exact Or.inl (fun hb => h1 (hN hb))
      · exact Or.inr (fun ha => h1 (List.mem_cons_of_mem _ ha))
    rcases h with ⟨hr, hs⟩ | ⟨hr, q, hq, c0, rfl, hs⟩
    · have hrM : r ∈ M := by
        rcases Multiset.mem_cons.1 hr with h | h
        · exact absurd h hra
        · exact h
      have hrbM : r ∈ b ::ₘ M := Multiset.mem_cons_of_mem hrM
      by_cases hrb : r = b
      · subst hrb
        have haσ : a ∉ σ := by
          rcases hcond with h1 | h1
          · exact absurd hrM h1
          · exact fun ha => h1 (List.mem_cons_of_mem _ ha)
        have hfo' : firstOcc r σ ≤ firstOcc a σ := by
          rw [(firstOcc_eq_length_iff a σ).2 haσ]; exact firstOcc_le_length r σ
        obtain ⟨c', hc', hs'⟩ := ih M a r c hfo' (Or.inr haσ) hs
        exact ⟨c', hc', Or.inl ⟨hrbM, hs'⟩⟩
      · have hfo' : firstOcc b σ ≤ firstOcc a σ := by
          simp only [firstOcc, hrb, hra, if_false] at hfo; omega
        obtain ⟨c', hc', hs'⟩ := ih M a b c hfo' (hcond' M id) hs
        exact ⟨c', hc', Or.inl ⟨hrbM, hs'⟩⟩
    · have hrM : r ∉ M := fun h => hr (Multiset.mem_cons_of_mem h)
      by_cases hrb : r = b
      · subst hrb
        have hb : r ∈ r ::ₘ M := Multiset.mem_cons_self _ _
        by_cases hqa : q = a
        · subst hqa
          rw [Multiset.erase_cons_head] at hs
          exact ⟨c0, by omega, Or.inl ⟨hb, hs⟩⟩
        · have hqM : q ∈ M := by
            rcases Multiset.mem_cons.1 hq with h | h
            · exact absurd h hqa
            · exact h
          rw [erase_cons_mem a hqM, Multiset.cons_swap] at hs
          obtain ⟨c', hc', hs'⟩ := sched_swap σ (r ::ₘ M.erase q) a q c0 hs
          rw [Multiset.cons_swap, Multiset.cons_erase hqM] at hs'
          exact ⟨c', by omega, Or.inl ⟨hb, hs'⟩⟩
      · have hb : r ∉ b ::ₘ M := by
          intro h
          rcases Multiset.mem_cons.1 h with h | h
          · exact hrb h
          · exact hrM h
        have hfo' : firstOcc b σ ≤ firstOcc a σ := by
          simp only [firstOcc, hrb, hra, if_false] at hfo; omega
        by_cases hqa : q = a
        · subst hqa
          rw [Multiset.erase_cons_head] at hs
          refine ⟨c0 + 1, Nat.le_refl _,
            Or.inr ⟨hb, b, Multiset.mem_cons_self _ _, c0, rfl, ?_⟩⟩
          rw [Multiset.erase_cons_head]; exact hs
        · have hqM : q ∈ M := by
            rcases Multiset.mem_cons.1 hq with h | h
            · exact absurd h hqa
            · exact h
          rw [erase_cons_mem a hqM, Multiset.cons_swap] at hs
          have hc2 : b ∉ r ::ₘ M.erase q ∨ a ∉ σ := by
            apply hcond'
            intro hbm
            rcases Multiset.mem_cons.1 hbm with h | h
            · exact absurd h.symm hrb
            · exact Multiset.mem_of_mem_erase h
          obtain ⟨c', hc', hs'⟩ := ih (r ::ₘ M.erase q) a b c0 hfo' hc2 hs
          refine ⟨c' + 1, by omega,
            Or.inr ⟨hb, q, Multiset.mem_cons_of_mem hqM, c', rfl, ?_⟩⟩
          rw [erase_cons_mem b hqM, Multiset.cons_swap]; exact hs'
theorem coe_set (l : List Int) (r : Int) :
    ∀ (m : Nat) (hm : m < l.length),
      ((l.set m r : List Int) : Multiset Int) = r ::ₘ (l : Multiset Int).erase l[m] := by
  induction l with
  | nil => intro m hm; simp at hm
  | cons x rest ih =>
    intro m hm
    cases m with
    | zero =>
      simp only [List.set_cons_zero, List.getElem_cons_zero]
      rw [← Multiset.cons_coe x rest, Multiset.erase_cons_head, Multiset.cons_coe]
    | succ m =>
      have hm' : m < rest.length := by simpa using hm
      have hmem : rest[m] ∈ (rest : Multiset Int) := Multiset.mem_coe.2 (List.getElem_mem hm')
      simp only [List.set_cons_succ, List.getElem_cons_succ]
      rw [← Multiset.cons_coe x (rest.set m r), ih m hm', ← Multiset.cons_coe x rest,
        erase_cons_mem x hmem, Multiset.cons_swap]

/-- Every run of a policy is a demand-paging schedule with as many misses as the run counts. -/
theorem run_sched {F : Nat} {refs : List Int} {core : Nat → Core} (hrun : IsRun F refs core) :
    ∀ (n i : Nat), i + n = refs.length →
      ∃ c, Sched (refs.drop i) ((core i).frames : Multiset Int) c ∧
        (core i).cnt + c = (core refs.length).cnt := by
  intro n
  induction n with
  | zero =>
    intro i hi
    have e : i = refs.length := by omega
    subst e
    exact ⟨0, by rw [List.drop_length]; rfl, rfl⟩
  | succ n ih =>
    intro i hi
    have hlt : i < refs.length := by omega
    obtain ⟨c, hs, hc⟩ := ih (i + 1) (by omega)
    have hlen := (run_inv hrun i (by omega)).1
    rw [List.drop_eq_getElem_cons hlt]
    rcases hrun.2 i hlt with ⟨hin, heq⟩ | ⟨hin, idx, hidx, hf, hcnt, _⟩
    · rw [heq] at hs hc
      exact ⟨c, Or.inl ⟨Multiset.mem_coe.2 ((inMemory_iff _ _).1 hin), hs⟩, hc⟩
    · have hidx' : idx < (core i).frames.length := by omega
      rw [hf, coe_set _ _ idx hidx'] at hs
      refine ⟨c + 1, Or.inr ⟨?_, (core i).frames[idx], ?_, c, rfl, hs⟩, by omega⟩
      · exact fun h => (inMemory_false_iff _ _).1 hin (Multiset.mem_coe.1 h)
      · exact Multiset.mem_coe.2 (List.getElem_mem hidx')

theorem scanNext_firstOcc (v : Int) (l : List Int) :
    ∀ (k N : Nat), N = k + l.length → scanNext v l k N = k + firstOcc v l := by
  induction l with
  | nil => intro k N hN; simp at hN; simp [scanNext, firstOcc, hN]
  | cons r rest ih =>
    intro k N hN
    simp only [List.length_cons] at hN
    by_cases hr : r = v
    · simp [scanNext, firstOcc, hr]
    · simp only [scanNext, firstOcc, hr, if_false]
      rw [ih (k + 1) N (by omega)]; omega

theorem nextUse_firstOcc (refs : List Int) (i : Nat) (hi : i < refs.length) (v : Int) :
    nextUse refs i v = (i + 1) + firstOcc v (refs.drop (i + 1)) := by
  unfold nextUse
  exact scanNext_firstOcc v _ _ _ (by rw [List.length_drop]; omega)

theorem noDuplicate_tail {x : Int} {rest : List Int} (h : NoDuplicate (x :: rest)) :
    NoDuplicate rest := by
  intro j hj k hk heq hne
  have := h (j + 1) (by simpa using hj) (k + 1) (by simpa using hk)
    (by simpa using heq) (by simpa using hne)
  omega

theorem noDuplicate_count {l : List Int} (h : NoDuplicate l) (v : Int) (hv : v ≠ -1) :
    l.count v ≤ 1 := by
  induction l with
  | nil => simp
  | cons x rest ih =>
    have ht := ih (noDuplicate_tail h)
    by_cases hx : x = v
    · subst hx
      have hnot : x ∉ rest := by
        intro hmem
        obtain ⟨j, hj, hje⟩ := List.getElem_of_mem hmem
        have := h 0 (by simp) (j + 1) (by simpa using hj) (by simpa using hje.symm)
          (by simpa using hv)
        omega
      rw [List.count_cons_self, List.count_eq_zero_of_not_mem hnot]
    · rw [List.count_cons_of_ne (fun e => hx e.symm)]; exact ht
/-- The choice of `opt` is at least as good as any other: replacing the content of the slot
with the largest `nextUse` leaves a table from which no schedule does worse. -/
theorem opt_choice (refs : List Int) (F : Nat) (hnn : NonNeg refs) (i : Nat)
    (hi : i < refs.length) (frames : List Int) (hlen : frames.length = F)
    (hnd : NoDuplicate frames) (hr : refs[i] ∉ frames) (m : Nat) (hm : m < frames.length)
    (hmax : ∀ j, j < F →
      nextUse refs i (frames.getD j 0) ≤ nextUse refs i (frames.getD m 0))
    (q : Int) (hq : q ∈ frames) (c0 : Nat)
    (hs : Sched (refs.drop (i + 1)) (refs[i] ::ₘ (frames : Multiset Int).erase q) c0) :
    ∃ c', c' ≤ c0 ∧
      Sched (refs.drop (i + 1)) ((frames.set m refs[i] : List Int) : Multiset Int) c' := by
  rw [coe_set _ _ m hm]
  by_cases hqa : q = frames[m]
  · subst hqa; exact ⟨c0, Nat.le_refl _, hs⟩
  have ha : frames[m] ∈ (frames : Multiset Int) := Multiset.mem_coe.2 (List.getElem_mem hm)
  have hq' : q ∈ (frames : Multiset Int) := Multiset.mem_coe.2 hq
  have hne : frames[m] ≠ q := fun e => hqa e.symm
  have e1 : (frames : Multiset Int).erase q
      = frames[m] ::ₘ ((frames : Multiset Int).erase q).erase frames[m] :=
    (Multiset.cons_erase ((Multiset.mem_erase_of_ne hne).2 ha)).symm
  have e2 : (frames : Multiset Int).erase frames[m]
      = q ::ₘ ((frames : Multiset Int).erase q).erase frames[m] := by
    rw [Multiset.erase_comm]
    exact (Multiset.cons_erase ((Multiset.mem_erase_of_ne hqa).2 hq')).symm
  rw [e1, Multiset.cons_swap] at hs
  rw [e2, Multiset.cons_swap]
  obtain ⟨j, hj, hje⟩ := List.getElem_of_mem hq
  have hgm : frames.getD m 0 = frames[m] := by
    rw [List.getD_eq_getElem?_getD, List.getElem?_eq_getElem hm]; rfl
  have hgj : frames.getD j 0 = q := by
    rw [List.getD_eq_getElem?_getD, List.getElem?_eq_getElem hj, hje]; rfl
  have hle := hmax j (by omega)
  rw [hgm, hgj, nextUse_firstOcc refs i hi, nextUse_firstOcc refs i hi] at hle
  apply sched_prefer _ _ _ _ _ (by omega) _ hs
  by_cases hq1 : q = -1
  · right
    subst hq1
    have h1 := nextUse_empty refs hnn i hi
    have h2 := hmax j (by omega)
    rw [hgm, hgj, h1, nextUse_firstOcc refs i hi] at h2
    have h3 := firstOcc_le_length frames[m] (refs.drop (i + 1))
    rw [← firstOcc_eq_length_iff]
    rw [List.length_drop] at h3 ⊢
    omega
  · left
    intro hmem
    rcases Multiset.mem_cons.1 hmem with h | h
    · exact hr (h ▸ hq)
    · have hc := noDuplicate_count hnd q hq1
      have h0 : Multiset.count q (((frames : Multiset Int).erase q).erase frames[m]) = 0 := by
        rw [Multiset.count_erase_of_ne hqa, Multiset.count_erase_self, Multiset.coe_count]
        omega
      exact (Multiset.count_eq_zero.1 h0) h

/-- From any table without duplicates `opt` misses no more often than any demand-paging
schedule does from the same table. -/
theorem opt_optimal (refs : List Int) (F : Nat) (hF : 1 ≤ F) (hnn : NonNeg refs) :
    ∀ (n i : Nat) (s : OptState) (c : Nat), i + n = refs.length → s.frames.length = F →
      NoDuplicate s.frames → Sched (refs.drop i) (s.frames : Multiset Int) c →
      (forLoop (optBody refs F) i n s).cnt ≤ s.cnt + c := by
  intro n
  induction n with
  | zero => intro i s c _ _ _ _; simp [forLoop]
  | succ n ih =>
    intro i s c hi hlen hnd hs
    have hlt : i < refs.length := by omega
    have hp : refs[i]? = some refs[i] := List.getElem?_eq_getElem hlt
    rw [List.drop_eq_getElem_cons hlt] at hs
    rw [forLoop]
    rcases hs with ⟨hr, hs⟩ | ⟨hr, q, hq, c0, rfl, hs⟩
    · have hin := (inMemory_iff _ _).2 (Multiset.mem_coe.1 hr)
      rw [optBody_hit hp hin]
      exact ih (i + 1) s c (by omega) hlen hnd hs
    · have hr' : refs[i] ∉ s.frames := fun h => hr (Multiset.mem_coe.2 h)
      have hin := (inMemory_false_iff _ _).2 hr'
      obtain ⟨m, hm, hidx, hmax, _⟩ := optScan_spec refs i s.frames F hF
      obtain ⟨c', hc', hs'⟩ := opt_choice refs F hnn i hlt s.frames hlen hnd hr' m (by omega)
        hmax q (Multiset.mem_coe.1 hq) c0 hs
      rw [optBody_miss hp hin, hidx, store_natCast]
      have := ih (i + 1)
        { frames := s.frames.set m refs[i], cnt := s.cnt + 1,
          page_faults := if s.cnt + 1 > F then s.page_faults + 1 else s.page_faults }
        c' (by omega) (by simpa using hlen) (noDuplicate_set hnd m _ hr') hs'
      simp only at this
      omega

/-- The run of `opt` misses no more often than any other run over the same references. -/
theorem opt_cnt_le_run (refs : List Int) (F : Nat) (hF : 1 ≤ F) (hnn : NonNeg refs)
    {core : Nat → Core} (hrun : IsRun F refs core) :
    (opt refs F).cnt ≤ (core refs.length).cnt := by
  obtain ⟨c, hs, hc⟩ := run_sched hrun refs.length 0 (by omega)
  rw [hrun.1] at hs hc
  have := opt_optimal refs F hF hnn refs.length 0 (optInit F) c (by omega)
    (by simp [optInit, emptyFrames]) (noDuplicate_empty F) hs
  simp only [optInit] at this hc
  unfold opt optAt
  simp only [optInit]
  omega

/-- C2: for every sequence of non-negative page numbers and every `1 ≤ F ≤ 100`, the fault
count of `opt` is at most the fault count of `fifo` and at most the fault count of `lru` on
the same sequence and `F`; the same holds for the numbers of misses. -/
theorem C2_opt_faults_le_fifo_and_lru (refs : List Int) (F : Nat) (hF : 1 ≤ F)
    (_hmax : F ≤ MAX_FRAMES) (hnn : NonNeg refs) :
    ((opt refs F).page_faults ≤ (fifo refs F).page_faults ∧
      (opt refs F).page_faults ≤ (lru refs F).page_faults) ∧
    ((opt refs F).cnt ≤ (fifo refs F).cnt ∧ (opt refs F).cnt ≤ (lru refs F).cnt) := by
  have h1 := opt_cnt_le_run refs F hF hnn (fifo_isRun refs F hF)
  have h2 := opt_cnt_le_run refs F hF hnn (lru_isRun refs F hF)
  have ho := (run_inv (opt_isRun refs F hF) refs.length (Nat.le_refl _)).2.1
  have hf := (run_inv (fifo_isRun refs F hF) refs.length (Nat.le_refl _)).2.1
  have hl := (run_inv (lru_isRun refs F hF) refs.length (Nat.le_refl _)).2.1
  simp only [FifoState.core, LruState.core, OptState.core] at h1 h2 ho hf hl
  unfold opt fifo lru at *
  refine ⟨⟨?_, ?_⟩, h1, h2⟩ <;> omega

/-- C2 at the sequence `[1, 2, 3, 4, 1, 2, 5, 1, 2, 3, 4, 5]` with three frames. -/
theorem C2_opt_faults_le_fifo_and_lru_witness :
    (1 ≤ 3 ∧ 3 ≤ MAX_FRAMES ∧ NonNeg [1, 2, 3, 4, 1, 2, 5, 1, 2, 3, 4, 5]) ∧
    (opt [1, 2, 3, 4, 1, 2, 5, 1, 2, 3, 4, 5] 3).page_faults
      ≤ (fifo [1, 2, 3, 4, 1, 2, 5, 1, 2, 3, 4, 5] 3).page_faults ∧
    (opt [1, 2, 3, 4, 1, 2, 5, 1, 2, 3, 4, 5] 3).page_faults
      ≤ (lru [1, 2, 3, 4, 1, 2, 5, 1, 2, 3, 4, 5] 3).page_faults :=
  ⟨⟨by decide, by decide, by decide⟩,
   (C2_opt_faults_le_fifo_and_lru [1, 2, 3, 4, 1, 2, 5, 1, 2, 3, 4, 5] 3 (by decide)
    (by decide) (by decide)).1⟩

/-! ## `fifo` and `opt` on a sequence with exactly `F` distinct pages -/

theorem run_frames_subset {F : Nat} {refs : List Int} {core : Nat → Core}
    (hrun : IsRun F refs core) (i : Nat) (hi : i ≤ refs.length) :
    ∀ v, v ∈ (core i).frames → v = -1 ∨ v ∈ refs := by
  induction i with
  | zero =>
    intro v hv
    rw [hrun.1] at hv
    exact Or.inl (List.eq_of_mem_replicate hv)
  | succ i ih =>
    have h := ih (by omega)
    have hlt : i < refs.length := by omega
    rcases hrun.2 i hlt with ⟨_, heq⟩ | ⟨_, idx, _, hf, _, _⟩
    · rw [heq]; exact h
    · intro v hv
      rw [hf] at hv
      rcases List.mem_or_eq_of_mem_set hv with h1 | h1
      · exact h v h1
      · exact Or.inr (h1 ▸ List.getElem_mem hlt)

/-- A full table without duplicates, filled from a sequence with exactly `F` distinct pages,
holds every page of the sequence. -/
theorem full_table_holds_all {frames refs : List Int} {F : Nat} (hlen : frames.length = F)
    (hnd : NoDuplicate frames) (hfull : (-1 : Int) ∉ frames)
    (hsub : ∀ v, v ∈ frames → v = -1 ∨ v ∈ refs) (hd : refs.dedup.length = F) :
    ∀ p, p ∈ refs → p ∈ frames := by
  have hnodup : frames.Nodup := by
    rw [List.nodup_iff_count_le_one]
    intro a
    by_cases ha : a = -1
    · subst ha; rw [List.count_eq_zero_of_not_mem hfull]; omega
    · exact noDuplicate_count hnd a ha
  have hcard : frames.toFinset.card = F := by
    rw [List.toFinset_card_of_nodup hnodup, hlen]
  have hss : frames.toFinset ⊆ refs.toFinset := by
    intro v hv
    rw [List.mem_toFinset] at hv ⊢
    rcases hsub v hv with h | h
    · exact absurd (h ▸ hv) hfull
    · exact h
  have heq := Finset.eq_of_subset_of_card_le hss (by rw [List.card_toFinset, hd, hcard])
  intro p hp
  have : p ∈ refs.toFinset := List.mem_toFinset.2 hp
  rw [← heq] at this
  exact List.mem_toFinset.1 this

theorem run_full_no_miss {F : Nat} {refs : List Int} {core : Nat → Core}
    (hrun : IsRun F refs core) (hd : refs.dedup.length = F) (i : Nat) (hi : i < refs.length)
    (hfull : (-1 : Int) ∉ (core i).frames) : inMemory (core i).frames refs[i] = true := by
  rw [inMemory_iff]
  exact full_table_holds_all (run_inv hrun i (by omega)).1 (run_noDuplicate hrun i (by omega))
    hfull (run_frames_subset hrun i (by omega)) hd _ (List.getElem_mem hi)

theorem fifo_cnt_le (refs : List Int) (F : Nat) (hF : 1 ≤ F) (hnn : NonNeg refs)
    (hd : refs.dedup.length = F) (i : Nat) (hi : i ≤ refs.length) :
    (fifoAt refs F i).cnt ≤ F := by
  induction i with
  | zero => simp [fifoAt, forLoop, fifoInit]
  | succ i ih =>
    have h := ih (by omega)
    have hlt : i < refs.length := by omega
    have hp : refs[i]? = some refs[i] := List.getElem?_eq_getElem hlt
    rw [fifoAt_succ]
    cases hin : inMemory (fifoAt refs F i).frames refs[i]
    · rw [fifoBody_miss hp hin]
      simp only
      by_contra hcon
      have hfull := (fifo_full_iff refs F hF hnn i (by omega)).2 (by omega)
      have := run_full_no_miss (fifo_isRun refs F hF) hd i hlt hfull
      simp only [FifoState.core] at this
      rw [hin] at this; cases this
    · rw [fifoBody_hit hp hin]; exact h

/-- In `opt` every page already referenced that is referenced again later is resident. -/
theorem opt_resident_recurring (refs : List Int) (F : Nat) (hF : 1 ≤ F) (hnn : NonNeg refs)
    (hd : refs.dedup.length = F) (i : Nat) (hi : i ≤ refs.length) :
    ∀ p, p ∈ refs.take i → p ∈ refs.drop i → p ∈ (optAt refs F i).frames := by
  induction i with
  | zero => intro p hp; simp at hp
  | succ i ih =>
    have h := ih (by omega)
    have hlt : i < refs.length := by omega
    have hp : refs[i]? = some refs[i] := List.getElem?_eq_getElem hlt
    have hlen : (optAt refs F i).frames.length = F :=
      (run_inv (opt_isRun refs F hF) i (by omega)).1
    intro p hpt hpd
    have hpd' : p ∈ refs.drop i := by
      rw [List.drop_eq_getElem_cons hlt]; exact List.mem_cons_of_mem _ hpd
    rw [List.take_succ, hp] at hpt
    simp only [Option.toList_some, List.mem_append, List.mem_singleton] at hpt
    rw [optAt_succ]
    cases hin : inMemory (optAt refs F i).frames refs[i]
    · obtain ⟨m, hm, hidx, hmax, _⟩ := optScan_spec refs i (optAt refs F i).frames F hF
      have hm' : m < (optAt refs F i).frames.length := by omega
      rw [optBody_miss hp hin, hidx, store_natCast]
      simp only
      rcases hpt with hpt | hpt
      · have hmem := h p hpt hpd'
        by_cases hev : (optAt refs F i).frames[m] = p
        · exfalso
          have hgm : (optAt refs F i).frames.getD m 0 = p := by
            rw [List.getD_eq_getElem?_getD, List.getElem?_eq_getElem (by omega), hev]; rfl
          have hrec : nextUse refs i p < refs.length := by
            have h1 := (nextUse_spec refs i hlt p).2.1
            have h2 : nextUse refs i p ≠ refs.length := by
              rw [nextUse_firstOcc refs i hlt]
              have := (firstOcc_eq_length_iff p (refs.drop (i + 1))).not.2 (not_not.2 hpd)
              rw [List.length_drop] at this
              omega
            omega
          have hfull : (-1 : Int) ∉ (optAt refs F i).frames := by
            intro hmem1
            obtain ⟨j, hj, hje⟩ := List.getElem_of_mem hmem1
            have hgj : (optAt refs F i).frames.getD j 0 = -1 := by
              rw [List.getD_eq_getElem?_getD, List.getElem?_eq_getElem hj, hje]; rfl
            have := hmax j (by omega)
            rw [hgj, hgm, nextUse_empty refs hnn i hlt] at this
            omega
          have := run_full_no_miss (opt_isRun refs F hF) hd i hlt hfull
          simp only [OptState.core] at this
          rw [hin] at this; cases this
        · obtain ⟨j, hj, hje⟩ := List.getElem_of_mem hmem
          have hjm : m ≠ j := by
            intro e; subst e; exact hev hje
          have hj' : j < ((optAt refs F i).frames.set m refs[i]).length := by simpa using hj
          have : ((optAt refs F i).frames.set m refs[i])[j] = p := by
            rw [List.getElem_set_ne hjm]; exact hje
          exact this ▸ List.getElem_mem hj'
      · rw [hpt]
        exact List.mem_iff_getElem.2 ⟨m, by simpa using hm', List.getElem_set_self _⟩
    · rw [optBody_hit hp hin]
      rcases hpt with hpt | hpt
      · exact h p hpt hpd'
      · rw [hpt]; exact (inMemory_iff _ _).1 hin

theorem opt_cnt_le_distinct (refs : List Int) (F : Nat) (hF : 1 ≤ F) (hnn : NonNeg refs)
    (hd : refs.dedup.length = F) (i : Nat) (hi : i ≤ refs.length) :
    (optAt refs F i).cnt ≤ (refs.take i).toFinset.card := by
  induction i with
  | zero => simp [optAt, forLoop, optInit]
  | succ i ih =>
    have h := ih (by omega)
    have hlt : i < refs.length := by omega
    have hp : refs[i]? = some refs[i] := List.getElem?_eq_getElem hlt
    have hsub : (refs.take i).toFinset ⊆ (refs.take (i + 1)).toFinset := by
      intro v hv
      rw [List.mem_toFinset] at hv ⊢
      rw [List.take_succ]; exact List.mem_append_left _ hv
    rw [optAt_succ]
    cases hin : inMemory (optAt refs F i).frames refs[i]
    · rw [optBody_miss hp hin]
      simp only
      have hnew : refs[i] ∉ refs.take i := by
        intro hmem
        have := opt_resident_recurring refs F hF hnn hd i (by omega) _ hmem
          (by rw [List.drop_eq_getElem_cons hlt]; exact List.mem_cons_self _ _)
        exact (inMemory_false_iff _ _).1 hin this
      have hlt2 : (refs.take i).toFinset ⊂ (refs.take (i + 1)).toFinset := by
        refine Finset.ssubset_iff_subset_ne.2 ⟨hsub, fun e => hnew ?_⟩
        have : refs[i] ∈ (refs.take (i + 1)).toFinset :=
          List.mem_toFinset.2 (by
            rw [List.take_succ, hp]
            exact List.mem_append_right _ (List.mem_singleton.2 rfl))
        rw [← e] at this
        exact List.mem_toFinset.1 this
      have := Finset.card_lt_card hlt2
      omega
    · rw [optBody_hit hp hin]
      exact Nat.le_trans h (Finset.card_le_card hsub)

/-- On a sequence of non-negative pages with exactly `F` distinct page numbers `fifo` and
`opt` miss only to load each page once and report no fault. -/
theorem fifo_opt_no_fault_on_F_distinct_pages (refs : List Int) (F : Nat) (hF : 1 ≤ F)
    (hnn : NonNeg refs) (hd : refs.dedup.length = F) :
    (fifo refs F).page_faults = 0 ∧ (opt refs F).page_faults = 0 := by
  have h1 := fifo_cnt_le refs F hF hnn hd refs.length (Nat.le_refl _)
  have h2 := opt_cnt_le_distinct refs F hF hnn hd refs.length (Nat.le_refl _)
  rw [List.take_length, List.card_toFinset, hd] at h2
  have hf := (run_inv (fifo_isRun refs F hF) refs.length (Nat.le_refl _)).2.1
  have ho := (run_inv (opt_isRun refs F hF) refs.length (Nat.le_refl _)).2.1
  simp only [FifoState.core, OptState.core] at hf ho
  unfold fifo opt
  omega

/-! ## Accuracy of the `double` miss rate -/

/-- With enough fuel `bitLen` is the number of binary digits: `2 ^ (b - 1) ≤ n < 2 ^ b`. -/
theorem bitLen_spec : ∀ (fuel n : Nat), n ≤ fuel → 0 < n →
    1 ≤ bitLen fuel n ∧ 2 ^ (bitLen fuel n - 1) ≤ n ∧ n < 2 ^ bitLen fuel n := by
  intro fuel
  induction fuel with
  | zero => intro n h1 h2; omega
  | succ f ih =>
    intro n h1 h2
    have hn : n ≠ 0 := by omega
    simp only [bitLen, hn, if_false]
    by_cases h : n / 2 = 0
    · have hb : bitLen f (n / 2) = 0 := by
        rw [h]; cases f <;> simp [bitLen]
      rw [hb]
      have : n = 1 := by omega
      subst this
      simp
    · have hpos : 0 < n / 2 := Nat.pos_of_ne_zero h
      obtain ⟨i1, i2, i3⟩ := ih (n / 2) (by omega) hpos
      refine ⟨by omega, ?_, ?_⟩
      · have e : bitLen f (n / 2) + 1 - 1 = (bitLen f (n / 2) - 1) + 1 := by omega
        rw [e, pow_succ]
        omega
      · rw [pow_succ]
        omega

/-- A power of two with an integer exponent as a quotient of two natural powers. -/
theorem two_zpow_split (k : Int) :
    ((2 : ℚ) ^ k.toNat) / ((2 : ℚ) ^ (-k).toNat) = (2 : ℚ) ^ k := by
  rcases le_total 0 k with h | h
  · have h1 : (-k).toNat = 0 := by omega
    have h2 : ((k.toNat : Nat) : Int) = k := Int.toNat_of_nonneg h
    rw [h1, pow_zero, div_one, ← zpow_natCast, h2]
  · have h1 : k.toNat = 0 := by omega
    have h2 : (((-k).toNat : Nat) : Int) = -k := Int.toNat_of_nonneg (by omega)
    rw [h1, pow_zero, ← zpow_natCast, h2, zpow_neg, one_div, inv_inv]

/-- The exponent `floorLog2 num den` brackets the quotient: `2 ^ k ≤ num / den < 2 ^ (k + 1)`. -/
theorem floorLog2_spec (num den : Nat) (hn : 0 < num) (hd : 0 < den) :
    (2 : ℚ) ^ (floorLog2 num den) ≤ (num : ℚ) / (den : ℚ) ∧
    (num : ℚ) / (den : ℚ) < (2 : ℚ) ^ (floorLog2 num den + 1) := by
  obtain ⟨a1, a2, a3⟩ := bitLen_spec num num (Nat.le_refl _) hn
  obtain ⟨b1, b2, b3⟩ := bitLen_spec den den (Nat.le_refl _) hd
  have hdq : (0 : ℚ) < (den : ℚ) := by exact_mod_cast hd
  have hnq : (0 : ℚ) < (num : ℚ) := by exact_mod_cast hn
  have a2q : (2 : ℚ) ^ ((bitLen num num : Int) - 1) ≤ (num : ℚ) := by
    have : (((bitLen num num - 1 : Nat) : Int)) = (bitLen num num : Int) - 1 := by omega
    rw [← this, zpow_natCast]
    exact_mod_cast a2
  have a3q : (num : ℚ) < (2 : ℚ) ^ ((bitLen num num : Int)) := by
    rw [zpow_natCast]; exact_mod_cast a3
  have b2q : (2 : ℚ) ^ ((bitLen den den : Int) - 1) ≤ (den : ℚ) := by
    have : (((bitLen den den - 1 : Nat) : Int)) = (bitLen den den : Int) - 1 := by omega
    rw [← this, zpow_natCast]
    exact_mod_cast b2
  have b3q : (den : ℚ) < (2 : ℚ) ^ ((bitLen den den : Int)) := by
    rw [zpow_natCast]; exact_mod_cast b3
  have h2 : (0 : ℚ) < 2 := by norm_num
  have h2' : (2 : ℚ) ≠ 0 := by norm_num
  -- the quotient lies strictly between 2^(k0-1) and 2^(k0+1)
  have lo : (2 : ℚ) ^ ((bitLen num num : Int) - (bitLen den den : Int) - 1)
      < (num : ℚ) / (den : ℚ) := by
    rw [lt_div_iff₀ hdq]
    calc (2 : ℚ) ^ ((bitLen num num : Int) - (bitLen den den : Int) - 1) * (den : ℚ)
        < (2 : ℚ) ^ ((bitLen num num : Int) - (bitLen den den : Int) - 1)
            * (2 : ℚ) ^ ((bitLen den den : Int)) :=
          mul_lt_mul_of_pos_left b3q (zpow_pos h2 _)
      _ = (2 : ℚ) ^ ((bitLen num num : Int) - 1) := by
          rw [← zpow_add₀ h2']; congr 1; ring
      _ ≤ (num : ℚ) := a2q
  have hi : (num : ℚ) / (den : ℚ)
      < (2 : ℚ) ^ ((bitLen num num : Int) - (bitLen den den : Int) + 1) := by
    rw [div_lt_iff₀ hdq]
    calc (num : ℚ) < (2 : ℚ) ^ ((bitLen num num : Int)) := a3q
      _ = (2 : ℚ) ^ ((bitLen num num : Int) - (bitLen den den : Int) + 1)
            * (2 : ℚ) ^ ((bitLen den den : Int) - 1) := by
          rw [← zpow_add₀ h2']; congr 1; ring
      _ ≤ (2 : ℚ) ^ ((bitLen num num : Int) - (bitLen den den : Int) + 1) * (den : ℚ) :=
          mul_le_mul_of_nonneg_left b2q (le_of_lt (zpow_pos h2 _))
  -- the test of `floorLog2` compares the quotient with 2^k0
  have test : (num * 2 ^ (-((bitLen num num : Int) - (bitLen den den : Int))).toNat
        ≥ den * 2 ^ ((bitLen num num : Int) - (bitLen den den : Int)).toNat) ↔
      (2 : ℚ) ^ ((bitLen num num : Int) - (bitLen den den : Int)) ≤ (num : ℚ) / (den : ℚ) := by
    rw [← two_zpow_split, le_div_iff₀ hdq, div_mul_eq_mul_div,
      div_le_iff₀ (pow_pos h2 _), mul_comm ((2 : ℚ) ^ _) (den : ℚ)]
    constructor
    · intro h; exact_mod_cast h
    · intro h; exact_mod_cast h
  unfold floorLog2
  simp only
  by_cases ht : num * 2 ^ (-((bitLen num num : Int) - (bitLen den den : Int))).toNat
      ≥ den * 2 ^ ((bitLen num num : Int) - (bitLen den den : Int)).toNat
  · rw [if_pos ht]
    exact ⟨test.1 ht, hi⟩
  · rw [if_neg ht]
    refine ⟨le_of_lt lo, ?_⟩
    have := lt_of_not_le (fun h => ht (test.2 h))
    have e : (bitLen num num : Int) - (bitLen den den : Int) - 1 + 1
        = (bitLen num num : Int) - (bitLen den den : Int) := by ring
    rw [e]; exact this

/-- Rounding gives a 53-bit mantissa and a relative error of at most `2 ^ (-53)`. -/
theorem roundPos_spec (num den : Nat) (hn : 0 < num) (hd : 0 < den) :
    2 ^ 52 ≤ (roundPos num den).1 ∧ (roundPos num den).1 < 2 ^ 53 ∧
    |mantVal (roundPos num den) - (num : ℚ) / (den : ℚ)|
      ≤ (2 : ℚ) ^ (-53 : Int) * ((num : ℚ) / (den : ℚ)) := by
  obtain ⟨k1, k2⟩ := floorLog2_spec num den hn hd
  have hdq : (0 : ℚ) < (den : ℚ) := by exact_mod_cast hd
  have hnq : (0 : ℚ) < (num : ℚ) := by exact_mod_cast hn
  have h2 : (0 : ℚ) < 2 := by norm_num
  have h2' : (2 : ℚ) ≠ 0 := by norm_num
  set e : Int := floorLog2 num den - 52 with he
  set n : Nat := num * 2 ^ (-e).toNat with hn'
  set d : Nat := den * 2 ^ e.toNat with hd'
  have hdpos : 0 < d := Nat.mul_pos hd (pow_pos (by norm_num) _)
  have hdposq : (0 : ℚ) < (d : ℚ) := by exact_mod_cast hdpos
  have hpe : (0 : ℚ) < (2 : ℚ) ^ e := zpow_pos h2 _
  -- the scaled quotient
  have hy : (n : ℚ) / (d : ℚ) = ((num : ℚ) / (den : ℚ)) / (2 : ℚ) ^ e := by
    rw [← two_zpow_split e, hn', hd']
    push_cast
    field_simp
  have ylo : (2 : ℚ) ^ (52 : Nat) ≤ (n : ℚ) / (d : ℚ) := by
    rw [hy, le_div_iff₀ hpe, ← zpow_natCast, ← zpow_add₀ h2']
    have : ((52 : Nat) : Int) + e = floorLog2 num den := by rw [he]; push_cast; ring
    rw [this]; exact k1
  have yhi : (n : ℚ) / (d : ℚ) < (2 : ℚ) ^ (53 : Nat) := by
    rw [hy, div_lt_iff₀ hpe, ← zpow_natCast, ← zpow_add₀ h2']
    have : ((53 : Nat) : Int) + e = floorLog2 num den + 1 := by rw [he]; push_cast; ring
    rw [this]; exact k2
  have hdiv : d * (n / d) + n % d = n := Nat.div_add_mod n d
  have hmod : n % d < d := Nat.mod_lt n hdpos
  have qlo : 2 ^ 52 ≤ n / d := by
    rw [Nat.le_div_iff_mul_le hdpos]
    have := (le_div_iff₀ hdposq).1 ylo
    exact_mod_cast this
  have qhi : n / d < 2 ^ 53 := by
    rw [Nat.div_lt_iff_lt_mul hdpos]
    have := (div_lt_iff₀ hdposq).1 yhi
    exact_mod_cast this
  have hdivq : (n : ℚ) = (d : ℚ) * ((n / d : Nat) : ℚ) + ((n % d : Nat) : ℚ) := by
    exact_mod_cast hdiv.symm
  have hx : (num : ℚ) / (den : ℚ) = ((n : ℚ) / (d : ℚ)) * (2 : ℚ) ^ e := by
    rw [hy]; field_simp; ring
  have hr0 : (0 : ℚ) ≤ ((n % d : Nat) : ℚ) / (d : ℚ) := by positivity
  have hyq : (n : ℚ) / (d : ℚ) = ((n / d : Nat) : ℚ) + ((n % d : Nat) : ℚ) / (d : ℚ) := by
    rw [div_eq_iff (ne_of_gt hdposq), add_mul, div_mul_cancel₀ _ (ne_of_gt hdposq)]
    rw [hdivq]; ring
  -- the rounded quotient is within one half of the scaled quotient
  have key : ∀ q1 : Nat, (q1 = n / d ∧ 2 * (n % d) ≤ d) ∨ (q1 = n / d + 1 ∧ d ≤ 2 * (n % d)) →
      |(q1 : ℚ) - (n : ℚ) / (d : ℚ)| ≤ 1 / 2 := by
    intro q1 h
    rw [abs_le, hyq]
    rcases h with ⟨h1, h2⟩ | ⟨h1, h2⟩
    · have h2q : ((n % d : Nat) : ℚ) / (d : ℚ) ≤ 1 / 2 := by
        rw [div_le_iff₀ hdposq]
        have : (2 : ℚ) * ((n % d : Nat) : ℚ) ≤ (d : ℚ) := by exact_mod_cast h2
        linarith
      subst h1
      constructor <;> linarith
    · have h2q : 1 / 2 ≤ ((n % d : Nat) : ℚ) / (d : ℚ) := by
        rw [le_div_iff₀ hdposq]
        have : (d : ℚ) ≤ (2 : ℚ) * ((n % d : Nat) : ℚ) := by exact_mod_cast h2
        linarith
      have h3q : ((n % d : Nat) : ℚ) / (d : ℚ) ≤ 1 := by
        rw [div_le_iff₀ hdposq]
        have : ((n % d : Nat) : ℚ) ≤ (d : ℚ) := by exact_mod_cast (le_of_lt hmod)
        linarith
      subst h1
      push_cast
      constructor <;> linarith
  -- from the scaled bound to the relative bound
  have fin : ∀ q1 : Nat, |(q1 : ℚ) - (n : ℚ) / (d : ℚ)| ≤ 1 / 2 →
      |(q1 : ℚ) * (2 : ℚ) ^ e - (num : ℚ) / (den : ℚ)|
        ≤ (2 : ℚ) ^ (-53 : Int) * ((num : ℚ) / (den : ℚ)) := by
    intro q1 h
    have e1 : (q1 : ℚ) * (2 : ℚ) ^ e - (num : ℚ) / (den : ℚ)
        = ((q1 : ℚ) - (n : ℚ) / (d : ℚ)) * (2 : ℚ) ^ e := by rw [hx]; ring
    rw [e1, abs_mul, abs_of_pos hpe, hx, ← mul_assoc]
    apply mul_le_mul_of_nonneg_right _ (le_of_lt hpe)
    have e2 : (2 : ℚ) ^ (-53 : Int) * (2 : ℚ) ^ (52 : Nat) = 1 / 2 := by norm_num
    calc |(q1 : ℚ) - (n : ℚ) / (d : ℚ)| ≤ 1 / 2 := h
      _ = (2 : ℚ) ^ (-53 : Int) * (2 : ℚ) ^ (52 : Nat) := e2.symm
      _ ≤ (2 : ℚ) ^ (-53 : Int) * ((n : ℚ) / (d : ℚ)) :=
          mul_le_mul_of_nonneg_left ylo (by positivity)
  have hrp : roundPos num den =
      (if (if 2 * (n % d) > d ∨ (2 * (n % d) = d ∧ (n / d) % 2 = 1) then n / d + 1 else n / d)
          = 2 ^ 53 then (2 ^ 52, e + 1)
        else ((if 2 * (n % d) > d ∨ (2 * (n % d) = d ∧ (n / d) % 2 = 1) then n / d + 1
          else n / d), e)) := rfl
  rw [hrp]
  by_cases hc : 2 * (n % d) > d ∨ (2 * (n % d) = d ∧ (n / d) % 2 = 1)
  · have hk := fin (n / d + 1) (key _ (Or.inr ⟨rfl, by omega⟩))
    rw [if_pos hc]
    by_cases h53 : n / d + 1 = 2 ^ 53
    · rw [if_pos h53]
      refine ⟨le_refl _, by norm_num, ?_⟩
      have e3 : mantVal (2 ^ 52, e + 1) = ((n / d + 1 : Nat) : ℚ) * (2 : ℚ) ^ e := by
        rw [h53]
        simp only [mantVal]
        rw [zpow_add₀ h2']
        push_cast
        ring
      rw [e3]; exact hk
    · rw [if_neg h53]
      exact ⟨by show 2 ^ 52 ≤ n / d + 1; omega, by show n / d + 1 < 2 ^ 53; omega, hk⟩
  · have hk := fin (n / d) (key _ (Or.inl ⟨rfl, by omega⟩))
    rw [if_neg hc, if_neg (by omega)]
    exact ⟨qlo, qhi, hk⟩

/-- A positive integer below `2 ^ 53` is rounded to itself. -/
theorem roundPos_exact (n : Nat) (hn : 0 < n) (hb : n < 2 ^ 53) :
    mantVal (roundPos n 1) = (n : ℚ) := by
  obtain ⟨k1, k2⟩ := floorLog2_spec n 1 hn (by norm_num)
  have h2' : (2 : ℚ) ≠ 0 := by norm_num
  have hk : floorLog2 n 1 ≤ 52 := by
    by_contra hc
    have h53 : (53 : Int) ≤ floorLog2 n 1 := by omega
    have : (2 : ℚ) ^ (53 : Int) ≤ (2 : ℚ) ^ (floorLog2 n 1) :=
      zpow_le_zpow_right₀ (by norm_num) h53
    have hbq : (n : ℚ) < (2 : ℚ) ^ (53 : Nat) := by exact_mod_cast hb
    rw [Nat.cast_one, div_one] at k1
    have e : (2 : ℚ) ^ (53 : Int) = (2 : ℚ) ^ (53 : Nat) := by norm_num
    rw [e] at this
    linarith
  set e : Int := floorLog2 n 1 - 52 with he
  have he0 : e.toNat = 0 := by omega
  have hrp : roundPos n 1 =
      (if (if 2 * ((n * 2 ^ (-e).toNat) % (1 * 2 ^ e.toNat)) > 1 * 2 ^ e.toNat ∨
              (2 * ((n * 2 ^ (-e).toNat) % (1 * 2 ^ e.toNat)) = 1 * 2 ^ e.toNat ∧
                ((n * 2 ^ (-e).toNat) / (1 * 2 ^ e.toNat)) % 2 = 1)
            then (n * 2 ^ (-e).toNat) / (1 * 2 ^ e.toNat) + 1
            else (n * 2 ^ (-e).toNat) / (1 * 2 ^ e.toNat)) = 2 ^ 53 then (2 ^ 52, e + 1)
        else ((if 2 * ((n * 2 ^ (-e).toNat) % (1 * 2 ^ e.toNat)) > 1 * 2 ^ e.toNat ∨
              (2 * ((n * 2 ^ (-e).toNat) % (1 * 2 ^ e.toNat)) = 1 * 2 ^ e.toNat ∧
                ((n * 2 ^ (-e).toNat) / (1 * 2 ^ e.toNat)) % 2 = 1)
            then (n * 2 ^ (-e).toNat) / (1 * 2 ^ e.toNat) + 1
            else (n * 2 ^ (-e).toNat) / (1 * 2 ^ e.toNat)), e)) := rfl
  rw [hrp, he0]
  simp only [pow_zero, mul_one, Nat.mod_one, Nat.div_one, mul_zero, gt_iff_lt]
  have hc : ¬ (1 < 0 ∨ 0 = 1 ∧ n * 2 ^ (-e).toNat % 2 = 1) := by omega
  simp only [hc, if_false]
  have hpow : ((2 : ℚ) ^ (-e).toNat) = (2 : ℚ) ^ (-e) := by
    have h3 : (((-e).toNat : Nat) : Int) = -e := Int.toNat_of_nonneg (by omega)
    rw [← zpow_natCast, h3]
  have hne : ¬ (n * 2 ^ (-e).toNat = 2 ^ 53) := by
    intro h
    have hq : ((n : ℚ) * (2 : ℚ) ^ (-e).toNat) = (2 : ℚ) ^ (53 : Nat) := by exact_mod_cast h
    rw [hpow] at hq
    rw [Nat.cast_one, div_one] at k2
    have h4 : (n : ℚ) * (2 : ℚ) ^ (-e) < (2 : ℚ) ^ (floorLog2 n 1 + 1) * (2 : ℚ) ^ (-e) :=
      mul_lt_mul_of_pos_right k2 (zpow_pos (by norm_num) _)
    rw [← zpow_add₀ h2'] at h4
    have h5 : floorLog2 n 1 + 1 + -e = ((53 : Nat) : Int) := by rw [he]; push_cast; ring
    rw [h5, zpow_natCast] at h4
    linarith
  rw [if_neg hne]
  simp only [mantVal]
  push_cast
  rw [hpow, mul_assoc, ← zpow_add₀ h2']
  simp

/-- The conversion `(double)n` is exact for `0 < n < 2 ^ 53`. -/
theorem ofNat_exact (n : Nat) (hn : 0 < n) (hb : n < 2 ^ 53) :
    ∃ m e, Dbl.ofNat n = Dbl.fin false m e ∧ 0 < m ∧ (m : ℚ) * (2 : ℚ) ^ e = (n : ℚ) := by
  refine ⟨(roundPos n 1).1, (roundPos n 1).2, ?_, ?_, roundPos_exact n hn hb⟩
  · simp [Dbl.ofNat, Nat.pos_iff_ne_zero.1 hn]
  · have := (roundPos_spec n 1 hn (by norm_num)).1
    omega

/-- The quotient of two positive finite `double`s is finite, positive and within the
relative error `2 ^ (-53)` of the exact quotient. -/
theorem div_fin_spec (m1 m2 : Nat) (e1 e2 : Int) (h1 : 0 < m1) (h2 : 0 < m2) :
    ∃ m e, Dbl.div (Dbl.fin false m1 e1) (Dbl.fin false m2 e2) = Dbl.fin false m e ∧ 0 < m ∧
      |(m : ℚ) * (2 : ℚ) ^ e - ((m1 : ℚ) * (2 : ℚ) ^ e1) / ((m2 : ℚ) * (2 : ℚ) ^ e2)|
        ≤ (2 : ℚ) ^ (-53 : Int) * (((m1 : ℚ) * (2 : ℚ) ^ e1) / ((m2 : ℚ) * (2 : ℚ) ^ e2)) := by
  have hA : 0 < m1 * 2 ^ (e1 - e2).toNat := Nat.mul_pos h1 (pow_pos (by norm_num) _)
  have hB : 0 < m2 * 2 ^ (e2 - e1).toNat := Nat.mul_pos h2 (pow_pos (by norm_num) _)
  obtain ⟨s1, _, s3⟩ := roundPos_spec _ _ hA hB
  have h2' : (2 : ℚ) ≠ 0 := by norm_num
  have hm2 : (m2 : ℚ) ≠ 0 := by exact_mod_cast (Nat.pos_iff_ne_zero.1 h2)
  have hq : ((m1 * 2 ^ (e1 - e2).toNat : Nat) : ℚ) / ((m2 * 2 ^ (e2 - e1).toNat : Nat) : ℚ)
      = ((m1 : ℚ) * (2 : ℚ) ^ e1) / ((m2 : ℚ) * (2 : ℚ) ^ e2) := by
    have hs := two_zpow_split (e1 - e2)
    have hneg : -(e1 - e2) = e2 - e1 := by ring
    rw [hneg] at hs
    have e3 : (2 : ℚ) ^ e1 = (2 : ℚ) ^ (e1 - e2) * (2 : ℚ) ^ e2 := by
      rw [← zpow_add₀ h2']; congr 1; ring
    rw [e3, ← hs]
    push_cast
    field_simp
    ring
  rw [hq] at s3
  refine ⟨_, _, ?_, ?_, s3⟩
  · simp [Dbl.div, Nat.pos_iff_ne_zero.1 h1, Nat.pos_iff_ne_zero.1 h2]
  · omega

/-- The product of two positive finite `double`s is finite, positive and within the
relative error `2 ^ (-53)` of the exact product. -/
theorem mul_fin_spec (m1 m2 : Nat) (e1 e2 : Int) (h1 : 0 < m1) (h2 : 0 < m2) :
    ∃ m e, Dbl.mul (Dbl.fin false m1 e1) (Dbl.fin false m2 e2) = Dbl.fin false m e ∧ 0 < m ∧
      |(m : ℚ) * (2 : ℚ) ^ e - ((m1 : ℚ) * (2 : ℚ) ^ e1) * ((m2 : ℚ) * (2 : ℚ) ^ e2)|
        ≤ (2 : ℚ) ^ (-53 : Int) * (((m1 : ℚ) * (2 : ℚ) ^ e1) * ((m2 : ℚ) * (2 : ℚ) ^ e2)) := by
  have hA : 0 < m1 * m2 * 2 ^ (e1 + e2).toNat :=
    Nat.mul_pos (Nat.mul_pos h1 h2) (pow_pos (by norm_num) _)
  have hB : 0 < 2 ^ (-(e1 + e2)).toNat := pow_pos (by norm_num) _
  obtain ⟨s1, _, s3⟩ := roundPos_spec _ _ hA hB
  have h2' : (2 : ℚ) ≠ 0 := by norm_num
  have hq : ((m1 * m2 * 2 ^ (e1 + e2).toNat : Nat) : ℚ) / ((2 ^ (-(e1 + e2)).toNat : Nat) : ℚ)
      = ((m1 : ℚ) * (2 : ℚ) ^ e1) * ((m2 : ℚ) * (2 : ℚ) ^ e2) := by
    have hs := two_zpow_split (e1 + e2)
    have e3 : (m1 : ℚ) * (2 : ℚ) ^ e1 * ((m2 : ℚ) * (2 : ℚ) ^ e2)
        = (m1 : ℚ) * (m2 : ℚ) * (2 : ℚ) ^ (e1 + e2) := by
      rw [zpow_add₀ h2']; ring
    rw [e3, ← hs]
    push_cast
    field_simp
  rw [hq] at s3
  refine ⟨_, _, ?_, ?_, s3⟩
  · simp [Dbl.mul, Nat.pos_iff_ne_zero.1 h1, Nat.pos_iff_ne_zero.1 h2]
  · omega

/-- The double miss rate is finite and within a relative error of `2 ^ -51` of the exact
`100 * page_faults / num_references`, for a positive reference count below `2 ^ 53`. -/
theorem missRateDouble_accuracy (pf N : Nat) (hN : 0 < N) (hpf : pf < 2 ^ 53)
    (hNb : N < 2 ^ 53) :
    ∃ q : ℚ, Dbl.toRat (missRateDouble pf N) = some q ∧
      |q - missRate pf N| ≤ (2 : ℚ) ^ (-51 : Int) * missRate pf N := by
  obtain ⟨m2, e2, o2, p2, v2⟩ := ofNat_exact N hN hNb
  obtain ⟨m3, e3, o3, p3, v3⟩ := ofNat_exact 100 (by norm_num) (by norm_num)
  have hNq : (0 : ℚ) < (N : ℚ) := by exact_mod_cast hN
  rcases Nat.eq_zero_or_pos pf with h0 | hpos
  · subst h0
    refine ⟨0, ?_, ?_⟩
    · have z : Dbl.ofNat 0 = Dbl.fin false 0 0 := rfl
      unfold missRateDouble
      rw [z, o2, o3]
      simp [Dbl.div, Dbl.mul, Dbl.toRat, Nat.pos_iff_ne_zero.1 p2]
    · simp [missRate]
  · obtain ⟨m1, e1, o1, p1, v1⟩ := ofNat_exact pf hpos hpf
    obtain ⟨m, e, od, pd, vd⟩ := div_fin_spec m1 m2 e1 e2 p1 p2
    obtain ⟨m', e', om, _, vm⟩ := mul_fin_spec m m3 e e3 pd p3
    rw [v1, v2] at vd
    rw [v3] at vm
    have hpfq : (0 : ℚ) < (pf : ℚ) := by exact_mod_cast hpos
    have hx : (0 : ℚ) < (pf : ℚ) / (N : ℚ) := div_pos hpfq hNq
    refine ⟨(m' : ℚ) * (2 : ℚ) ^ e', ?_, ?_⟩
    · unfold missRateDouble
      rw [o1, o2, o3, od, om]
      simp [Dbl.toRat]
    · simp only [missRate]
      have c53 : (2 : ℚ) ^ (-53 : Int) = 1 / 9007199254740992 := by norm_num
      have c51 : (2 : ℚ) ^ (-51 : Int) = 1 / 2251799813685248 := by norm_num
      rw [c53] at vd vm
      rw [c51]
      push_cast at vm
      rw [abs_le] at vd vm ⊢
      obtain ⟨d1, d2⟩ := vd
      obtain ⟨g1, g2⟩ := vm
      constructor <;> nlinarith

/-! ## The drivers -/

/-- The loader accepts an input exactly when it holds fewer than `MAX_REFERENCES` integers,
and then passes on all of them. -/
theorem readLoop_eq (input : List Int) :
    ∀ acc : List Int, acc.length < MAX_REFERENCES → readLoop input acc =
      if acc.length + input.length < MAX_REFERENCES then some (acc ++ input) else none := by
  induction input with
  | nil =>
    intro acc hacc
    simp [readLoop, hacc]
  | cons x rest ih =>
    intro acc hacc
    simp only [readLoop, List.length_append, List.length_cons, List.length_nil]
    by_cases h : acc.length + 0 + 1 ≥ MAX_REFERENCES
    · rw [if_pos h, if_neg (by omega)]
    · rw [if_neg h, ih (acc ++ [x]) (by simp; omega)]
      simp only [List.length_append, List.length_cons, List.length_nil, List.append_assoc,
        List.singleton_append]
      by_cases h2 : acc.length + (rest.length + 1) < MAX_REFERENCES
      · rw [if_pos h2, if_pos (by omega)]
      · rw [if_neg h2, if_neg (by omega)]

theorem readRefs_eq (input : List Int) :
    readRefs input = if input.length < MAX_REFERENCES then some input else none := by
  have h := readLoop_eq input [] (by decide)
  simpa [readRefs] using h

theorem simulate_empty (num_frames : Nat) (algorithm : String)
    (halg : algorithm = "fifo" ∨ algorithm = "lru" ∨ algorithm = "opt") :
    simulate (some []) num_frames algorithm = Outcome.ran algorithm num_frames [] 0 0 := by
  rcases halg with h | h | h <;> subst h <;> rfl

/-- C11, counterexample: with an empty reference file and a valid frame count vmsim reports
no error; `fifo` is called with no references and evaluates `page_faults / num_references`
with both operands 0, and the miss rate it prints is the `double` that is not a number. -/
theorem C11_empty_sequence_divides_by_zero :
    readRefs [] = some [] ∧
    main 4 3 (some []) "fifo" = Outcome.ran "fifo" 3 [] 0 0 ∧
    main 4 3 (some []) "fifo" ≠ Outcome.unableToOpen ∧
    main 4 3 (some []) "fifo" ≠ Outcome.tooManyReferences ∧
    main 4 3 (some []) "fifo" ≠ Outcome.invalidFrames ∧
    printedMissRate (main 4 3 (some []) "fifo") = some Dbl.nan := by
  refine ⟨?_, ?_, ?_, ?_, ?_, ?_⟩ <;> decide

/-- A policy function that gets no references ends with the `double` that is not a number. -/
theorem missRateDouble_zero_zero : missRateDouble 0 0 = Dbl.nan := by decide

/-- C11, amended: when the reference sequence is empty a run of any of the three policies
reports no error; the policy function is called with `num_references = 0`, performs no step,
ends with `page_faults = 0` and evaluates `(double)page_faults / num_references * 100` with
both operands 0, which gives the `double` that is not a number; vmsim prints it and the
functions of vmstats.c return it. -/
theorem C11_empty_sequence_runs_policy (num_frames : Int) (algorithm : String)
    (h1 : 1 ≤ num_frames) (h2 : num_frames ≤ (MAX_FRAMES : Int))
    (halg : algorithm = "fifo" ∨ algorithm = "lru" ∨ algorithm = "opt") :
    main 4 num_frames (some []) algorithm = Outcome.ran algorithm num_frames.toNat [] 0 0 ∧
    printedMissRate (main 4 num_frames (some []) algorithm) = some Dbl.nan ∧
    ((fifo [] num_frames.toNat).page_faults = 0 ∧ (lru [] num_frames.toNat).page_faults = 0 ∧
      (opt [] num_frames.toNat).page_faults = 0) ∧
    (Vmstats.fifoDouble [] num_frames.toNat = Dbl.nan ∧
      Vmstats.lruDouble [] num_frames.toNat = Dbl.nan ∧
      Vmstats.optDouble [] num_frames.toNat = Dbl.nan) ∧
    Vmstats.calculate_miss_rate [] algorithm num_frames.toNat = Dbl.nan := by
  have hmain : main 4 num_frames (some []) algorithm
      = Outcome.ran algorithm num_frames.toNat [] 0 0 := by
    unfold main
    rw [if_neg (by decide), if_neg (by omega)]
    exact simulate_empty _ _ halg
  have hf : Vmstats.fifoDouble [] num_frames.toNat = Dbl.nan := missRateDouble_zero_zero
  have hl : Vmstats.lruDouble [] num_frames.toNat = Dbl.nan := missRateDouble_zero_zero
  have ho : Vmstats.optDouble [] num_frames.toNat = Dbl.nan := missRateDouble_zero_zero
  refine ⟨hmain, ?_, ⟨rfl, rfl, rfl⟩, ⟨hf, hl, ho⟩, ?_⟩
  · rw [hmain]
    show some (missRateDouble 0 0) = some Dbl.nan
    rw [missRateDouble_zero_zero]
  · rcases halg with h | h | h <;> subst h
    · unfold Vmstats.calculate_miss_rate
      rw [if_neg (by decide), if_neg (by decide), if_pos rfl]; exact hf
    · unfold Vmstats.calculate_miss_rate
      rw [if_neg (by decide), if_pos rfl]; exact hl
    · unfold Vmstats.calculate_miss_rate
      rw [if_pos rfl]; exact ho

/-- C11, amended, for `lru` with two frames. -/
theorem C11_empty_sequence_runs_policy_witness :
    ((1 : Int) ≤ 2 ∧ (2 : Int) ≤ (MAX_FRAMES : Int) ∧
      ("lru" = "fifo" ∨ "lru" = "lru" ∨ "lru" = "opt")) ∧
    main 4 2 (some []) "lru" = Outcome.ran "lru" (2 : Int).toNat [] 0 0 ∧
    printedMissRate (main 4 2 (some []) "lru") = some Dbl.nan :=
  ⟨⟨by decide, by decide, by decide⟩,
   (C11_empty_sequence_runs_policy 2 "lru" (by decide) (by decide) (by decide)).1,
   (C11_empty_sequence_runs_policy 2 "lru" (by decide) (by decide) (by decide)).2.1⟩

/-- C15, failing input: a file of exactly 10,000 integers is within the capacity of
`page_references`, yet the loader of vmsim.c and of vmstats.c takes the early return and no
policy function is called. -/
theorem C15_exactly_max_references_rejected :
    (List.replicate 10000 (0 : Int)).length = MAX_REFERENCES ∧
    readRefs (List.replicate 10000 0) = none ∧
    main 4 1 (some (List.replicate 10000 0)) "fifo" = Outcome.tooManyReferences ∧
    Vmstats.main 5 1 1 1 (some (List.replicate 10000 0)) true 0
      = some Vmstats.StatsOutcome.tooManyReferences := by
  have hr : readRefs (List.replicate 10000 0) = none := by
    rw [readRefs_eq, List.length_replicate, if_neg (by decide)]
  refine ⟨by rw [List.length_replicate]; rfl, hr, ?_, ?_⟩
  · unfold main
    rw [if_neg (by decide), if_neg (by decide)]
    simp only [simulate, hr]
  · unfold Vmstats.main
    rw [if_neg (by decide)]
    simp only [Vmstats.run_simulation, hr]

/-- A policy function is started by vmsim only with `1 ≤ num_frames ≤ 100`. -/
theorem main_ran_valid (argc : Nat) (num_frames : Int) (file : Option (List Int))
    (algorithm a : String) (F : Nat) (refs : List Int) (pf N : Nat)
    (h : main argc num_frames file algorithm = Outcome.ran a F refs pf N) :
    1 ≤ F ∧ F ≤ MAX_FRAMES ∧ (F : Int) = num_frames := by
  unfold main at h
  split at h
  · cases h
  · split at h
    · cases h
    · rename_i hv
      have hF : F = num_frames.toNat := by
        unfold simulate at h
        split at h
        · cases h
        · split at h
          · cases h
          · split at h
            · cases h; rfl
            · split at h
              · cases h; rfl
              · split at h
                · cases h; rfl
                · cases h
      subst hF
      unfold MAX_FRAMES at *
      omega

/-- C16, failing input: `vmstats 0 0 1 file` with a readable file calls `opt`, `lru` and
`fifo` with `num_frames = 0`; nothing in vmstats.c checks the frame counts. -/
theorem C16_vmstats_runs_with_zero_frames :
    ∀ fuel, Vmstats.main 5 0 0 1 (some [1, 2, 3]) true (fuel + 2)
      = some (Vmstats.StatsOutcome.completed [1, 2, 3] [("opt", 0), ("lru", 0), ("fifo", 0)]) := by
  intro fuel
  have hr : readRefs [1, 2, 3] = some [1, 2, 3] := by decide
  unfold Vmstats.main
  rw [if_neg (by decide)]
  simp [Vmstats.run_simulation, hr, Vmstats.frameLoop]

set_option maxRecDepth 100000 in
/-- The `double` computed for 7 faults in 25 references is `28 + 2 ^ (-48)`. -/
theorem missRateDouble_7_25 :
    missRateDouble 7 25 = Dbl.fin false 7881299347898369 (-48) := by decide

/-- C14, counterexample: on a sequence of 25 references with one frame `fifo` counts 7
faults, and the `double` that `fifo` of vmstats.c returns, `(double)7 / 25 * 100`, is
`7881299347898369 * 2 ^ (-48)`, which is not the number `100 * 7 / 25 = 28`. -/
theorem C14_returned_double_is_rounded :
    ([0, 1, 0, 1, 0, 1, 0, 1, 1, 1, 1, 1, 1, 1, 1, 1, 1, 1, 1, 1, 1, 1, 1, 1, 1]
        : List Int).length = 25 ∧
    (fifo [0, 1, 0, 1, 0, 1, 0, 1, 1, 1, 1, 1, 1, 1, 1, 1, 1, 1, 1, 1, 1, 1, 1, 1, 1]
        1).page_faults = 7 ∧
    Vmstats.fifoDouble
        [0, 1, 0, 1, 0, 1, 0, 1, 1, 1, 1, 1, 1, 1, 1, 1, 1, 1, 1, 1, 1, 1, 1, 1, 1] 1
      = Dbl.fin false 7881299347898369 (-48) ∧
    Dbl.toRat (Vmstats.fifoDouble
        [0, 1, 0, 1, 0, 1, 0, 1, 1, 1, 1, 1, 1, 1, 1, 1, 1, 1, 1, 1, 1, 1, 1, 1, 1] 1)
      ≠ some (100 * (7 : ℚ) / 25) := by
  have hpf : (fifo [0, 1, 0, 1, 0, 1, 0, 1, 1, 1, 1, 1, 1, 1, 1, 1, 1, 1, 1, 1, 1, 1, 1, 1, 1]
      1).page_faults = 7 := by decide
  have hd : Vmstats.fifoDouble
      [0, 1, 0, 1, 0, 1, 0, 1, 1, 1, 1, 1, 1, 1, 1, 1, 1, 1, 1, 1, 1, 1, 1, 1, 1] 1
      = Dbl.fin false 7881299347898369 (-48) := by
    have e : Vmstats.fifoDouble
        [0, 1, 0, 1, 0, 1, 0, 1, 1, 1, 1, 1, 1, 1, 1, 1, 1, 1, 1, 1, 1, 1, 1, 1, 1] 1
        = missRateDouble
          (fifo [0, 1, 0, 1, 0, 1, 0, 1, 1, 1, 1, 1, 1, 1, 1, 1, 1, 1, 1, 1, 1, 1, 1, 1, 1]
            1).page_faults 25 := rfl
    rw [e, hpf, missRateDouble_7_25]
  refine ⟨rfl, hpf, hd, ?_⟩
  rw [hd]
  simp only [Dbl.toRat]
  norm_num

theorem statsFifoDouble_eq (refs : List Int) (F : Nat) :
    Vmstats.fifoDouble refs F = missRateDouble (fifo refs F).page_faults refs.length := rfl

theorem statsLruDouble_eq (refs : List Int) (F : Nat) :
    Vmstats.lruDouble refs F = missRateDouble (lru refs F).page_faults refs.length := rfl

theorem statsOptDouble_eq (refs : List Int) (F : Nat) :
    Vmstats.optDouble refs F = missRateDouble (opt refs F).page_faults refs.length := rfl

/-- C14, amended: for every non-empty sequence and every `1 ≤ F ≤ 100` the `double` returned
by the function `fifo`, `lru` or `opt` of vmstats.c, also through `calculate_miss_rate`, is
the `double` `(double)f / N * 100` for the fault count `f` and the number of references `N`
that the function of the same name of vmsim.c reports, and it is the `double` that vmsim
prints as its miss rate; when `N` fits an `int` this `double` is finite and differs from
`100 * f / N` by at most the fraction `2 ^ (-51)` of it. -/
theorem C14_vmstats_agrees_with_vmsim (refs : List Int) (F : Nat) (hne : refs ≠ [])
    (hF : 1 ≤ F) (_hmax : F ≤ MAX_FRAMES) :
    (Vmstats.fifoDouble refs F = missRateDouble (fifo refs F).page_faults refs.length ∧
     Vmstats.lruDouble refs F = missRateDouble (lru refs F).page_faults refs.length ∧
     Vmstats.optDouble refs F = missRateDouble (opt refs F).page_faults refs.length) ∧
    (Vmstats.calculate_miss_rate refs "fifo" F
        = missRateDouble (fifo refs F).page_faults refs.length ∧
     Vmstats.calculate_miss_rate refs "lru" F
        = missRateDouble (lru refs F).page_faults refs.length ∧
     Vmstats.calculate_miss_rate refs "opt" F
        = missRateDouble (opt refs F).page_faults refs.length) ∧
    (∀ (algorithm : String) (f N : Nat),
      simulate (some refs) F algorithm = Outcome.ran algorithm F refs f N →
      f = (if algorithm = "fifo" then (fifo refs F).page_faults
            else if algorithm = "lru" then (lru refs F).page_faults
            else (opt refs F).page_faults) ∧
      N = refs.length ∧
      Vmstats.calculate_miss_rate refs algorithm F = missRateDouble f N ∧
      printedMissRate (simulate (some refs) F algorithm)
        = some (Vmstats.calculate_miss_rate refs algorithm F)) ∧
    (refs.length < 2 ^ 31 →
      (∃ q : ℚ, Dbl.toRat (Vmstats.fifoDouble refs F) = some q ∧
        |q - 100 * ((fifo refs F).page_faults : ℚ) / (refs.length : ℚ)|
          ≤ (2 : ℚ) ^ (-51 : Int)
            * (100 * ((fifo refs F).page_faults : ℚ) / (refs.length : ℚ))) ∧
      (∃ q : ℚ, Dbl.toRat (Vmstats.lruDouble refs F) = some q ∧
        |q - 100 * ((lru refs F).page_faults : ℚ) / (refs.length : ℚ)|
          ≤ (2 : ℚ) ^ (-51 : Int)
            * (100 * ((lru refs F).page_faults : ℚ) / (refs.length : ℚ))) ∧
      (∃ q : ℚ, Dbl.toRat (Vmstats.optDouble refs F) = some q ∧
        |q - 100 * ((opt refs F).page_faults : ℚ) / (refs.length : ℚ)|
          ≤ (2 : ℚ) ^ (-51 : Int)
            * (100 * ((opt refs F).page_faults : ℚ) / (refs.length : ℚ)))) := by
  have c1 : Vmstats.calculate_miss_rate refs "fifo" F = Vmstats.fifoDouble refs F := by
    unfold Vmstats.calculate_miss_rate
    rw [if_neg (by decide), if_neg (by decide), if_pos rfl]
  have c2 : Vmstats.calculate_miss_rate refs "lru" F = Vmstats.lruDouble refs F := by
    unfold Vmstats.calculate_miss_rate
    rw [if_neg (by decide), if_pos rfl]
  have c3 : Vmstats.calculate_miss_rate refs "opt" F = Vmstats.optDouble refs F := by
    unfold Vmstats.calculate_miss_rate
    rw [if_pos rfl]
  refine ⟨⟨rfl, rfl, rfl⟩, ⟨c1, c2, c3⟩, ?_, ?_⟩
  · intro algorithm f N h
    have h' := h
    unfold simulate at h
    simp only at h
    split at h
    · cases h
    · split at h
      · cases h
        rw [h']
        exact ⟨by rw [if_pos rfl], rfl, c1, by rw [c1]; rfl⟩
      · split at h
        · cases h
          rw [h']
          exact ⟨by rw [if_neg (by decide), if_pos rfl], rfl, c2, by rw [c2]; rfl⟩
        · split at h
          · cases h
            rw [h']
            exact ⟨by rw [if_neg (by decide), if_neg (by decide)], rfl, c3, by rw [c3]; rfl⟩
          · cases h
  · intro hlen
    have hn : 0 < refs.length := List.length_pos.2 hne
    have hb : refs.length < 2 ^ 53 := by omega
    have h1 : (fifo refs F).page_faults ≤ refs.length := run_faults_le (fifo_isRun refs F hF)
    have h2 : (lru refs F).page_faults ≤ refs.length := run_faults_le (lru_isRun refs F hF)
    have h3 : (opt refs F).page_faults ≤ refs.length := run_faults_le (opt_isRun refs F hF)
    have e : ∀ pf : Nat, 100 * (pf : ℚ) / (refs.length : ℚ) = missRate pf refs.length := by
      intro pf; unfold missRate; ring
    rw [e, e, e, statsFifoDouble_eq, statsLruDouble_eq, statsOptDouble_eq]
    exact ⟨missRateDouble_accuracy _ _ hn (by omega) hb,
      missRateDouble_accuracy _ _ hn (by omega) hb,
      missRateDouble_accuracy _ _ hn (by omega) hb⟩

/-- C14, amended, at the sequence `[1, 2, 1, 3, 4]` with two frames. -/
theorem C14_vmstats_agrees_with_vmsim_witness :
    (([1, 2, 1, 3, 4] : List Int) ≠ [] ∧ 1 ≤ 2 ∧ 2 ≤ MAX_FRAMES) ∧
    Vmstats.fifoDouble [1, 2, 1, 3, 4] 2
      = missRateDouble (fifo [1, 2, 1, 3, 4] 2).page_faults ([1, 2, 1, 3, 4] : List Int).length ∧
    (∃ q : ℚ, Dbl.toRat (Vmstats.fifoDouble [1, 2, 1, 3, 4] 2) = some q ∧
      |q - 100 * ((fifo [1, 2, 1, 3, 4] 2).page_faults : ℚ)
            / (([1, 2, 1, 3, 4] : List Int).length : ℚ)|
        ≤ (2 : ℚ) ^ (-51 : Int)
          * (100 * ((fifo [1, 2, 1, 3, 4] 2).page_faults : ℚ)
            / (([1, 2, 1, 3, 4] : List Int).length : ℚ))) :=
  ⟨⟨by decide, by decide, by decide⟩,
   (C14_vmstats_agrees_with_vmsim [1, 2, 1, 3, 4] 2 (by decide) (by decide) (by decide)).1.1,
   ((C14_vmstats_agrees_with_vmsim [1, 2, 1, 3, 4] 2 (by decide) (by decide)
      (by decide)).2.2.2 (by decide)).1⟩

/-! ## Index safety and the effect of one step -/

/-- C12: for each of `fifo`, `lru` and `opt`, every sequence and every `1 ≤ F ≤ 100`, the
slot indices used lie in `[0, F)`, the tables having `F` slots: the cursor of `fifo` is below
`F` and its modulus `F` is not zero; in `lru` the slot of a hit and `min_index` are below `F`;
in `opt` `replace_index` is a slot number below `F`, so it is not -1 when the page is stored. -/
theorem C12_slot_indices_in_range (refs : List Int) (F : Nat) (hF : 1 ≤ F)
    (_hmax : F ≤ MAX_FRAMES) (i : Nat) (hi : i ≤ refs.length) :
    (F ≠ 0 ∧ (fifoAt refs F i).frames.length = F ∧ (fifoAt refs F i).next_frame < F) ∧
    ((lruAt refs F i).frames.length = F ∧ (lruAt refs F i).time.length = F ∧
      (∀ page j, findSlot (lruAt refs F i).frames page = some j → j < F) ∧
      (lruScan (lruAt refs F i).time F).2 < F) ∧
    ((optAt refs F i).frames.length = F ∧
      (optScan refs i (optAt refs F i).frames F).2 ≠ -1 ∧
      0 ≤ (optScan refs i (optAt refs F i).frames F).2 ∧
      (optScan refs i (optAt refs F i).frames F).2 < (F : Int)) := by
  have hl1 := (run_inv (fifo_isRun refs F hF) i hi).1
  have hl2 := (run_inv (lru_isRun refs F hF) i hi).1
  have hl3 := (run_inv (opt_isRun refs F hF) i hi).1
  simp only [FifoState.core, LruState.core, OptState.core] at hl1 hl2 hl3
  refine ⟨⟨by omega, hl1, ?_⟩, ⟨hl2, lru_time_length refs F i, ?_, lruScan_lt _ F hF⟩,
    hl3, ?_⟩
  · rw [fifo_cursor]; exact Nat.mod_lt _ hF
  · intro page j hj
    have := (findSlot_some _ _ j hj).2.1
    omega
  · obtain ⟨m, hm, hidx, _, _⟩ := optScan_spec refs i (optAt refs F i).frames F hF
    rw [hidx]
    omega

/-- C12 after two steps of the sequence `[1, 2, 3]` with two frames. -/
theorem C12_slot_indices_in_range_witness :
    (1 ≤ 2 ∧ 2 ≤ MAX_FRAMES ∧ 2 ≤ ([1, 2, 3] : List Int).length) ∧
    (optScan [1, 2, 3] 2 (optAt [1, 2, 3] 2 2).frames 2).2 ≠ -1 :=
  ⟨⟨by decide, by decide, by decide⟩,
   (C12_slot_indices_in_range [1, 2, 3] 2 (by decide) (by decide) 2 (by decide)).2.2.2.1⟩

theorem run_step_effect {F : Nat} {refs : List Int} {core : Nat → Core}
    (hrun : IsRun F refs core) (i : Nat) (hi : i < refs.length) :
    (isMiss (core i).frames refs i = false →
      (core (i + 1)).frames = (core i).frames ∧ (core (i + 1)).cnt = (core i).cnt ∧
      (core (i + 1)).page_faults = (core i).page_faults) ∧
    (isMiss (core i).frames refs i = true →
      ∃ idx, idx < F ∧ (core i).frames[idx]? ≠ some refs[i] ∧
        (core (i + 1)).frames[idx]? = some refs[i] ∧
        (∀ j, j ≠ idx → (core (i + 1)).frames[j]? = (core i).frames[j]?) ∧
        (core (i + 1)).frames.length = (core i).frames.length) ∧
    refs[i] ∈ (core (i + 1)).frames := by
  have hlen := (run_inv hrun i (by omega)).1
  rcases hrun.2 i hi with ⟨hin, heq⟩ | ⟨hin, idx, hidx, hf, _, _⟩
  · have hm := (isMiss_false_iff hi).2 hin
    refine ⟨fun _ => by rw [heq]; exact ⟨rfl, rfl, rfl⟩, fun h => ?_, ?_⟩
    · rw [hm] at h; cases h
    · rw [heq]; exact (inMemory_iff _ _).1 hin
  · have hm := (isMiss_true_iff hi).2 hin
    have hnot := (inMemory_false_iff _ _).1 hin
    have hidx' : idx < (core i).frames.length := by omega
    refine ⟨fun h => ?_, fun _ => ⟨idx, hidx, ?_, ?_, ?_, ?_⟩, ?_⟩
    · rw [hm] at h; cases h
    · rw [List.getElem?_eq_getElem hidx']
      intro he
      simp only [Option.some.injEq] at he
      exact hnot (he ▸ List.getElem_mem hidx')
    · rw [hf, List.getElem?_set_self hidx']
    · intro j hj
      rw [hf, List.getElem?_set_ne (fun e => hj e.symm)]
    · rw [hf, List.length_set]
    · rw [hf]
      exact List.mem_iff_getElem.2 ⟨idx, by simpa using hidx', List.getElem_set_self _⟩

/-- C19: for each of `fifo`, `lru` and `opt` and every `1 ≤ F ≤ 100`, a step whose page is
resident leaves every slot, the miss count and the fault count as they are; a step whose page
is not resident changes exactly one slot, which then holds the referenced page, and leaves the
other slots as they are; after every step the referenced page is resident. -/
theorem C19_step_frame_effect (refs : List Int) (F : Nat) (hF : 1 ≤ F)
    (_hmax : F ≤ MAX_FRAMES) (i : Nat) (hi : i < refs.length) :
    ((isMiss (fifoAt refs F i).frames refs i = false →
        (fifoAt refs F (i + 1)).frames = (fifoAt refs F i).frames ∧
        (fifoAt refs F (i + 1)).cnt = (fifoAt refs F i).cnt ∧
        (fifoAt refs F (i + 1)).page_faults = (fifoAt refs F i).page_faults) ∧
      (isMiss (fifoAt refs F i).frames refs i = true →
        ∃ idx, idx < F ∧ (fifoAt refs F i).frames[idx]? ≠ some refs[i] ∧
          (fifoAt refs F (i + 1)).frames[idx]? = some refs[i] ∧
          (∀ j, j ≠ idx → (fifoAt refs F (i + 1)).frames[j]? = (fifoAt refs F i).frames[j]?) ∧
          (fifoAt refs F (i + 1)).frames.length = (fifoAt refs F i).frames.length) ∧
      refs[i] ∈ (fifoAt refs F (i + 1)).frames) ∧
    ((isMiss (lruAt refs F i).frames refs i = false →
        (lruAt refs F (i + 1)).frames = (lruAt refs F i).frames ∧
        (lruAt refs F (i + 1)).cnt = (lruAt refs F i).cnt ∧
        (lruAt refs F (i + 1)).page_faults = (lruAt refs F i).page_faults) ∧
      (isMiss (lruAt refs F i).frames refs i = true →
        ∃ idx, idx < F ∧ (lruAt refs F i).frames[idx]? ≠ some refs[i] ∧
          (lruAt refs F (i + 1)).frames[idx]? = some refs[i] ∧
          (∀ j, j ≠ idx → (lruAt refs F (i + 1)).frames[j]? = (lruAt refs F i).frames[j]?) ∧
          (lruAt refs F (i + 1)).frames.length = (lruAt refs F i).frames.length) ∧
      refs[i] ∈ (lruAt refs F (i + 1)).frames) ∧
    ((isMiss (optAt refs F i).frames refs i = false →
        (optAt refs F (i + 1)).frames = (optAt refs F i).frames ∧
        (optAt refs F (i + 1)).cnt = (optAt refs F i).cnt ∧
        (optAt refs F (i + 1)).page_faults = (optAt refs F i).page_faults) ∧
      (isMiss (optAt refs F i).frames refs i = true →
        ∃ idx, idx < F ∧ (optAt refs F i).frames[idx]? ≠ some refs[i] ∧
          (optAt refs F (i + 1)).frames[idx]? = some refs[i] ∧
          (∀ j, j ≠ idx → (optAt refs F (i + 1)).frames[j]? = (optAt refs F i).frames[j]?) ∧
          (optAt refs F (i + 1)).frames.length = (optAt refs F i).frames.length) ∧
      refs[i] ∈ (optAt refs F (i + 1)).frames) :=
  ⟨run_step_effect (fifo_isRun refs F hF) i hi, run_step_effect (lru_isRun refs F hF) i hi,
   run_step_effect (opt_isRun refs F hF) i hi⟩

/-- C19 at step 2 of the sequence `[1, 2, 3]` with two frames. -/
theorem C19_step_frame_effect_witness :
    (1 ≤ 2 ∧ 2 ≤ MAX_FRAMES ∧ 2 < ([1, 2, 3] : List Int).length) ∧
    (3 : Int) ∈ (optAt [1, 2, 3] 2 (2 + 1)).frames :=
  ⟨⟨by decide, by decide, by decide⟩,
   (C19_step_frame_effect [1, 2, 3] 2 (by decide) (by decide) 2 (by decide)).2.2.2.2⟩

/-! ## `lru` on a sequence that repeats one page -/

theorem lruScan_zero (F : Nat) : (lruScan (List.replicate F 0) F).2 = 0 := by
  obtain ⟨h1, _, _, h4⟩ := lruScan_loop (List.replicate F 0) (F - 1)
  unfold lruScan
  by_contra hne
  have hpos : 0 < (forLoop (lruScanBody (List.replicate F 0)) 1 (F - 1)
      ((List.replicate F 0).getD 0 0, 0)).2 := Nat.pos_of_ne_zero hne
  have := h4 0 hpos
  have h0 : (List.replicate F 0).getD 0 0 = 0 := by
    cases F with
    | zero => rfl
    | succ n => rfl
  rw [h0] at this
  omega

/-- After its first step `lru` holds the page in slot 0 and nothing changes any more but the
time stamps. -/
theorem lru_single_page (F : Nat) (hF : 1 ≤ F) (p : Int) (hp : 0 ≤ p) (n : Nat) (i : Nat)
    (hi : i < n) :
    (lruAt (List.replicate n p) F (i + 1)).frames = (emptyFrames F).set 0 p ∧
    (lruAt (List.replicate n p) F (i + 1)).cnt = 1 ∧
    (lruAt (List.replicate n p) F (i + 1)).page_faults = 0 := by
  induction i with
  | zero =>
    have hget : (List.replicate n p)[0]? = some p := by
      rw [List.getElem?_replicate]; simp [hi]
    have hin : inMemory (lruInit F).frames p = false := by
      rw [inMemory_false_iff]
      intro hmem
      have := List.eq_of_mem_replicate hmem
      omega
    rw [lruAt_succ]
    have h0 : lruAt (List.replicate n p) F 0 = lruInit F := rfl
    have hz : (lruScan (lruInit F).time F).2 = 0 := lruScan_zero F
    rw [h0, lruBody_miss hget hin, hz]
    refine ⟨rfl, rfl, ?_⟩
    show (if 0 + 1 > F then 0 + 1 else 0) = 0
    rw [if_neg (by omega)]
  | succ i ih =>
    obtain ⟨h1, h2, h3⟩ := ih (by omega)
    have hget : (List.replicate n p)[i + 1]? = some p := by
      rw [List.getElem?_replicate]; simp [hi]
    have hin : inMemory (lruAt (List.replicate n p) F (i + 1)).frames p = true := by
      rw [inMemory_iff, h1]
      exact List.mem_iff_getElem.2 ⟨0, by simp [emptyFrames]; omega, List.getElem_set_self _⟩
    obtain ⟨j, _, hb⟩ := lruBody_hit (F := F) hget hin
    rw [lruAt_succ, hb]
    exact ⟨h1, h2, h3⟩

/-- C13: for every `1 ≤ F ≤ 100`, every non-negative page `p` and every `n ≥ 1`, `lru` on `n`
copies of `p` misses at the first reference only, counts no fault and has miss rate 0, also
as returned by `lru` of vmstats.c. -/
theorem C13_lru_single_page (F : Nat) (hF : 1 ≤ F) (_hmax : F ≤ MAX_FRAMES) (p : Int)
    (hp : 0 ≤ p) (n : Nat) (hn : 1 ≤ n) :
    (∀ i, i < n → (isMiss (lruAt (List.replicate n p) F i).frames (List.replicate n p) i = true
        ↔ i = 0)) ∧
    (lru (List.replicate n p) F).cnt = 1 ∧
    missCount (fun t => (lruAt (List.replicate n p) F t).frames) (List.replicate n p)
      (List.replicate n p).length = 1 ∧
    (lru (List.replicate n p) F).page_faults = 0 ∧
    missRate (lru (List.replicate n p) F).page_faults (List.replicate n p).length = 0 ∧
    Vmstats.lru (List.replicate n p) F = 0 := by
  have hlen : (List.replicate n p).length = n := List.length_replicate _ _
  have hfin := lru_single_page F hF p hp n (n - 1) (by omega)
  have e : n - 1 + 1 = n := by omega
  rw [e] at hfin
  have hcnt : (lru (List.replicate n p) F).cnt = 1 := by
    unfold lru; rw [hlen]; exact hfin.2.1
  have hpf : (lru (List.replicate n p) F).page_faults = 0 := by
    unfold lru; rw [hlen]; exact hfin.2.2
  refine ⟨?_, hcnt, ?_, hpf, ?_, ?_⟩
  · intro i hi
    have hi' : i < (List.replicate n p).length := by omega
    have hget : (List.replicate n p)[i] = p := by simp
    cases i with
    | zero =>
      refine ⟨fun _ => rfl, fun _ => ?_⟩
      rw [isMiss_true_iff hi', hget, inMemory_false_iff]
      intro hmem
      have := List.eq_of_mem_replicate hmem
      omega
    | succ i =>
      refine ⟨fun h => ?_, fun h => by omega⟩
      exfalso
      rw [isMiss_true_iff hi', hget, inMemory_false_iff,
        (lru_single_page F hF p hp n i (by omega)).1] at h
      exact h (List.mem_iff_getElem.2
        ⟨0, by simp [emptyFrames]; omega, List.getElem_set_self _⟩)
  · have := run_cnt (lru_isRun (List.replicate n p) F hF) (List.replicate n p).length
      (Nat.le_refl _)
    simp only [LruState.core] at this
    rw [← this]
    exact hcnt
  · rw [hpf]; simp [missRate]
  · rw [statsLru_eq, hpf]; simp [missRate]

/-- C13 at the sequence `[0, 0, 0, 0]` with one frame. -/
theorem C13_lru_single_page_witness :
    (1 ≤ 1 ∧ 1 ≤ MAX_FRAMES ∧ (0 : Int) ≤ 0 ∧ 1 ≤ 4) ∧
    (lru (List.replicate 4 0) 1).cnt = 1 ∧ (lru (List.replicate 4 0) 1).page_faults = 0 ∧
    missRate (lru (List.replicate 4 0) 1).page_faults (List.replicate 4 (0 : Int)).length = 0 :=
  ⟨⟨by decide, by decide, by decide, by decide⟩,
   (C13_lru_single_page 1 (by decide) (by decide) 0 (by decide) 4 (by decide)).2.1,
   (C13_lru_single_page 1 (by decide) (by decide) 0 (by decide) 4 (by decide)).2.2.2.1,
   (C13_lru_single_page 1 (by decide) (by decide) 0 (by decide) 4 (by decide)).2.2.2.2.1⟩

/-! ## `lru` against least-recently-used replacement -/

/-- C17, failing input: on `[0, 1, 0]` with two frames page 0 is, at step 2, among the two
most recently referenced distinct pages and the reference LRU hits (it misses twice in all),
but `lru` misses at step 2 and counts three misses: at step 1 it stored page 1 over page 0. -/
theorem C17_lru_misses_recently_used_page :
    NonNeg [0, 1, 0] ∧
    recentPages (([0, 1, 0] : List Int).take 2) = [1, 0] ∧
    referenceLruHit [0, 1, 0] 2 2 = true ∧
    isMiss (lruAt [0, 1, 0] 2 2).frames [0, 1, 0] 2 = true ∧
    referenceLruMisses [0, 1, 0] 2 = [true, true, false] ∧
    (List.range 3).map (fun i => isMiss (lruAt [0, 1, 0] 2 i).frames [0, 1, 0] i)
      = [true, true, true] ∧
    (lru [0, 1, 0] 2).cnt = 3 ∧
    (lruAt [0, 1, 0] 2 1).frames = [0, -1] ∧ (lruAt [0, 1, 0] 2 2).frames = [1, -1] := by
  refine ⟨by decide, ?_, ?_, ?_, ?_, ?_, ?_, ?_, ?_⟩ <;> decide

/-! ## `fifo` removes the page loaded first -/

theorem fifo_loadStep_hit (refs : List Int) (F i : Nat) (hi : i < refs.length)
    (hin : inMemory (fifoAt refs F i).frames refs[i] = true) (j : Nat) :
    loadStep (fun t => (fifoAt refs F t).frames) refs (i + 1) j
      = loadStep (fun t => (fifoAt refs F t).frames) refs i j := by
  have hm := (isMiss_false_iff hi).2 hin
  simp only [loadStep, hm]
  rw [if_neg (fun h => by cases h.1)]

theorem fifo_loadStep_miss (refs : List Int) (F : Nat) (hF : 1 ≤ F) (i : Nat)
    (hi : i < refs.length) (hin : inMemory (fifoAt refs F i).frames refs[i] = false) (j : Nat)
    (hj : j < F) :
    loadStep (fun t => (fifoAt refs F t).frames) refs (i + 1) j
      = if j = (fifoAt refs F i).next_frame then some i
        else loadStep (fun t => (fifoAt refs F t).frames) refs i j := by
  have hm := (isMiss_true_iff hi).2 hin
  have hp : refs[i]? = some refs[i] := List.getElem?_eq_getElem hi
  have hlen := fifo_frames_length refs F hF i (by omega)
  have hnot := (inMemory_false_iff _ _).1 hin
  have hjl : j < (fifoAt refs F i).frames.length := by omega
  simp only [loadStep, hm, true_and]
  rw [fifoAt_succ, fifoBody_miss hp hin, hp]
  simp only
  by_cases hjc : j = (fifoAt refs F i).next_frame
  · rw [if_pos hjc, if_pos]
    rw [← hjc, List.getElem?_set_self hjl]
  · rw [if_neg hjc, if_neg]
    rw [List.getElem?_set_ne (fun e => hjc e.symm), List.getElem?_eq_getElem hjl]
    intro he
    simp only [Option.some.injEq] at he
    exact hnot (he ▸ List.getElem_mem hjl)

theorem rotation_next {F c j : Nat} (hc : c < F) (hj : j < F) :
    rotation F ((c + 1) % F) j = if j = c then F - 1 else rotation F c j - 1 := by
  by_cases hcF : c + 1 = F
  · rw [hcF, Nat.mod_self]
    simp only [rotation]
    split_ifs <;> omega
  · rw [Nat.mod_eq_of_lt (by omega)]
    simp only [rotation]
    split_ifs <;> omega

theorem rotation_pos {F c j : Nat} (hc : c < F) (hj : j < F) (hne : j ≠ c) :
    0 < rotation F c j ∧ rotation F c j < F := by
  unfold rotation
  split <;> omega

/-- The load steps of `fifo` grow along the rotation that starts at the cursor, the slots
never loaded coming first. -/
theorem fifo_age_order (refs : List Int) (F : Nat) (hF : 1 ≤ F) (i : Nat)
    (hi : i ≤ refs.length) :
    (∀ j1 j2, j1 < F → j2 < F →
      rotation F (fifoAt refs F i).next_frame j1 < rotation F (fifoAt refs F i).next_frame j2 →
      loadStep (fun t => (fifoAt refs F t).frames) refs i j1 = none ∨
      ∃ t1 t2, loadStep (fun t => (fifoAt refs F t).frames) refs i j1 = some t1 ∧
        loadStep (fun t => (fifoAt refs F t).frames) refs i j2 = some t2 ∧ t1 < t2) ∧
    (∀ j t, j < F → loadStep (fun t => (fifoAt refs F t).frames) refs i j = some t → t < i) ∧
    (∀ j, j < F → (loadStep (fun t => (fifoAt refs F t).frames) refs i j = none ↔
      (fifoAt refs F i).cnt ≤ j)) := by
  induction i with
  | zero =>
    refine ⟨fun j1 j2 _ _ _ => Or.inl rfl, fun j t _ h => (by cases h), fun j _ => ?_⟩
    simp [loadStep, fifoAt, forLoop, fifoInit]
  | succ i ih =>
    obtain ⟨hQ, hB, hE⟩ := ih (by omega)
    have hlt : i < refs.length := by omega
    have hp : refs[i]? = some refs[i] := List.getElem?_eq_getElem hlt
    have hcur := fifo_cursor refs F i
    have hcF : (fifoAt refs F i).next_frame < F := by rw [hcur]; exact Nat.mod_lt _ hF
    cases hin : inMemory (fifoAt refs F i).frames refs[i]
    · have hL := fifo_loadStep_miss refs F hF i hlt hin
      have hst : fifoAt refs F (i + 1) = fifoBody refs F i (fifoAt refs F i) := fifoAt_succ _ _ _
      rw [fifoBody_miss hp hin] at hst
      have hnf : (fifoAt refs F (i + 1)).next_frame = ((fifoAt refs F i).next_frame + 1) % F := by
        rw [hst]
      have hcnt : (fifoAt refs F (i + 1)).cnt = (fifoAt refs F i).cnt + 1 := by rw [hst]
      refine ⟨?_, ?_, ?_⟩
      · intro j1 j2 hj1 hj2 hr
        rw [hnf, rotation_next hcF hj1, rotation_next hcF hj2] at hr
        rw [hL j1 hj1, hL j2 hj2]
        by_cases h1 : j1 = (fifoAt refs F i).next_frame
        · have := rotation_pos hcF hj2
          rw [if_pos h1] at hr
          split at hr <;> omega
        · rw [if_neg h1] at hr ⊢
          by_cases h2 : j2 = (fifoAt refs F i).next_frame
          · rw [if_pos h2]
            cases hl1 : loadStep (fun t => (fifoAt refs F t).frames) refs i j1 with
            | none => exact Or.inl rfl
            | some t1 => exact Or.inr ⟨t1, i, rfl, rfl, hB j1 t1 hj1 hl1⟩
          · rw [if_neg h2] at hr ⊢
            have hp1 := rotation_pos hcF hj1 h1
            exact hQ j1 j2 hj1 hj2 (by omega)
      · intro j t hj ht
        rw [hL j hj] at ht
        split at ht
        · cases ht; omega
        · have := hB j t hj ht; omega
      · intro j hj
        rw [hL j hj, hcnt]
        by_cases h1 : j = (fifoAt refs F i).next_frame
        · rw [if_pos h1]
          have : (fifoAt refs F i).cnt % F ≤ (fifoAt refs F i).cnt := Nat.mod_le _ _
          constructor
          · intro h; cases h
          · intro h; omega
        · rw [if_neg h1, hE j hj]
          constructor
          · intro h
            by_contra hcon
            have hje : (fifoAt refs F i).cnt = j := by omega
            rw [hcur, hje, Nat.mod_eq_of_lt hj] at h1
            exact h1 rfl
          · intro h; omega
    · have hL := fifo_loadStep_hit refs F i hlt hin
      have hst : fifoAt refs F (i + 1) = fifoAt refs F i := by
        rw [fifoAt_succ, fifoBody_hit hp hin]
      refine ⟨?_, ?_, ?_⟩
      · intro j1 j2 hj1 hj2 hr
        rw [hst] at hr
        rw [hL j1, hL j2]
        exact hQ j1 j2 hj1 hj2 hr
      · intro j t hj ht
        rw [hL j] at ht
        have := hB j t hj ht; omega
      · intro j hj
        rw [hL j, hst]
        exact hE j hj
/-- C18: in `fifo`, over non-negative pages and with `1 ≤ F ≤ 100`, a miss stores its page
into the slot under the cursor; while an empty slot exists that slot is empty; and when the
slot is occupied, its page is the one that was loaded before every other resident page. -/
theorem C18_fifo_replaces_oldest (refs : List Int) (F : Nat) (hF : 1 ≤ F)
    (_hmax : F ≤ MAX_FRAMES) (hnn : NonNeg refs) (i : Nat) (hi : i < refs.length)
    (hmiss : isMiss (fifoAt refs F i).frames refs i = true) :
    (fifoAt refs F i).next_frame < F ∧
    (fifoAt refs F (i + 1)).frames
      = (fifoAt refs F i).frames.set (fifoAt refs F i).next_frame refs[i] ∧
    ((-1 : Int) ∈ (fifoAt refs F i).frames →
      (fifoAt refs F i).frames[(fifoAt refs F i).next_frame]? = some (-1)) ∧
    ((fifoAt refs F i).frames[(fifoAt refs F i).next_frame]? ≠ some (-1) →
      ∃ tc, loadStep (fun t => (fifoAt refs F t).frames) refs i (fifoAt refs F i).next_frame
          = some tc ∧
        ∀ j, j < F → j ≠ (fifoAt refs F i).next_frame →
          (fifoAt refs F i).frames[j]? ≠ some (-1) →
          ∃ tj, loadStep (fun t => (fifoAt refs F t).frames) refs i j = some tj ∧ tc < tj) := by
  have hp : refs[i]? = some refs[i] := List.getElem?_eq_getElem hi
  have hin := (isMiss_true_iff hi).1 hmiss
  have hcur := fifo_cursor refs F i
  have hcF : (fifoAt refs F i).next_frame < F := by rw [hcur]; exact Nat.mod_lt _ hF
  have hlen := fifo_frames_length refs F hF i (by omega)
  have hempty := fifo_empty_slots refs F hF hnn i (by omega)
  have hget : ∀ j, j < F →
      ((fifoAt refs F i).frames[j]? = some (-1) ↔ (fifoAt refs F i).cnt ≤ j) := by
    intro j hj
    rw [← hempty j hj, List.getD_eq_getElem?_getD, List.getElem?_eq_getElem (by omega)]
    simp
  obtain ⟨hQ, _, hE⟩ := fifo_age_order refs F hF i (by omega)
  refine ⟨hcF, ?_, ?_, ?_⟩
  · rw [fifoAt_succ, fifoBody_miss hp hin]
  · intro hmem
    have hnf : ¬ F ≤ (fifoAt refs F i).cnt :=
      fun h => ((fifo_full_iff refs F hF hnn i (by omega)).2 h) hmem
    rw [hget _ hcF, hcur, Nat.mod_eq_of_lt (by omega)]
  · intro hocc
    have hc1 : ¬ (fifoAt refs F i).cnt ≤ (fifoAt refs F i).next_frame :=
      fun h => hocc ((hget _ hcF).2 h)
    have hfull : F ≤ (fifoAt refs F i).cnt := by
      by_contra hcon
      rw [hcur, Nat.mod_eq_of_lt (by omega)] at hc1
      omega
    cases hlc : loadStep (fun t => (fifoAt refs F t).frames) refs i
        (fifoAt refs F i).next_frame with
    | none => exact absurd ((hE _ hcF).1 hlc) hc1
    | some tc =>
      refine ⟨tc, rfl, ?_⟩
      intro j hj hne _
      have hr : rotation F (fifoAt refs F i).next_frame (fifoAt refs F i).next_frame
          < rotation F (fifoAt refs F i).next_frame j := by
        have := (rotation_pos hcF hj hne).1
        have h0 : rotation F (fifoAt refs F i).next_frame (fifoAt refs F i).next_frame = 0 := by
          simp [rotation]
        omega
      rcases hQ _ j hcF hj hr with h | ⟨t1, t2, h1, h2, h3⟩
      · rw [hlc] at h; cases h
      · rw [hlc] at h1
        cases h1
        exact ⟨t2, h2, h3⟩

/-- C18 at step 3 of the sequence `[1, 2, 1, 3, 4]` with two frames, where page 3 replaces
page 1. -/
theorem C18_fifo_replaces_oldest_witness :
    (1 ≤ 2 ∧ 2 ≤ MAX_FRAMES ∧ NonNeg [1, 2, 1, 3, 4] ∧
      3 < ([1, 2, 1, 3, 4] : List Int).length ∧
      isMiss (fifoAt [1, 2, 1, 3, 4] 2 3).frames [1, 2, 1, 3, 4] 3 = true) ∧
    (fifoAt [1, 2, 1, 3, 4] 2 3).next_frame < 2 :=
  ⟨⟨by decide, by decide, by decide, by decide, by decide⟩,
   (C18_fifo_replaces_oldest [1, 2, 1, 3, 4] 2 (by decide) (by decide) (by decide) 3
    (by decide) (by decide)).1⟩

/-! ## The generator -/

theorem retry_ends (rand : Nat → Nat) (range prev : Int) (hr : 1 ≤ range) :
    ∀ (d pos : Nat) (page : Int), 0 ≤ page → page < range →
      (page ≠ prev ∨ ∃ m, pos ≤ m ∧ m < pos + d ∧ (rand m : Int) % range ≠ prev) →
      ∃ page' pos', page' ≠ prev ∧ 0 ≤ page' ∧ page' < range ∧
        ∀ fuel, d ≤ fuel → Vmgen.retry rand range prev fuel page pos = some (page', pos') := by
  intro d
  induction d with
  | zero =>
    intro pos page h0 h1 h
    have hne : page ≠ prev := by
      rcases h with h | ⟨m, hm1, hm2, _⟩
      · exact h
      · omega
    refine ⟨page, pos, hne, h0, h1, ?_⟩
    intro fuel _
    cases fuel with
    | zero => simp [Vmgen.retry, hne]
    | succ f => simp [Vmgen.retry, hne]
  | succ d ih =>
    intro pos page h0 h1 h
    by_cases hne : page = prev
    · have hnext : ((rand pos : Int) % range ≠ prev ∨
          ∃ m, pos + 1 ≤ m ∧ m < pos + 1 + d ∧ (rand m : Int) % range ≠ prev) := by
        rcases h with h | ⟨m, hm1, hm2, hm3⟩
        · exact absurd hne h
        · by_cases hmp : m = pos
          · subst hmp; exact Or.inl hm3
          · exact Or.inr ⟨m, by omega, by omega, hm3⟩
      obtain ⟨page', pos', hp1, hp2, hp3, hp4⟩ := ih (pos + 1) ((rand pos : Int) % range)
        (Int.emod_nonneg _ (by omega)) (Int.emod_lt_of_pos _ (by omega)) hnext
      refine ⟨page', pos', hp1, hp2, hp3, ?_⟩
      intro fuel hfuel
      cases fuel with
      | zero => omega
      | succ f =>
        simp only [Vmgen.retry, hne, if_true]
        exact hp4 f (by omega)
    · refine ⟨page, pos, hne, h0, h1, ?_⟩
      intro fuel _
      cases fuel with
      | zero => simp [Vmgen.retry, hne]
      | succ f => simp [Vmgen.retry, hne]

theorem genLoop_ends (rand : Nat → Nat) (range : Int) (hr : 1 ≤ range)
    (hfair : Vmgen.EveryResidueRecurs rand range) :
    ∀ (n : Nat) (prev : Int) (pos : Nat), (prev < 0 ∨ 2 ≤ range) → (n ≤ 1 ∨ 2 ≤ range) →
      ∃ out fuel0, out.length = n ∧ (∀ x, x ∈ out → 0 ≤ x ∧ x < range) ∧
        List.Chain (fun a b => a ≠ b) prev out ∧
        ∀ fuel, fuel0 ≤ fuel → Vmgen.genLoop rand range fuel n prev pos = some out := by
  intro n
  induction n with
  | zero =>
    intro prev pos _ _
    exact ⟨[], 0, rfl, fun x hx => (by cases hx), List.Chain.nil, fun fuel _ => rfl⟩
  | succ n ih =>
    intro prev pos hprev hn
    have h0 : 0 ≤ (rand pos : Int) % range := Int.emod_nonneg _ (by omega)
    have h1 : (rand pos : Int) % range < range := Int.emod_lt_of_pos _ (by omega)
    have hcond : ∃ d, ((rand pos : Int) % range ≠ prev ∨
        ∃ m, pos + 1 ≤ m ∧ m < pos + 1 + d ∧ (rand m : Int) % range ≠ prev) := by
      by_cases hneg : prev < 0
      · exact ⟨0, Or.inl (by omega)⟩
      · have h2 : 2 ≤ range := by
          rcases hprev with h | h
          · exact absurd h hneg
          · exact h
        by_cases hp0 : prev = 0
        · obtain ⟨m, hm1, hm2⟩ := hfair 1 (by omega) (pos + 1)
          exact ⟨m - pos, Or.inr ⟨m, hm1, by omega, by rw [hm2, hp0]; decide⟩⟩
        · obtain ⟨m, hm1, hm2⟩ := hfair 0 (by omega) (pos + 1)
          exact ⟨m - pos, Or.inr ⟨m, hm1, by omega, by rw [hm2]; exact fun e => hp0 e.symm⟩⟩
    obtain ⟨d, hd⟩ := hcond
    obtain ⟨page, pos', hp1, hp2, hp3, hp4⟩ :=
      retry_ends rand range prev hr d (pos + 1) _ h0 h1 hd
    rcases Nat.eq_zero_or_pos n with hn0 | hnpos
    · subst hn0
      refine ⟨[page], d, rfl, ?_, List.Chain.cons (fun e => hp1 e.symm) List.Chain.nil, ?_⟩
      · intro x hx
        rw [List.mem_singleton] at hx
        subst hx; exact ⟨hp2, hp3⟩
      · intro fuel hfuel
        simp [Vmgen.genLoop, hp4 fuel hfuel]
    · have h2 : 2 ≤ range := by
        rcases hn with h | h
        · omega
        · exact h
      obtain ⟨out, fuel0, ho1, ho2, ho3, ho4⟩ := ih page pos' (Or.inr h2) (Or.inr h2)
      refine ⟨page :: out, max d fuel0, by simp [ho1], ?_,
        List.Chain.cons (fun e => hp1 e.symm) ho3, ?_⟩
      · intro x hx
        rcases List.mem_cons.1 hx with h | h
        · subst h; exact ⟨hp2, hp3⟩
        · exact ho2 x h
      · intro fuel hfuel
        have hf1 : d ≤ fuel := le_trans (le_max_left _ _) hfuel
        have hf2 : fuel0 ≤ fuel := le_trans (le_max_right _ _) hfuel
        simp [Vmgen.genLoop, hp4 fuel hf1, ho4 fuel hf2]

theorem retry_same_never_ends (fuel : Nat) :
    ∀ pos, Vmgen.retry (fun _ => 0) 1 0 fuel 0 pos = none := by
  induction fuel with
  | zero => intro pos; rfl
  | succ f ih =>
    intro pos
    simp only [Vmgen.retry, if_true]
    exact ih (pos + 1)

/-- C20, counterexample: with `range = 1`, `length = 2` and the random source that always
returns 0, in which the only residue modulo 1 recurs for ever, the generator writes 0 and then
never leaves the loop `while (page == prev_page)`: no amount of fuel gives an output. -/
theorem C20_range_one_never_terminates :
    Vmgen.EveryResidueRecurs (fun _ => 0) 1 ∧
    ¬ ∃ fuel out, Vmgen.generate_page_references 1 2 true (fun _ => 0) fuel = some out := by
  constructor
  · intro r hr n
    exact ⟨n, Nat.le_refl _, by omega⟩
  · rintro ⟨fuel, out, h⟩
    have h1 : Vmgen.retry (fun _ => 0) 1 (-1) fuel 0 1 = some (0, 1) := by
      cases fuel <;> rfl
    have h2 := retry_same_never_ends fuel 2
    simp [Vmgen.generate_page_references, Vmgen.genLoop, h1, h2] at h

/-- C20, amended: with `rand()` a stream of non-negative integers in which every residue
modulo `range` occurs infinitely often, for every `1 ≤ range ≤ 100` and every `length ≥ 0`
with `range ≥ 2` or `length ≤ 1`, `generate_page_references` terminates (some amount of fuel
and every larger one gives the same output) and writes exactly `length` integers, each in
`[0, range)`, no two consecutive ones equal. -/
theorem C20_generator_output (rand : Nat → Nat) (range length : Int) (h1 : 1 ≤ range)
    (h2 : range ≤ 100) (h0 : 0 ≤ length) (hfair : Vmgen.EveryResidueRecurs rand range)
    (hok : 2 ≤ range ∨ length ≤ 1) :
    ∃ out fuel0,
      (∀ fuel, fuel0 ≤ fuel → Vmgen.generate_page_references range length true rand fuel
        = some (Vmgen.GenOutcome.written out)) ∧
      (out.length : Int) = length ∧ (∀ x, x ∈ out → 0 ≤ x ∧ x < range) ∧
      List.Chain' (fun a b => a ≠ b) out := by
  obtain ⟨out, fuel0, ho1, ho2, ho3, ho4⟩ := genLoop_ends rand range h1 hfair length.toNat
    (-1) 0 (Or.inl (by decide)) (by omega)
  refine ⟨out, fuel0, ?_, by omega, ho2, ?_⟩
  · intro fuel hfuel
    unfold Vmgen.generate_page_references
    rw [if_neg (by omega), if_neg (by decide), ho4 fuel hfuel]
    rfl
  · cases out with
    | nil => exact List.chain'_nil
    | cons a rest =>
      cases ho3 with
      | cons _ hrest => exact hrest

theorem everyResidueRecurs_id : Vmgen.EveryResidueRecurs (fun k => k) 3 := by
  intro r hr n
  refine ⟨3 * n + r, by omega, ?_⟩
  have : ((3 * n + r : Nat) : Int) % 3 = (r : Int) := by omega
  exact this

/-- C20, amended, for `range = 3`, `length = 4` and the random source `0, 1, 2, 3, ...`. -/
theorem C20_generator_output_witness :
    ((1 : Int) ≤ 3 ∧ (3 : Int) ≤ 100 ∧ (0 : Int) ≤ 4 ∧
      Vmgen.EveryResidueRecurs (fun k => k) 3 ∧ ((2 : Int) ≤ 3 ∨ (4 : Int) ≤ 1)) ∧
    ∃ out fuel0,
      (∀ fuel, fuel0 ≤ fuel → Vmgen.generate_page_references 3 4 true (fun k => k) fuel
        = some (Vmgen.GenOutcome.written out)) ∧
      (out.length : Int) = 4 ∧ (∀ x, x ∈ out → 0 ≤ x ∧ x < 3) ∧
      List.Chain' (fun a b => a ≠ b) out :=
  ⟨⟨by decide, by decide, by decide, everyResidueRecurs_id, Or.inl (by decide)⟩,
   C20_generator_output (fun k => k) 3 4 (by decide) (by decide) (by decide)
    everyResidueRecurs_id (Or.inl (by decide))⟩

end Vmsim
